import Mathlib

/-!
Verification of the core computational engine of a character-level
autoregressive transformer written in Go (scalar reverse-mode autodiff,
transformer forward pass with KV cache, Adam optimizer, batched trainer,
probabilistic sampler).

Modelling conventions, fixed once for the whole development:

* Go `float64` is modelled as `ℝ` (exact real arithmetic); `math.Exp`,
  `math.Log`, `math.Sqrt`, `math.Pow` become `Real.exp`, `Real.log`,
  `Real.sqrt`, `Real.rpow`.
* The heap of `*Value` nodes is modelled as a store `List Value`; a Go
  pointer becomes the index of the node in the store (pointers are created
  by appending, so indices are stable).  Reading through a dangling index
  yields the `default` node, which has no Go counterpart because Go
  pointers are always valid.
* The DAG invariant stated in the spec ("every node is created strictly
  after all its parents") appears as the side condition `c < i` guarding
  the recursion of the depth-first traversal; on every store built by the
  constructors below the guard never fires.
* `rand.Float64()` / `rand.Intn(n)` draws are passed in as explicit
  streams (`Nat → ℝ` / `Nat → Nat`) consumed in call order.
-/

noncomputable section

/-- The autodiff node from the Go source: a scalar `Data`, a gradient
accumulator `Grad`, the list of parent ("children" in the source's naming)
node pointers that produced it and the matching local derivatives. -/
structure Value where
  Data : ℝ
  Grad : ℝ
  Children : List Nat
  LocalGrads : List ℝ

instance : Inhabited Value := ⟨⟨0, 0, [], []⟩⟩

/-- The heap of allocated nodes; a `*Value` is an index into this list. -/
abbrev Store := List Value

/-- Reading a node through its pointer. -/
def nthVal (s : Store) (i : Nat) : Value := s.getD i default

/-- Allocation: append a node, return the new store and the node's pointer. -/
def Store.push (s : Store) (v : Value) : Store × Nat :=
  (s ++ [v], s.length)

/-- `NewValue(data)`: a leaf node (plain number with no parents). -/
def NewValue (data : ℝ) : Value :=
  { Data := data, Grad := 0, Children := [], LocalGrads := [] }

/-- `v.Add(other)`: node `z = x + y`, local derivatives 1 and 1. -/
def Store.add (s : Store) (x y : Nat) : Store × Nat :=
  s.push { Data := (nthVal s x).Data + (nthVal s y).Data, Grad := 0,
           Children := [x, y], LocalGrads := [1, 1] }

/-- `v.Mul(other)`: node `z = x * y`, local derivatives `y` and `x`. -/
def Store.mul (s : Store) (x y : Nat) : Store × Nat :=
  s.push { Data := (nthVal s x).Data * (nthVal s y).Data, Grad := 0,
           Children := [x, y],
           LocalGrads := [(nthVal s y).Data, (nthVal s x).Data] }

/-- `v.Pow(power)`: node `z = x ^ p`, local derivative `p * x ^ (p-1)`. -/
def Store.pow (s : Store) (x : Nat) (power : ℝ) : Store × Nat :=
  s.push { Data := (nthVal s x).Data ^ power, Grad := 0, Children := [x],
           LocalGrads := [power * (nthVal s x).Data ^ (power - 1)] }

/-- `v.Log()`: node `z = ln x`, local derivative `1 / x`. -/
def Store.log (s : Store) (x : Nat) : Store × Nat :=
  s.push { Data := Real.log (nthVal s x).Data, Grad := 0, Children := [x],
           LocalGrads := [1 / (nthVal s x).Data] }

/-- `v.Exp()`: node `z = e ^ x`, local derivative `e ^ x`. -/
def Store.exp (s : Store) (x : Nat) : Store × Nat :=
  s.push { Data := Real.exp (nthVal s x).Data, Grad := 0, Children := [x],
           LocalGrads := [Real.exp (nthVal s x).Data] }

/-- `v.Relu()`: node `z = max 0 x`, local derivative 1 if `x > 0` else 0. -/
def Store.relu (s : Store) (x : Nat) : Store × Nat :=
  s.push { Data := max 0 (nthVal s x).Data, Grad := 0, Children := [x],
           LocalGrads := [if (nthVal s x).Data > 0 then (1 : ℝ) else 0] }

mutual

/-- The depth-first `buildTopo` closure of `Value.Backward`: skip a visited
node, otherwise mark it visited, recurse into its children, then append it
to the topological order.  The guard `c < i` is the construction-order DAG
invariant of the source (children are always created before their parent);
it makes the recursion structural and never fires on constructor-built
stores. -/
def buildTopo (s : Store) (i : Nat) (visited topo : List Nat) :
    List Nat × List Nat :=
  if i ∈ visited then (visited, topo)
  else
    let r := buildTopoList s i (nthVal s i).Children (i :: visited) topo
    (r.1, r.2 ++ [i])
termination_by (i, 1, 0)

/-- The `for _, child := range node.Children` loop inside `buildTopo`. -/
def buildTopoList (s : Store) (i : Nat) (cs visited topo : List Nat) :
    List Nat × List Nat :=
  match cs with
  | [] => (visited, topo)
  | c :: cs' =>
    if h : c < i then
      let r := buildTopo s c visited topo
      buildTopoList s i cs' r.1 r.2
    else
      buildTopoList s i cs' visited topo
termination_by (i, 0, cs.length)

end

/-- Overwrite one field of the node at index `i` (no-op when `i` is out of
range, like a write through a pointer that cannot exist in Go). -/
def modifyAt (s : Store) (i : Nat) (f : Value → Value) : Store :=
  s.set i (f (nthVal s i))

/-- One iteration of the reverse sweep of `Value.Backward`: for every
`(child, localGrad)` pair of node `i`, accumulate
`child.Grad += localGrad * curr.Grad`, reading `curr.Grad` afresh at every
step exactly like the Go field read does. -/
def backStep (s : Store) (i : Nat) : Store :=
  ((nthVal s i).Children.zip (nthVal s i).LocalGrads).foldl
    (fun st p =>
      modifyAt st p.1 (fun v => { v with Grad := v.Grad + p.2 * (nthVal st i).Grad }))
    s

/-- `v.Backward()`: build the topological order by depth-first traversal,
seed the root gradient with 1, then sweep the order in reverse accumulating
gradients into the children. -/
def Backward (s : Store) (root : Nat) : Store :=
  let topo := (buildTopo s root [] []).2
  let s1 := modifyAt s root (fun v => { v with Grad := 1 })
  topo.reverse.foldl backStep s1

/-- Quick evaluation check of the embedding on `z = x * y`, `x = 3`,
`y = 4`: after `z.Backward()` the leaf gradients are `y = 4` and `x = 3`. -/
example :
    let s0 : Store := [NewValue 3, NewValue 4]
    let r := Store.mul s0 0 1
    (nthVal (Backward r.1 r.2) 0).Grad = 4 ∧
      (nthVal (Backward r.1 r.2) 1).Grad = 3 := by
  constructor <;>
    simp [Backward, buildTopo, buildTopoList, backStep, Store.mul, Store.push,
      NewValue, nthVal, modifyAt]

/-- Exact value of Go's `math.MaxFloat64`, used as the initial maximum in
the source's running-max loops. -/
def maxFloat64 : ℝ := (2 ^ 53 - 1) * 2 ^ 971

/-- `tokenLabel`: the shared control token is displayed as `<END>`, other
ids index the vocabulary (an out-of-range id would panic in Go; here it
reads as `""`). -/
def tokenLabel (tokenID bos : Nat) (chars : List String) : String :=
  if tokenID = bos then "<END>" else chars.getD tokenID ""

/-- `encodeDoc`: wrap the document with the BOS id at both ends; each rune
is mapped through the first matching vocabulary entry (the inner
first-match-and-break loop is `List.findIdx?`), runes without a match are
skipped. -/
def encodeDoc (doc : List Char) (chars : List String) (bos : Nat) : List Nat :=
  (doc.foldl
    (fun tokens char =>
      match chars.findIdx? (fun c => decide (c = String.singleton char)) with
      | some idx => tokens ++ [idx]
      | none => tokens)
    [bos]) ++ [bos]

/-- The cumulative walk of `sampleFromProbVector`, with the running state
`(remaining probabilities, current index, cumulative sum)`; the draw `u`
and the fallback id are fixed.  Returns
`(chosen, u, cumBefore, cumAfter, chosenProb)` exactly like the source. -/
def sampleScan (u : ℝ) (fallbackTokenID : Nat) :
    List ℝ → Nat → ℝ → Nat × ℝ × ℝ × ℝ × ℝ
  | [], _, cumulative => (fallbackTokenID, u, 0, cumulative, 0)
  | p :: rest, idx, cumulative =>
    if u < cumulative + p then (idx, u, cumulative, cumulative + p, p)
    else sampleScan u fallbackTokenID rest (idx + 1) (cumulative + p)

/-- `sampleFromProbVector`: inverse transform sampling.  The uniform draw
`u` (`rand.Float64()` in the source) is passed in explicitly. -/
def sampleFromProbVector (probs : List ℝ) (fallbackTokenID : Nat) (u : ℝ) :
    Nat × ℝ × ℝ × ℝ × ℝ :=
  sampleScan u fallbackTokenID probs 0 0

/-- `GenerateOptions` from the API types (`top_k` and `min_len` are Go
ints, so they may be negative before `samplingConfig` clamps them). -/
structure GenerateOptions where
  Temperature : ℝ
  TopK : Int
  MinLen : Int

/-- `samplingConfig`: defaults and clamping of generation options. -/
def samplingConfig (opts : GenerateOptions) (vocabSize : Nat) : GenerateOptions :=
  let o1 := if opts.Temperature ≤ 0 then { opts with Temperature := 0.7 } else opts
  let o2 := if o1.TopK < 0 then { o1 with TopK := 0 } else o1
  let o3 := if o2.TopK > (vocabSize : Int) then { o2 with TopK := (vocabSize : Int) } else o2
  if o3.MinLen < 0 then { o3 with MinLen := 0 } else o3

/-- Insertion step of the index sort used to model `sort.Slice` (Go's
comparison sort is unstable, so any order consistent with the comparator
is an admissible model). -/
def insertSorted (le : Nat → Nat → Bool) (x : Nat) : List Nat → List Nat
  | [] => [x]
  | y :: ys => if le x y then x :: y :: ys else y :: insertSorted le x ys

/-- Index sort by a boolean comparator, modelling `sort.Slice`. -/
def sortIdx (le : Nat → Nat → Bool) (l : List Nat) : List Nat :=
  l.foldr (insertSorted le) []

/-- First stage of `toProbVector`: divide every logit by the temperature. -/
def rawDivTemp (logits : List ℝ) (temperature : ℝ) : List ℝ :=
  logits.map (· / temperature)

/-- Second stage of `toProbVector`: stable softmax over plain floats — max
subtraction (running max seeded with `-math.MaxFloat64`), exponentiation,
and normalization guarded by `sumExp > 0`. -/
def stableExpProbs (raw : List ℝ) : List ℝ :=
  let maxLogit := raw.foldl max (-maxFloat64)
  let exps := raw.map (fun r => Real.exp (r - maxLogit))
  if exps.sum > 0 then exps.map (· / exps.sum) else exps

/-- Third stage of `toProbVector`: keep only the `topK` highest-probability
entries (indices sorted descending by probability, first `topK` kept, the
rest zeroed), active only when `0 < topK < len(probs)`. -/
def topKFilter (probs : List ℝ) (topK : Int) : List ℝ :=
  if 0 < topK ∧ topK < (probs.length : Int) then
    let indices := sortIdx (fun i j => decide (probs.getD j 0 ≤ probs.getD i 0))
      (List.range probs.length)
    let keep := indices.take topK.toNat
    (List.range probs.length).map (fun i => if i ∈ keep then probs.getD i 0 else 0)
  else probs

/-- Fourth stage of `toProbVector`: temporarily suppress the control token
(the `bosTokenID >= 0` half of the source's guard is trivial for `Nat`). -/
def suppressControl (probs : List ℝ) (bosTokenID : Nat) (suppressEnd : Bool) : List ℝ :=
  if suppressEnd ∧ bosTokenID < probs.length then probs.set bosTokenID 0 else probs

/-- Last stage of `toProbVector`: renormalize, falling back to a uniform
distribution when all mass was filtered away; under `suppressEnd` with more
than one entry the control token is re-zeroed and the mass spread over the
rest.  (In this fallback the Go write `probs[bosTokenID] = 0` has no bounds
check; `List.set` is a no-op there, which is only reachable through the
float-underflow path that the real-number model excludes.) -/
def renormalizeOrUniform (probs : List ℝ) (bosTokenID : Nat) (suppressEnd : Bool) : List ℝ :=
  if probs.sum > 0 then probs.map (· / probs.sum)
  else
    let uniform := List.replicate probs.length ((1 : ℝ) / probs.length)
    if suppressEnd ∧ 1 < probs.length then
      (uniform.set bosTokenID 0).mapIdx
        (fun i p => if i = bosTokenID then p else 1 / ((probs.length : ℝ) - 1))
    else uniform

/-- `toProbVector`: temperature scaling, stable softmax, optional top-k
filtering, optional control-token suppression, renormalization with
uniform fallback.  Takes the `Data` fields of the logit nodes (the only
thing the source reads from them) and returns `(raw, probs)`. -/
def toProbVector (logits : List ℝ) (opts : GenerateOptions) (bosTokenID : Nat)
    (suppressEnd : Bool) : List ℝ × List ℝ :=
  let raw := rawDivTemp logits opts.Temperature
  let p1 := stableExpProbs raw
  let p2 := topKFilter p1 opts.TopK
  let p3 := suppressControl p2 bosTokenID suppressEnd
  (raw, renormalizeOrUniform p3 bosTokenID suppressEnd)

/-- `TraceCandidate` from the API types. -/
structure TraceCandidate where
  Char : String
  TokenID : Nat
  Logit : ℝ
  Prob : ℝ

/-- `topKCandidates`: the `k` highest-probability tokens for the trace. -/
def topKCandidates (logits probs : List ℝ) (chars : List String) (bos k : Nat) :
    List TraceCandidate :=
  let indices := sortIdx (fun i j => decide (probs.getD j 0 ≤ probs.getD i 0))
    (List.range probs.length)
  let kept := indices.take k
  kept.map (fun idx =>
    { Char := tokenLabel idx bos chars, TokenID := idx,
      Logit := logits.getD idx 0, Prob := probs.getD idx 0 })

lemma encodeDoc_foldl (doc : List Char) (chars : List String) (acc : List Nat) :
    doc.foldl
      (fun tokens char =>
        match chars.findIdx? (fun c => decide (c = String.singleton char)) with
        | some idx => tokens ++ [idx]
        | none => tokens)
      acc
    = acc ++ doc.filterMap
        (fun ch => chars.findIdx? (fun c => decide (c = String.singleton ch))) := by
  induction doc generalizing acc with
  | nil => simp
  | cons c cs ih =>
    rcases h : chars.findIdx? (fun x => decide (x = String.singleton c)) with _ | idx <;>
      simp [List.filterMap_cons, h, ih]

/-- Claim C10: `encodeDoc` returns `bos`, then the vocabulary indices of
exactly those document characters that occur in `chars` (in document order,
each mapped through the first exact match), then `bos`; characters absent
from the vocabulary are silently dropped, and the result always has length
at least 2. -/
theorem encodeDoc_spec (doc : List Char) (chars : List String) (bos : Nat) :
    encodeDoc doc chars bos =
      bos ::
        (doc.filterMap
          (fun ch => chars.findIdx? (fun c => decide (c = String.singleton ch)))
          ++ [bos]) ∧
    2 ≤ (encodeDoc doc chars bos).length := by
  have h := encodeDoc_foldl doc chars [bos]
  constructor
  · simp [encodeDoc, h]
  · simp [encodeDoc, h]

lemma sampleScan_spec (u : ℝ) (f : Nat) (l : List ℝ) (idx : Nat) (cum : ℝ) :
    ((∀ i < l.length, cum + (l.take (i + 1)).sum ≤ u) ∧
       sampleScan u f l idx cum = (f, u, 0, cum + l.sum, 0)) ∨
    (∃ i < l.length, u < cum + (l.take (i + 1)).sum ∧
       (∀ j < i, cum + (l.take (j + 1)).sum ≤ u) ∧
       sampleScan u f l idx cum =
         (idx + i, u, cum + (l.take i).sum, cum + (l.take (i + 1)).sum,
           l.getD i 0)) := by
  induction l generalizing idx cum with
  | nil =>
    exact Or.inl ⟨fun i hi => absurd hi (by simp), by simp [sampleScan]⟩
  | cons p rest ih =>
    by_cases hu : u < cum + p
    · right
      refine ⟨0, by simp, by simpa using hu, by omega, ?_⟩
      simp [sampleScan, hu]
    · rcases ih (idx + 1) (cum + p) with ⟨hall, heq⟩ | ⟨i, hi, hlt, hmin, heq⟩
      · left
        constructor
        · intro i hi
          match i with
          | 0 => simpa using not_lt.mp hu
          | i' + 1 =>
            have := hall i' (by simpa using hi)
            simpa [add_assoc] using this
        · simp only [sampleScan, if_neg hu, heq]
          simp [add_assoc]
      · right
        refine ⟨i + 1, by simpa using hi, ?_, ?_, ?_⟩
        · simpa [add_assoc] using hlt
        · intro j hj
          match j with
          | 0 => simpa using not_lt.mp hu
          | j' + 1 =>
            have := hmin j' (by omega)
            simpa [add_assoc] using this
        · simp only [sampleScan, if_neg hu, heq, List.take_succ_cons, List.sum_cons,
            List.getD_cons_succ, Prod.mk.injEq]
          refine ⟨by omega, trivial, by ring, by ring, trivial⟩

/-- Claim C6: `sampleFromProbVector` walks the probability vector in index
order accumulating a cumulative sum and returns the first index whose
cumulative sum strictly exceeds the draw `u`, together with that index's
probability and the cumulative bounds just before and after it; if no index
qualifies it returns the fallback token id (with the total mass as
`cumAfter`); in particular on `[0, 1, 0]` every draw `u ∈ [0, 1)` selects
index 1. -/
theorem sampleFromProbVector_spec (probs : List ℝ) (fallbackTokenID : Nat) (u : ℝ) :
    (((∀ i < probs.length, (probs.take (i + 1)).sum ≤ u) ∧
        sampleFromProbVector probs fallbackTokenID u =
          (fallbackTokenID, u, 0, probs.sum, 0)) ∨
      (∃ i < probs.length, u < (probs.take (i + 1)).sum ∧
        (∀ j < i, (probs.take (j + 1)).sum ≤ u) ∧
        sampleFromProbVector probs fallbackTokenID u =
          (i, u, (probs.take i).sum, (probs.take (i + 1)).sum, probs.getD i 0))) ∧
    (0 ≤ u → u < 1 → (sampleFromProbVector [0, 1, 0] fallbackTokenID u).1 = 1) := by
  constructor
  · have h := sampleScan_spec u fallbackTokenID probs 0 0
    simpa [sampleFromProbVector] using h
  · intro h0 h1
    simp [sampleFromProbVector, sampleScan, h1, not_lt.mpr h0]

theorem sampleFromProbVector_spec_witness :
    (0 : ℝ) ≤ 1 / 2 ∧ (1 : ℝ) / 2 < 1 ∧
      (sampleFromProbVector [0, 1, 0] 7 (1 / 2)).1 = 1 :=
  ⟨by norm_num, by norm_num,
    (sampleFromProbVector_spec [0, 1, 0] 7 (1 / 2)).2 (by norm_num) (by norm_num)⟩

lemma sum_map_div (l : List ℝ) (c : ℝ) : (l.map (· / c)).sum = l.sum / c := by
  induction l with
  | nil => simp
  | cons x xs ih => simp [ih, add_div]

lemma sum_zero_of_nonneg {l : List ℝ} (h : ∀ x ∈ l, 0 ≤ x) (h0 : l.sum = 0) :
    ∀ x ∈ l, x = 0 := by
  induction l with
  | nil => simp
  | cons x xs ih =>
    have hx : 0 ≤ x := h x (by simp)
    have hxs : 0 ≤ xs.sum := List.sum_nonneg (fun y hy => h y (by simp [hy]))
    have hsum : x + xs.sum = 0 := by simpa using h0
    have hx0 : x = 0 := le_antisymm (by linarith) hx
    intro y hy
    rcases List.mem_cons.mp hy with rfl | hy'
    · exact hx0
    · exact ih (fun z hz => h z (by simp [hz])) (by linarith) y hy'

lemma getD_nonneg {l : List ℝ} (h : ∀ x ∈ l, 0 ≤ x) (i : Nat) : 0 ≤ l.getD i 0 := by
  by_cases hi : i < l.length
  · rw [List.getD_eq_getElem l 0 hi]
    exact h _ (List.getElem_mem hi)
  · rw [List.getD_eq_getElem?_getD, List.getElem?_eq_none (by omega)]
    simp

lemma getD_pos {l : List ℝ} (h : ∀ x ∈ l, 0 < x) {i : Nat} (hi : i < l.length) :
    0 < l.getD i 0 := by
  rw [List.getD_eq_getElem l 0 hi]
  exact h _ (List.getElem_mem hi)

lemma length_stableExpProbs (raw : List ℝ) :
    (stableExpProbs raw).length = raw.length := by
  rw [stableExpProbs]
  split <;> simp

lemma stableExpProbs_pos (raw : List ℝ) : ∀ x ∈ stableExpProbs raw, 0 < x := by
  rw [stableExpProbs]
  intro x hx
  split at hx
  case isTrue hs =>
    obtain ⟨y, hy, rfl⟩ := List.mem_map.mp hx
    obtain ⟨z, _, rfl⟩ := List.mem_map.mp hy
    exact div_pos (Real.exp_pos _) hs
  case isFalse hs =>
    obtain ⟨z, _, rfl⟩ := List.mem_map.mp hx
    exact Real.exp_pos _

lemma length_insertSorted (le : Nat → Nat → Bool) (x : Nat) (l : List Nat) :
    (insertSorted le x l).length = l.length + 1 := by
  induction l with
  | nil => simp [insertSorted]
  | cons y ys ih =>
    rw [insertSorted]
    split <;> simp [ih]

lemma mem_insertSorted (le : Nat → Nat → Bool) (x y : Nat) (l : List Nat) :
    y ∈ insertSorted le x l ↔ y = x ∨ y ∈ l := by
  induction l with
  | nil => simp [insertSorted]
  | cons z zs ih =>
    rw [insertSorted]
    split
    · simp
    · simp only [List.mem_cons, ih]
      tauto

lemma length_sortIdx (le : Nat → Nat → Bool) (l : List Nat) :
    (sortIdx le l).length = l.length := by
  induction l with
  | nil => rfl
  | cons x xs ih =>
    show (insertSorted le x (sortIdx le xs)).length = xs.length + 1
    rw [length_insertSorted, ih]

lemma mem_sortIdx (le : Nat → Nat → Bool) (l : List Nat) (x : Nat) :
    x ∈ sortIdx le l ↔ x ∈ l := by
  induction l with
  | nil => simp [sortIdx]
  | cons y ys ih =>
    show x ∈ insertSorted le y (sortIdx le ys) ↔ _
    rw [mem_insertSorted]
    simp [ih]

lemma length_topKFilter (p : List ℝ) (k : Int) :
    (topKFilter p k).length = p.length := by
  rw [topKFilter]
  split <;> simp

lemma topKFilter_nonneg (p : List ℝ) (k : Int) (h : ∀ x ∈ p, 0 < x) :
    ∀ x ∈ topKFilter p k, 0 ≤ x := by
  rw [topKFilter]
  split
  · intro x hx
    obtain ⟨i, _, rfl⟩ := List.mem_map.mp hx
    split
    · exact le_of_lt (getD_pos h (by
        have := List.mem_range.mp (by assumption)
        omega))
    · exact le_rfl
  · exact fun x hx => le_of_lt (h x hx)

lemma topKFilter_exists_pos (p : List ℝ) (k : Int) (hne : p ≠ [])
    (hpos : ∀ x ∈ p, 0 < x) :
    ∃ w, w < p.length ∧ 0 < (topKFilter p k).getD w 0 := by
  have hlen : 0 < p.length := List.length_pos.mpr hne
  rw [topKFilter]
  split
  case isTrue hk =>
    set cmp := fun i j => decide (p.getD j 0 ≤ p.getD i 0) with hcmp
    set sorted := sortIdx cmp (List.range p.length) with hsorted
    have hslen : sorted.length = p.length := by
      rw [hsorted, length_sortIdx]
      simp
    have hkpos : 0 < k.toNat := by omega
    obtain ⟨w, rest, hwr⟩ : ∃ w rest, sorted = w :: rest := by
      cases hs : sorted with
      | nil => rw [hs] at hslen; simp at hslen; omega
      | cons a b => exact ⟨a, b, rfl⟩
    have hw : w ∈ sorted.take k.toNat := by
      rw [hwr]
      cases hk0 : k.toNat with
      | zero => exact absurd hk0 (by omega)
      | succ n => simp [List.take_succ_cons]
    have hwmem : w ∈ sorted := List.mem_of_mem_take hw
    have hwrange : w < p.length := by
      have := (mem_sortIdx _ _ _).mp (hsorted ▸ hwmem)
      exact List.mem_range.mp this
    refine ⟨w, hwrange, ?_⟩
    have hmapped :
        ((List.range p.length).map
          (fun i => if i ∈ sorted.take k.toNat then p.getD i 0 else 0)).getD w 0
          = p.getD w 0 := by
      rw [List.getD_eq_getElem _ _ (by simpa using hwrange), List.getElem_map,
        List.getElem_range, if_pos hw]
    rw [hmapped]
    exact getD_pos hpos hwrange
  case isFalse hk =>
    exact ⟨0, hlen, getD_pos hpos hlen⟩

lemma length_suppressControl (p : List ℝ) (bos : Nat) (su : Bool) :
    (suppressControl p bos su).length = p.length := by
  rw [suppressControl]
  split <;> simp

lemma suppressControl_nonneg (p : List ℝ) (bos : Nat) (su : Bool)
    (h : ∀ x ∈ p, 0 ≤ x) : ∀ x ∈ suppressControl p bos su, 0 ≤ x := by
  rw [suppressControl]
  split
  · intro x hx
    obtain ⟨i, hi, rfl⟩ := List.mem_iff_getElem.mp hx
    rw [List.getElem_set]
    split
    · exact le_rfl
    · exact h _ (List.getElem_mem _)
  · exact h

lemma listRangeMapSum (f : Nat → ℝ) : ∀ n : Nat,
    ((List.range n).map f).sum = ∑ i in Finset.range n, f i
  | 0 => by simp
  | n + 1 => by
    rw [List.range_succ, Finset.sum_range_succ]
    simp [listRangeMapSum f n]

lemma sum_ite_zero_range (n b : Nat) (c : ℝ) (hb : b < n) :
    (∑ i in Finset.range n, if i = b then (0 : ℝ) else c) = ((n : ℝ) - 1) * c := by
  have hpt : ∀ i ∈ Finset.range n,
      (if i = b then (0 : ℝ) else c) = c - (if i = b then c else 0) := by
    intro i _
    split <;> ring
  rw [Finset.sum_congr rfl hpt, Finset.sum_sub_distrib, Finset.sum_const,
    Finset.sum_ite_eq' (Finset.range n) b (fun _ => c),
    if_pos (Finset.mem_range.mpr hb)]
  simp [nsmul_eq_mul]
  ring

lemma uniformFallback_eq (n b : Nat) (hb : b < n) :
    (((List.replicate n ((1 : ℝ) / n)).set b 0).mapIdx
        (fun i p => if i = b then p else 1 / ((n : ℝ) - 1)))
      = (List.range n).map (fun i => if i = b then (0 : ℝ) else 1 / ((n : ℝ) - 1)) := by
  apply List.ext_getElem
  · simp
  · intro i h1 h2
    have hi : i < n := by simpa using h1
    rw [List.getElem_mapIdx, List.getElem_map, List.getElem_range, List.getElem_set]
    by_cases hib : i = b
    · simp [hib]
    · simp [hib, Ne.symm hib]

lemma maskedZero_facts (logits : List ℝ) (opts : GenerateOptions) (bos : Nat)
    (su : Bool) (hne : logits ≠ [])
    (hzero :
      (suppressControl
        (topKFilter (stableExpProbs (rawDivTemp logits opts.Temperature)) opts.TopK)
        bos su).sum = 0) :
    su = true ∧ bos < logits.length := by
  have hlen1 : (stableExpProbs (rawDivTemp logits opts.Temperature)).length
      = logits.length := by
    rw [length_stableExpProbs, rawDivTemp, List.length_map]
  have hne1 : stableExpProbs (rawDivTemp logits opts.Temperature) ≠ [] := by
    intro hcontra
    rw [hcontra] at hlen1
    exact hne (List.length_eq_zero.mp hlen1.symm)
  have hpos1 := stableExpProbs_pos (rawDivTemp logits opts.Temperature)
  have hn2 := topKFilter_nonneg _ opts.TopK hpos1
  have hlen2 : (topKFilter (stableExpProbs (rawDivTemp logits opts.Temperature))
      opts.TopK).length = logits.length := by
    rw [length_topKFilter, hlen1]
  have hnM := suppressControl_nonneg _ bos su hn2
  have hall := sum_zero_of_nonneg hnM hzero
  by_cases hcond : su = true ∧
      bos < (topKFilter (stableExpProbs (rawDivTemp logits opts.Temperature))
        opts.TopK).length
  · exact ⟨hcond.1, hlen2 ▸ hcond.2⟩
  · exfalso
    obtain ⟨w, hw, hwpos⟩ :=
      topKFilter_exists_pos _ opts.TopK hne1 hpos1
    have hM : suppressControl
        (topKFilter (stableExpProbs (rawDivTemp logits opts.Temperature)) opts.TopK)
        bos su
        = topKFilter (stableExpProbs (rawDivTemp logits opts.Temperature)) opts.TopK := by
      rw [suppressControl, if_neg]
      intro hc
      exact hcond ⟨hc.1, hc.2⟩
    have hwlen : w < (topKFilter (stableExpProbs (rawDivTemp logits opts.Temperature))
        opts.TopK).length := by
      rw [length_topKFilter]
      exact hw
    have hmem : (topKFilter (stableExpProbs (rawDivTemp logits opts.Temperature))
          opts.TopK).getD w 0
        ∈ suppressControl
            (topKFilter (stableExpProbs (rawDivTemp logits opts.Temperature)) opts.TopK)
            bos su := by
      rw [hM, List.getD_eq_getElem _ _ hwlen]
      exact List.getElem_mem hwlen
    have := hall _ hmem
    linarith

/-- Claim C5: for every logits vector of length at least 1, any options,
control-token id and suppression flag, the probability vector returned by
`toProbVector` sums to 1; when top-k filtering and/or control-token
suppression removes all probability mass, the returned vector is the
uniform distribution, with the control token's entry re-zeroed and its
mass redistributed over the remaining entries when suppression is active
and the vector has more than one entry (suppression being active and the
control id in range are in fact forced in that degenerate case). -/
theorem toProbVector_spec (logits : List ℝ) (opts : GenerateOptions) (bos : Nat)
    (su : Bool) (hne : logits ≠ []) (htemp : 0 < opts.Temperature) :
    (toProbVector logits opts bos su).2.sum = 1 ∧
      ((suppressControl
          (topKFilter (stableExpProbs (rawDivTemp logits opts.Temperature)) opts.TopK)
          bos su).sum = 0 →
        su = true ∧ bos < logits.length ∧
          (toProbVector logits opts bos su).2 =
            if 1 < logits.length then
              (List.range logits.length).map
                (fun i => if i = bos then (0 : ℝ) else 1 / ((logits.length : ℝ) - 1))
            else List.replicate logits.length ((1 : ℝ) / logits.length)) := by
  have hlenM : (suppressControl
      (topKFilter (stableExpProbs (rawDivTemp logits opts.Temperature)) opts.TopK)
      bos su).length = logits.length := by
    rw [length_suppressControl, length_topKFilter, length_stableExpProbs,
      rawDivTemp, List.length_map]
  have hnM := suppressControl_nonneg _ bos su
    (topKFilter_nonneg _ opts.TopK (stableExpProbs_pos (rawDivTemp logits opts.Temperature)))
  have hout : (toProbVector logits opts bos su).2 =
      renormalizeOrUniform
        (suppressControl
          (topKFilter (stableExpProbs (rawDivTemp logits opts.Temperature)) opts.TopK)
          bos su)
        bos su := rfl
  by_cases hs : (suppressControl
      (topKFilter (stableExpProbs (rawDivTemp logits opts.Temperature)) opts.TopK)
      bos su).sum > 0
  · constructor
    · rw [hout, renormalizeOrUniform, if_pos hs, sum_map_div, div_self (ne_of_gt hs)]
    · intro hzero
      rw [hzero] at hs
      exact absurd hs (lt_irrefl 0)
  · have hzero : (suppressControl
        (topKFilter (stableExpProbs (rawDivTemp logits opts.Temperature)) opts.TopK)
        bos su).sum = 0 :=
      le_antisymm (not_lt.mp hs) (List.sum_nonneg hnM)
    obtain ⟨hsu, hbos⟩ := maskedZero_facts logits opts bos su hne hzero
    have hlpos : 0 < logits.length := List.length_pos.mpr hne
    have hfall : (toProbVector logits opts bos su).2 =
        if 1 < logits.length then
          (List.range logits.length).map
            (fun i => if i = bos then (0 : ℝ) else 1 / ((logits.length : ℝ) - 1))
        else List.replicate logits.length ((1 : ℝ) / logits.length) := by
      rw [hout, renormalizeOrUniform, if_neg hs]
      by_cases h1 : 1 < logits.length
      · rw [if_pos h1]
        have hcond : su = true ∧ 1 < (suppressControl
            (topKFilter (stableExpProbs (rawDivTemp logits opts.Temperature)) opts.TopK)
            bos su).length := ⟨hsu, by rw [hlenM]; exact h1⟩
        rw [if_pos hcond, hlenM, uniformFallback_eq logits.length bos hbos]
      · rw [if_neg h1, if_neg, hlenM]
        intro hc
        rw [hlenM] at hc
        exact h1 hc.2
    refine ⟨?_, fun _ => ⟨hsu, hbos, hfall⟩⟩
    rw [hfall]
    by_cases h1 : 1 < logits.length
    · rw [if_pos h1, listRangeMapSum, sum_ite_zero_range _ _ _ hbos, mul_one_div,
        div_self]
      have hcast : (1 : ℝ) < (logits.length : ℝ) := by exact_mod_cast h1
      intro hc
      rw [sub_eq_zero] at hc
      rw [← hc] at hcast
      exact lt_irrefl _ hcast
    · rw [if_neg h1, List.sum_replicate, nsmul_eq_mul, mul_one_div, div_self]
      exact Nat.cast_ne_zero.mpr (by omega)

theorem toProbVector_spec_witness :
    ([ (0 : ℝ) ] ≠ [] ∧ 0 < (1 : ℝ)) ∧
      (toProbVector [(0 : ℝ)] ⟨1, 0, 0⟩ 0 false).2.sum = 1 := by
  have h := toProbVector_spec [(0 : ℝ)] ⟨1, 0, 0⟩ 0 false (by simp) (by norm_num)
  exact ⟨⟨by simp, by norm_num⟩, h.1⟩

/-- `Config`: model hyperparameters.  The Go fields are `int`; sizes are
modelled as `Nat` because every loop `for i := 0; i < n; i++` runs zero
times for a non-positive bound, exactly like the `Nat` bound 0. -/
structure Config where
  NEmpd : Nat
  NHead : Nat
  NLayer : Nat
  BlockSize : Nat
  LearningRate : ℝ

/-- `Model`: vocabulary, flat parameter list (node pointers into the
store), the string-keyed map of weight matrices (a Go map lookup of a
missing key yields `nil`, modelled by a total function defaulting to
`[]`), Adam moment buffers and the step counter. -/
structure Model where
  Config : Config
  VocabSize : Nat
  Chars : List String
  BOS : Nat
  Params : List Nat
  State : String → List (List Nat)
  AdamM : List ℝ
  AdamV : List ℝ
  Steps : Nat

/-- `TrainResponse` from the API types; the Go zero value (used as the
initial `lastResp`) is all-zero/empty. -/
structure TrainResponse where
  Step : Nat
  Loss : ℝ
  ContextChar : String
  TargetChar : String
  PredictedChar : String
  TargetProb : ℝ
  PredictedProb : ℝ

instance : Inhabited TrainResponse := ⟨⟨0, 0, "", "", "", 0, 0⟩⟩

/-- The body of `Model.Update`'s parameter loop: Adam moment update with
bias correction, parameter step, gradient reset.  `t` is the already
incremented step counter, the accumulator is
`(store, AdamM, AdamV)` and `ip` the `(i, p)` pair from the indexed
iteration over `Params`. -/
def adamStep (t : Nat) (lr : ℝ) (acc : Store × List ℝ × List ℝ) (ip : Nat × Nat) :
    Store × List ℝ × List ℝ :=
  let beta1 : ℝ := 0.85
  let beta2 : ℝ := 0.99
  let eps : ℝ := 1e-8
  let g := (nthVal acc.1 ip.2).Grad
  let mi := beta1 * acc.2.1.getD ip.1 0 + (1 - beta1) * g
  let vi := beta2 * acc.2.2.getD ip.1 0 + (1 - beta2) * g * g
  let mHat := mi / (1 - beta1 ^ t)
  let vHat := vi / (1 - beta2 ^ t)
  (modifyAt acc.1 ip.2 (fun v =>
      { v with Data := v.Data - lr * mHat / (Real.sqrt vHat + eps), Grad := 0 }),
    acc.2.1.set ip.1 mi, acc.2.2.set ip.1 vi)

/-- `Model.Update`: increment the step counter, then run one Adam step
over the flat parameter list. -/
def Update (s : Store) (m : Model) : Store × Model :=
  let steps := m.Steps + 1
  let r := m.Params.enum.foldl (adamStep steps m.Config.LearningRate)
    (s, m.AdamM, m.AdamV)
  (r.1, { m with AdamM := r.2.1, AdamV := r.2.2, Steps := steps })

lemma length_modifyAt (s : Store) (i : Nat) (f : Value → Value) :
    (modifyAt s i f).length = s.length := by
  simp [modifyAt]

lemma nthVal_modifyAt_self (s : Store) (i : Nat) (f : Value → Value)
    (hi : i < s.length) : nthVal (modifyAt s i f) i = f (nthVal s i) := by
  simp only [nthVal, modifyAt]
  rw [List.getD_eq_getElem _ _ (by simpa using hi), List.getElem_set, if_pos rfl,
    List.getD_eq_getElem _ _ hi]

lemma nthVal_modifyAt_ne (s : Store) (i j : Nat) (f : Value → Value)
    (hij : i ≠ j) : nthVal (modifyAt s i f) j = nthVal s j := by
  simp only [nthVal, modifyAt]
  by_cases hj : j < s.length
  · rw [List.getD_eq_getElem _ _ (by simpa using hj), List.getElem_set, if_neg hij,
      List.getD_eq_getElem _ _ hj]
  · rw [List.getD_eq_default _ _ (by simpa using not_lt.mp hj),
      List.getD_eq_default _ _ (not_lt.mp hj)]

lemma getD_set_self (l : List ℝ) (i : Nat) (a : ℝ) (hi : i < l.length) :
    (l.set i a).getD i 0 = a := by
  rw [List.getD_eq_getElem _ _ (by simpa using hi), List.getElem_set, if_pos rfl]

lemma getD_set_ne (l : List ℝ) (i j : Nat) (a : ℝ) (hij : i ≠ j) :
    (l.set i a).getD j 0 = l.getD j 0 := by
  by_cases hj : j < l.length
  · rw [List.getD_eq_getElem _ _ (by simpa using hj), List.getElem_set, if_neg hij,
      List.getD_eq_getElem _ _ hj]
  · rw [List.getD_eq_default _ _ (by simpa using not_lt.mp hj),
      List.getD_eq_default _ _ (not_lt.mp hj)]

lemma adamStep_foldl_lengths (t : Nat) (lr : ℝ) (L : List (Nat × Nat)) :
    ∀ acc : Store × List ℝ × List ℝ,
      (L.foldl (adamStep t lr) acc).1.length = acc.1.length ∧
      (L.foldl (adamStep t lr) acc).2.1.length = acc.2.1.length ∧
      (L.foldl (adamStep t lr) acc).2.2.length = acc.2.2.length := by
  induction L with
  | nil => intro acc; exact ⟨rfl, rfl, rfl⟩
  | cons hd tl ih =>
    intro acc
    have h := ih (adamStep t lr acc hd)
    simpa [adamStep, length_modifyAt] using h

lemma adamStep_foldl_untouched (t : Nat) (lr : ℝ) (L : List (Nat × Nat)) :
    ∀ acc : Store × List ℝ × List ℝ,
      (∀ p, p ∉ L.map Prod.snd → nthVal (L.foldl (adamStep t lr) acc).1 p = nthVal acc.1 p) ∧
      (∀ i, i ∉ L.map Prod.fst →
        (L.foldl (adamStep t lr) acc).2.1.getD i 0 = acc.2.1.getD i 0 ∧
        (L.foldl (adamStep t lr) acc).2.2.getD i 0 = acc.2.2.getD i 0) := by
  induction L with
  | nil => intro acc; exact ⟨fun _ _ => rfl, fun _ _ => ⟨rfl, rfl⟩⟩
  | cons hd tl ih =>
    intro acc
    constructor
    · intro p hp
      have hne : hd.2 ≠ p := fun hc => hp (by simp [← hc])
      have htl : p ∉ tl.map Prod.snd := fun hc => hp (by simp [hc])
      rw [List.foldl_cons, (ih (adamStep t lr acc hd)).1 p htl]
      simp only [adamStep]
      exact nthVal_modifyAt_ne _ _ _ _ hne
    · intro i hi
      have hne : hd.1 ≠ i := fun hc => hi (by simp [← hc])
      have htl : i ∉ tl.map Prod.fst := fun hc => hi (by simp [hc])
      have h := (ih (adamStep t lr acc hd)).2 i htl
      rw [List.foldl_cons]
      refine ⟨?_, ?_⟩
      · rw [h.1]; simp only [adamStep]; exact getD_set_ne _ _ _ _ hne
      · rw [h.2]; simp only [adamStep]; exact getD_set_ne _ _ _ _ hne

lemma adamStep_foldl_spec (t : Nat) (lr : ℝ) (L : List (Nat × Nat)) :
    ∀ acc : Store × List ℝ × List ℝ,
      (L.map Prod.snd).Nodup → (L.map Prod.fst).Nodup →
      (∀ ip ∈ L, ip.1 < acc.2.1.length ∧ ip.1 < acc.2.2.length ∧ ip.2 < acc.1.length) →
      ∀ i p, (i, p) ∈ L →
        (L.foldl (adamStep t lr) acc).2.1.getD i 0
            = 0.85 * acc.2.1.getD i 0 + (1 - 0.85) * (nthVal acc.1 p).Grad ∧
        (L.foldl (adamStep t lr) acc).2.2.getD i 0
            = 0.99 * acc.2.2.getD i 0 + (1 - 0.99) * (nthVal acc.1 p).Grad * (nthVal acc.1 p).Grad ∧
        (nthVal (L.foldl (adamStep t lr) acc).1 p).Data
            = (nthVal acc.1 p).Data
              - lr * ((0.85 * acc.2.1.getD i 0 + (1 - 0.85) * (nthVal acc.1 p).Grad)
                  / (1 - (0.85 : ℝ) ^ t))
                / (Real.sqrt ((0.99 * acc.2.2.getD i 0
                    + (1 - 0.99) * (nthVal acc.1 p).Grad * (nthVal acc.1 p).Grad)
                  / (1 - (0.99 : ℝ) ^ t)) + 1e-8) ∧
        (nthVal (L.foldl (adamStep t lr) acc).1 p).Grad = 0 := by
  induction L with
  | nil => intro acc _ _ _ i p hmem; exact absurd hmem (by simp)
  | cons hd tl ih =>
    intro acc hsnd hfst hlen i p hmem
    rw [List.map_cons, List.nodup_cons] at hsnd hfst
    rcases List.mem_cons.mp hmem with heq | htl
    · -- the pair (i, p) is processed by the head step
      have hip : hd = (i, p) := heq.symm
      subst hip
      have hpnot : p ∉ tl.map Prod.snd := hsnd.1
      have hinot : i ∉ tl.map Prod.fst := hfst.1
      have hu := adamStep_foldl_untouched t lr tl (adamStep t lr acc (i, p))
      have hips := hlen (i, p) (by simp)
      rw [List.foldl_cons]
      refine ⟨?_, ?_, ?_, ?_⟩
      · rw [(hu.2 i hinot).1]
        simp only [adamStep]
        exact getD_set_self _ _ _ hips.1
      · rw [(hu.2 i hinot).2]
        simp only [adamStep]
        exact getD_set_self _ _ _ hips.2.1
      · rw [hu.1 p hpnot]
        simp only [adamStep]
        rw [nthVal_modifyAt_self _ _ _ hips.2.2]
      · rw [hu.1 p hpnot]
        simp only [adamStep]
        rw [nthVal_modifyAt_self _ _ _ hips.2.2]
    · -- the pair (i, p) is processed inside the tail
      have hpne : hd.2 ≠ p := by
        intro hc
        exact hsnd.1 (by
          refine List.mem_map.mpr ⟨(i, p), htl, ?_⟩
          simp [hc])
      have hine : hd.1 ≠ i := by
        intro hc
        exact hfst.1 (by
          refine List.mem_map.mpr ⟨(i, p), htl, ?_⟩
          simp [hc])
      have hlen' : ∀ ip ∈ tl, ip.1 < (adamStep t lr acc hd).2.1.length ∧
          ip.1 < (adamStep t lr acc hd).2.2.length ∧ ip.2 < (adamStep t lr acc hd).1.length := by
        intro ip hip
        have := hlen ip (by simp [hip])
        simpa [adamStep, length_modifyAt] using this
      have h := ih (adamStep t lr acc hd) hsnd.2 hfst.2 hlen' i p htl
      rw [List.foldl_cons]
      have hgrad : nthVal (adamStep t lr acc hd).1 p = nthVal acc.1 p := by
        simp only [adamStep]
        exact nthVal_modifyAt_ne _ _ _ _ hpne
      have hm : (adamStep t lr acc hd).2.1.getD i 0 = acc.2.1.getD i 0 := by
        simp only [adamStep]
        exact getD_set_ne _ _ _ _ hine
      have hv : (adamStep t lr acc hd).2.2.getD i 0 = acc.2.2.getD i 0 := by
        simp only [adamStep]
        exact getD_set_ne _ _ _ _ hine
      rw [hgrad, hm, hv] at h
      exact h

/-- Claim C3: `Update` increments the step counter by exactly 1 and, for
every parameter `i` with gradient `g`, replaces the Adam moments by
`m_i = 0.85*m_i + 0.15*g` and `v_i = 0.99*v_i + 0.01*g*g`, subtracts
`lr * (m_i/(1-0.85^t)) / (sqrt(v_i/(1-0.99^t)) + 1e-8)` (with `t` the new
step count) from the parameter's `Data`, and zeroes the parameter's
`Grad`; afterwards every parameter's gradient is zero. -/
theorem Update_spec (s : Store) (m : Model)
    (hnodup : m.Params.Nodup)
    (hvalid : ∀ p ∈ m.Params, p < s.length)
    (hM : m.AdamM.length = m.Params.length)
    (hV : m.AdamV.length = m.Params.length) :
    (Update s m).2.Steps = m.Steps + 1 ∧
    (∀ i, (hi : i < m.Params.length) →
      (Update s m).2.AdamM.getD i 0
          = 0.85 * m.AdamM.getD i 0 + 0.15 * (nthVal s m.Params[i]).Grad ∧
      (Update s m).2.AdamV.getD i 0
          = 0.99 * m.AdamV.getD i 0
            + 0.01 * (nthVal s m.Params[i]).Grad * (nthVal s m.Params[i]).Grad ∧
      (nthVal (Update s m).1 m.Params[i]).Data
          = (nthVal s m.Params[i]).Data
            - m.Config.LearningRate
              * ((0.85 * m.AdamM.getD i 0 + 0.15 * (nthVal s m.Params[i]).Grad)
                  / (1 - (0.85 : ℝ) ^ (m.Steps + 1)))
              / (Real.sqrt ((0.99 * m.AdamV.getD i 0
                    + 0.01 * (nthVal s m.Params[i]).Grad * (nthVal s m.Params[i]).Grad)
                  / (1 - (0.99 : ℝ) ^ (m.Steps + 1))) + 1e-8) ∧
      (nthVal (Update s m).1 m.Params[i]).Grad = 0) ∧
    (∀ p ∈ m.Params, (nthVal (Update s m).1 p).Grad = 0) := by
  have hsnd : (m.Params.enum.map Prod.snd).Nodup := by
    rw [List.enum_map_snd]
    exact hnodup
  have hfst : (m.Params.enum.map Prod.fst).Nodup := by
    rw [List.enum_map_fst]
    exact List.nodup_range _
  have hlens : ∀ ip ∈ m.Params.enum,
      ip.1 < m.AdamM.length ∧ ip.1 < m.AdamV.length ∧ ip.2 < s.length := by
    intro ip hip
    have h1 : ip.1 < m.Params.length := by
      have := List.fst_lt_of_mem_enum hip
      simpa using this
    have h2 : ip.2 ∈ m.Params := by
      have := List.snd_mem_of_mem_enum hip
      simpa using this
    exact ⟨hM ▸ h1, hV ▸ h1, hvalid _ h2⟩
  have hkey := adamStep_foldl_spec (m.Steps + 1) m.Config.LearningRate
    m.Params.enum (s, m.AdamM, m.AdamV) hsnd hfst hlens
  have hmem : ∀ i, (hi : i < m.Params.length) → (i, m.Params[i]) ∈ m.Params.enum := by
    intro i hi
    have hi' : i < m.Params.enum.length := by simpa using hi
    have hgE : m.Params.enum[i] = (i, m.Params[i]) := List.getElem_enum _ _ hi'
    rw [← hgE]
    exact List.getElem_mem hi'
  have hconv : (1 : ℝ) - 0.85 = 0.15 := by norm_num
  have hconv2 : (1 : ℝ) - 0.99 = 0.01 := by norm_num
  refine ⟨rfl, ?_, ?_⟩
  · intro i hi
    have h := hkey i m.Params[i] (hmem i hi)
    rw [hconv, hconv2] at h
    exact h
  · intro p hp
    obtain ⟨i, hi, rfl⟩ := List.mem_iff_getElem.mp hp
    exact (hkey i _ (hmem i hi)).2.2.2

theorem Update_spec_witness :
    ([(0 : Nat)].Nodup ∧ (∀ p ∈ [(0 : Nat)], p < 1) ∧
      [(0 : ℝ)].length = [(0 : Nat)].length ∧ [(0 : ℝ)].length = [(0 : Nat)].length) ∧
    (Update [⟨1, 2, [], []⟩]
        ⟨⟨0, 0, 0, 0, 1⟩, 0, [], 0, [0], fun _ => [], [0], [0], 0⟩).2.Steps = 0 + 1 :=
  ⟨⟨by simp, by simp, by simp, by simp⟩,
    (Update_spec [⟨1, 2, [], []⟩]
        ⟨⟨0, 0, 0, 0, 1⟩, 0, [], 0, [0], fun _ => [], [0], [0], 0⟩
        (by simp) (by simp) (by simp) (by simp)).1⟩

/-- Store extension: `st` is `sm` with some nodes appended.  All graph
construction only appends, so reads through old pointers are stable. -/
def StoreExt (sm st : Store) : Prop := ∃ u, st = sm ++ u

lemma StoreExt.refl (s : Store) : StoreExt s s := ⟨[], by simp⟩

lemma StoreExt.trans {s1 s2 s3 : Store} (h12 : StoreExt s1 s2)
    (h23 : StoreExt s2 s3) : StoreExt s1 s3 := by
  obtain ⟨u, rfl⟩ := h12
  obtain ⟨v, rfl⟩ := h23
  exact ⟨u ++ v, by simp⟩

lemma StoreExt.push {s : Store} (v : Value) : StoreExt s (s.push v).1 := ⟨[v], rfl⟩

lemma StoreExt.length {sm st : Store} (h : StoreExt sm st) :
    sm.length ≤ st.length := by
  obtain ⟨u, rfl⟩ := h
  simp

lemma nthVal_ext {sm st : Store} (h : StoreExt sm st) {i : Nat}
    (hi : i < sm.length) : nthVal st i = nthVal sm i := by
  obtain ⟨u, rfl⟩ := h
  simp only [nthVal]
  rw [List.getD_eq_getElem _ _ hi, List.getD_eq_getElem _ _ (by simp; omega),
    List.getElem_append_left hi]

lemma nthVal_push_self (s : Store) (v : Value) :
    nthVal (s.push v).1 (s.push v).2 = v := by
  simp only [Store.push, nthVal]
  rw [List.getD_eq_getElem _ _ (by simp), List.getElem_concat_length]
  rfl

lemma push_lt (s : Store) (v : Value) : (s.push v).2 < (s.push v).1.length := by
  simp [Store.push]

/-- The inner product loop of `Model.Linear`:
`sum := NewValue(0); for j, xi := range x { sum = sum.Add(row[j].Mul(xi)) }`. -/
def dotRow (s : Store) (x row : List Nat) : Store × Nat :=
  x.enum.foldl
    (fun acc jxi =>
      let m := Store.mul acc.1 (row.getD jxi.1 0) jxi.2
      Store.add m.1 acc.2 m.2)
    (s.push (NewValue 0))

/-- `Model.Linear`: `out[i] = Σⱼ W[i][j]·x[j]` over node arithmetic. -/
def Linear (s : Store) (x : List Nat) (w : List (List Nat)) : Store × List Nat :=
  w.foldl
    (fun acc row =>
      let r := dotRow acc.1 x row
      (r.1, acc.2 ++ [r.2]))
    (s, [])

/-- The running maximum of `Model.Softmax`
(`maxVal := -math.MaxFloat64; if l.Data > maxVal { maxVal = l.Data }`). -/
def softmaxMax (s : Store) (logits : List Nat) : ℝ :=
  logits.foldl
    (fun mv l => if (nthVal s l).Data > mv then (nthVal s l).Data else mv)
    (-maxFloat64)

/-- The exponentiation loop body of `Model.Softmax`: per logit the source
allocates the `NewValue(-maxVal)` leaf, the `Add`, the `Exp`, and the
running-total `Add`, in that order; the accumulator is
`(store, exps, total)`. -/
def softmaxExpStep (mv : ℝ) (acc : Store × List Nat × Nat) (l : Nat) :
    Store × List Nat × Nat :=
  let nm := Store.push acc.1 (NewValue (-mv))
  let a := Store.add nm.1 l nm.2
  let e := Store.exp a.1 a.2
  let t := Store.add e.1 acc.2.2 e.2
  (t.1, acc.2.1 ++ [e.2], t.2)

/-- The output loop of `Model.Softmax`: `probs[i] = e.Mul(invTotal)`. -/
def softmaxProbStep (inv : Nat) (acc : Store × List Nat) (e : Nat) :
    Store × List Nat :=
  let p := Store.mul acc.1 e inv
  (p.1, acc.2 ++ [p.2])

/-- `Model.Softmax`: subtract the max logit, exponentiate and accumulate
the total (`softmaxExpStep` per logit), then multiply every exponential by
`invTotal := total.Pow(-1)`. -/
def Softmax (s : Store) (logits : List Nat) : Store × List Nat :=
  let maxVal := softmaxMax s logits
  let init := s.push (NewValue 0)
  let r := logits.foldl (softmaxExpStep maxVal) (init.1, [], init.2)
  let inv := Store.pow r.1 r.2.2 (-1)
  r.2.1.foldl (softmaxProbStep inv.2) (inv.1, [])

/-- `Model.RMSNorm`: `y_i = x_i * (mean(x²) + 1e-5)^(-0.5)` over node
arithmetic, with the same allocation order as the source. -/
def RMSNorm (s : Store) (x : List Nat) : Store × List Nat :=
  let r := x.foldl
    (fun (acc : Store × Nat) xi =>
      let m := Store.mul acc.1 xi xi
      Store.add m.1 acc.2 m.2)
    (s.push (NewValue 0))
  let c := Store.push r.1 (NewValue (1 / (x.length : ℝ)))
  let ms := Store.mul c.1 r.2 c.2
  let c2 := Store.push ms.1 (NewValue 1e-5)
  let a := Store.add c2.1 ms.2 c2.2
  let scale := Store.pow a.1 a.2 (-0.5)
  x.foldl
    (fun (acc : Store × List Nat) xi =>
      let p := Store.mul acc.1 xi scale.2
      (p.1, acc.2 ++ [p.2]))
    (scale.1, [])

lemma StoreExt_push (s : Store) (v : Value) : StoreExt s (s.push v).1 := ⟨[v], rfl⟩

lemma StoreExt_add (s : Store) (x y : Nat) : StoreExt s (Store.add s x y).1 :=
  StoreExt_push _ _

lemma StoreExt_mul (s : Store) (x y : Nat) : StoreExt s (Store.mul s x y).1 :=
  StoreExt_push _ _

lemma StoreExt_exp (s : Store) (x : Nat) : StoreExt s (Store.exp s x).1 :=
  StoreExt_push _ _

lemma StoreExt_pow (s : Store) (x : Nat) (p : ℝ) : StoreExt s (Store.pow s x p).1 :=
  StoreExt_push _ _

lemma add_result (s : Store) (x y : Nat) :
    nthVal (Store.add s x y).1 (Store.add s x y).2
      = { Data := (nthVal s x).Data + (nthVal s y).Data, Grad := 0,
          Children := [x, y], LocalGrads := [1, 1] } :=
  nthVal_push_self s _

lemma mul_result (s : Store) (x y : Nat) :
    nthVal (Store.mul s x y).1 (Store.mul s x y).2
      = { Data := (nthVal s x).Data * (nthVal s y).Data, Grad := 0,
          Children := [x, y],
          LocalGrads := [(nthVal s y).Data, (nthVal s x).Data] } :=
  nthVal_push_self s _

lemma exp_result (s : Store) (x : Nat) :
    nthVal (Store.exp s x).1 (Store.exp s x).2
      = { Data := Real.exp (nthVal s x).Data, Grad := 0, Children := [x],
          LocalGrads := [Real.exp (nthVal s x).Data] } :=
  nthVal_push_self s _

lemma pow_result (s : Store) (x : Nat) (p : ℝ) :
    nthVal (Store.pow s x p).1 (Store.pow s x p).2
      = { Data := (nthVal s x).Data ^ p, Grad := 0, Children := [x],
          LocalGrads := [p * (nthVal s x).Data ^ (p - 1)] } :=
  nthVal_push_self s _

lemma softmaxExpLoop_spec (s : Store) (mv : ℝ) (L : List Nat) :
    ∀ (st : Store) (E : List Nat) (tot : Nat),
      (∀ l ∈ L, l < s.length) → StoreExt s st → tot < st.length →
      StoreExt st (L.foldl (softmaxExpStep mv) (st, E, tot)).1 ∧
      (L.foldl (softmaxExpStep mv) (st, E, tot)).2.2
        < (L.foldl (softmaxExpStep mv) (st, E, tot)).1.length ∧
      (nthVal (L.foldl (softmaxExpStep mv) (st, E, tot)).1
          (L.foldl (softmaxExpStep mv) (st, E, tot)).2.2).Data
        = (nthVal st tot).Data
          + (L.map (fun l => Real.exp ((nthVal s l).Data - mv))).sum ∧
      ∃ F, (L.foldl (softmaxExpStep mv) (st, E, tot)).2.1 = E ++ F ∧
        F.length = L.length ∧
        ∀ k, k < L.length →
          F.getD k 0 < (L.foldl (softmaxExpStep mv) (st, E, tot)).1.length ∧
          (nthVal (L.foldl (softmaxExpStep mv) (st, E, tot)).1 (F.getD k 0)).Data
            = Real.exp ((nthVal s (L.getD k 0)).Data - mv) := by
  induction L with
  | nil =>
    intro st E tot _ _ htot
    refine ⟨StoreExt.refl st, htot, by simp, [], by simp, rfl, ?_⟩
    intro k hk
    exact absurd hk (by simp)
  | cons l L' ih =>
    intro st E tot hvalid hext htot
    have hl : l < s.length := hvalid l (by simp)
    have hlst : l < st.length := lt_of_lt_of_le hl hext.length
    set nm := Store.push st (NewValue (-mv)) with hnm
    set a := Store.add nm.1 l nm.2 with ha
    set e := Store.exp a.1 a.2 with he
    set t := Store.add e.1 tot e.2 with ht
    have hstep : softmaxExpStep mv (st, E, tot) l = (t.1, E ++ [e.2], t.2) := rfl
    have hx1 : StoreExt st nm.1 := StoreExt_push _ _
    have hx2 : StoreExt nm.1 a.1 := StoreExt_add _ _ _
    have hx3 : StoreExt a.1 e.1 := StoreExt_exp _ _
    have hx4 : StoreExt e.1 t.1 := StoreExt_add _ _ _
    have hexts : StoreExt st t.1 :=
      (hx1.trans (hx2.trans (hx3.trans hx4)))
    have hlnm : l < nm.1.length := lt_of_lt_of_le hlst hx1.length
    have hnm2 : nm.2 < nm.1.length := push_lt _ _
    have haData : (nthVal a.1 a.2).Data = (nthVal s l).Data + (-mv) := by
      rw [ha, add_result]
      rw [nthVal_ext hx1 hlst, nthVal_ext hext hl, nthVal_push_self]
      rfl
    have ha2 : a.2 < a.1.length := push_lt _ _
    have heData : (nthVal e.1 e.2).Data = Real.exp ((nthVal s l).Data - mv) := by
      rw [he, exp_result]
      show Real.exp (nthVal a.1 a.2).Data = _
      rw [haData, sub_eq_add_neg]
    have he2 : e.2 < e.1.length := push_lt _ _
    have htote : tot < e.1.length :=
      lt_of_lt_of_le htot ((hx1.trans (hx2.trans hx3)).length)
    have htData : (nthVal t.1 t.2).Data
        = (nthVal st tot).Data + Real.exp ((nthVal s l).Data - mv) := by
      rw [ht, add_result]
      show (nthVal e.1 tot).Data + (nthVal e.1 e.2).Data = _
      rw [nthVal_ext (hx1.trans (hx2.trans hx3)) htot, heData]
    have ht2 : t.2 < t.1.length := push_lt _ _
    have he2t : e.2 < t.1.length := lt_of_lt_of_le he2 hx4.length
    have hih := ih t.1 (E ++ [e.2]) t.2
      (fun l' hl' => hvalid l' (by simp [hl'])) (hext.trans hexts) ht2
    obtain ⟨hext2, hb2, hdata2, F', hF'eq, hF'len, hF'spec⟩ := hih
    rw [List.foldl_cons, hstep]
    refine ⟨hexts.trans hext2, hb2, ?_, e.2 :: F', ?_, by simp [hF'len], ?_⟩
    · rw [hdata2, htData]
      simp [add_assoc]
    · rw [hF'eq]
      simp
    · intro k hk
      match k with
      | 0 =>
        refine ⟨lt_of_lt_of_le he2t hext2.length, ?_⟩
        simp only [List.getD_cons_zero]
        rw [nthVal_ext hext2 he2t, nthVal_ext hx4 he2, heData]
      | k' + 1 =>
        have h := hF'spec k' (by simpa using hk)
        simpa using h

lemma softmaxProbLoop_spec (inv : Nat) (Es : List Nat) :
    ∀ (st : Store) (P : List Nat),
      (∀ e ∈ Es, e < st.length) → inv < st.length →
      StoreExt st (Es.foldl (softmaxProbStep inv) (st, P)).1 ∧
      ∃ F, (Es.foldl (softmaxProbStep inv) (st, P)).2 = P ++ F ∧
        F.length = Es.length ∧
        ∀ k, k < Es.length →
          F.getD k 0 < (Es.foldl (softmaxProbStep inv) (st, P)).1.length ∧
          (nthVal (Es.foldl (softmaxProbStep inv) (st, P)).1 (F.getD k 0)).Data
            = (nthVal st (Es.getD k 0)).Data * (nthVal st inv).Data := by
  induction Es with
  | nil =>
    intro st P _ _
    refine ⟨StoreExt.refl st, [], by simp, rfl, ?_⟩
    intro k hk
    exact absurd hk (by simp)
  | cons e Es' ih =>
    intro st P hval hinv
    have hest : e < st.length := hval e (by simp)
    set p := Store.mul st e inv with hp
    have hstep : softmaxProbStep inv (st, P) e = (p.1, P ++ [p.2]) := rfl
    have hx : StoreExt st p.1 := StoreExt_mul _ _ _
    have hp2 : p.2 < p.1.length := push_lt _ _
    have hpData : (nthVal p.1 p.2).Data
        = (nthVal st e).Data * (nthVal st inv).Data := by
      rw [hp, mul_result]
    have hih := ih p.1 (P ++ [p.2])
      (fun e' he' => lt_of_lt_of_le (hval e' (by simp [he'])) hx.length)
      (lt_of_lt_of_le hinv hx.length)
    obtain ⟨hext2, F', hF'eq, hF'len, hF'spec⟩ := hih
    rw [List.foldl_cons, hstep]
    refine ⟨hx.trans hext2, p.2 :: F', ?_, by simp [hF'len], ?_⟩
    · rw [hF'eq]
      simp
    · intro k hk
      match k with
      | 0 =>
        refine ⟨lt_of_lt_of_le hp2 hext2.length, ?_⟩
        simp only [List.getD_cons_zero]
        rw [nthVal_ext hext2 hp2, hpData]
      | k' + 1 =>
        have hk' : k' < Es'.length := by simpa using hk
        have hmemk : Es'.getD k' 0 ∈ Es' := by
          rw [List.getD_eq_getElem _ _ hk']
          exact List.getElem_mem hk'
        have hlt : Es'.getD k' 0 < st.length :=
          hval _ (List.mem_cons.mpr (Or.inr hmemk))
        have h := hF'spec k' hk'
        simp only [List.getD_cons_succ]
        refine ⟨h.1, ?_⟩
        rw [h.2, nthVal_ext hx hlt, nthVal_ext hx hinv]

/-- Closed form of the softmax denominator: the sum of the shifted
exponentials, all data read from the original store. -/
def softmaxDenom (s : Store) (logits : List Nat) : ℝ :=
  (logits.map (fun l => Real.exp ((nthVal s l).Data - softmaxMax s logits))).sum

lemma Softmax_data (s : Store) (logits : List Nat)
    (hvalid : ∀ l ∈ logits, l < s.length) :
    (Softmax s logits).2.length = logits.length ∧
    ∀ k, k < logits.length →
      (nthVal (Softmax s logits).1 ((Softmax s logits).2.getD k 0)).Data
        = Real.exp ((nthVal s (logits.getD k 0)).Data - softmaxMax s logits)
          * softmaxDenom s logits ^ (-1 : ℝ) := by
  set mv := softmaxMax s logits with hmv
  set init := s.push (NewValue 0) with hinit
  have hi2 : init.2 < init.1.length := push_lt _ _
  have hxi : StoreExt s init.1 := StoreExt_push _ _
  obtain ⟨hext1, hb1, hdata1, F, hFeq, hFlen, hFspec⟩ :=
    softmaxExpLoop_spec s mv logits init.1 [] init.2 hvalid hxi hi2
  set r := logits.foldl (softmaxExpStep mv) (init.1, [], init.2) with hr
  have hinitData : (nthVal init.1 init.2).Data = 0 := by
    rw [hinit, nthVal_push_self]
    rfl
  have htotData : (nthVal r.1 r.2.2).Data = softmaxDenom s logits := by
    rw [hdata1, hinitData, zero_add]
    rfl
  set inv := Store.pow r.1 r.2.2 (-1) with hinv
  have hxinv : StoreExt r.1 inv.1 := StoreExt_pow _ _ _
  have hinv2 : inv.2 < inv.1.length := push_lt _ _
  have hinvData : (nthVal inv.1 inv.2).Data = softmaxDenom s logits ^ (-1 : ℝ) := by
    rw [hinv, pow_result]
    show (nthVal r.1 r.2.2).Data ^ (-1 : ℝ) = _
    rw [htotData]
  have hFr : r.2.1 = F := by
    simpa using hFeq
  have hvalF : ∀ e ∈ r.2.1, e < inv.1.length := by
    intro e he
    rw [hFr] at he
    obtain ⟨k, hk, rfl⟩ := List.mem_iff_getElem.mp he
    have hk' : k < logits.length := by rw [← hFlen]; exact hk
    have hFb := (hFspec k hk').1
    have hgd : F.getD k 0 = F[k] := List.getD_eq_getElem _ _ hk
    rw [← hgd]
    exact lt_of_lt_of_le hFb hxinv.length
  obtain ⟨hext2, G, hGeq, hGlen, hGspec⟩ :=
    softmaxProbLoop_spec inv.2 r.2.1 inv.1 [] hvalF hinv2
  have hS : Softmax s logits = r.2.1.foldl (softmaxProbStep inv.2) (inv.1, []) := rfl
  constructor
  · rw [hS, hGeq]
    simp [hGlen, hFr, hFlen]
  · intro k hk
    have hkr : k < r.2.1.length := by rw [hFr, hFlen]; exact hk
    have hout : (Softmax s logits).2.getD k 0 = G.getD k 0 := by
      rw [hS, hGeq]
      simp
    obtain ⟨hGb, hGd⟩ := hGspec k hkr
    rw [hS] at hout ⊢
    rw [hout, hGd]
    have hek : r.2.1.getD k 0 = F.getD k 0 := by rw [hFr]
    rw [hek, hinvData]
    congr 1
    have hFb := (hFspec k hk).1
    rw [nthVal_ext hxinv hFb]
    exact (hFspec k hk).2

/-- The `Data` fields of the node vector returned by `Softmax`, read in the
store returned by the same call. -/
def softmaxOutData (s : Store) (logits : List Nat) : List ℝ :=
  (Softmax s logits).2.map (fun p => (nthVal (Softmax s logits).1 p).Data)

lemma softmaxOutData_closed (s : Store) (logits : List Nat)
    (hvalid : ∀ l ∈ logits, l < s.length) :
    softmaxOutData s logits
      = logits.map (fun l => Real.exp (nthVal s l).Data
          * ((logits.map (fun l' => Real.exp (nthVal s l').Data)).sum)⁻¹) := by
  obtain ⟨hlen, hdat⟩ := Softmax_data s logits hvalid
  apply List.ext_getElem
  · simp [softmaxOutData, hlen]
  · intro k h1 h2
    have hk : k < logits.length := by simpa [softmaxOutData, hlen] using h1
    have hk2 : k < (Softmax s logits).2.length := by rw [hlen]; exact hk
    have hL : (softmaxOutData s logits)[k]
        = (nthVal (Softmax s logits).1 ((Softmax s logits).2.getD k 0)).Data := by
      simp only [softmaxOutData, List.getElem_map]
      congr 1
      rw [List.getD_eq_getElem _ _ hk2]
    rw [hL, hdat k hk, List.getElem_map, List.getD_eq_getElem _ _ hk]
    have hS : 0 < (logits.map (fun l' => Real.exp (nthVal s l').Data)).sum := by
      apply List.sum_pos
      · intro x hx
        obtain ⟨l', _, rfl⟩ := List.mem_map.mp hx
        exact Real.exp_pos _
      · simp only [ne_eq, List.map_eq_nil_iff]
        intro hcontra
        rw [hcontra] at hk
        simp at hk
    have hden : softmaxDenom s logits
        = ((logits.map (fun l' => Real.exp (nthVal s l').Data)).sum)
            * Real.exp (-(softmaxMax s logits)) := by
      rw [softmaxDenom, ← List.sum_map_mul_right]
      congr 1
      apply List.map_congr_left
      intro l _
      rw [← Real.exp_add]
      ring_nf
    rw [hden, Real.rpow_neg_one, Real.exp_sub, Real.exp_neg, mul_inv]
    rw [inv_inv]
    field_simp

/-- Claim C7: for every non-empty logits vector (of valid node pointers),
the `Data` values of the vector returned by `Softmax` sum to 1, and
`Softmax` is invariant to adding the same constant `c` to every input
logit: a second store/logit vector whose `Data` values are the first's
shifted by `c` yields an output vector with identical `Data` values. -/
theorem Softmax_spec (s1 s2 : Store) (l1 l2 : List Nat) (c : ℝ)
    (hne : l1 ≠ [])
    (hv1 : ∀ l ∈ l1, l < s1.length) (hv2 : ∀ l ∈ l2, l < s2.length)
    (hlen : l2.length = l1.length)
    (hshift : ∀ k, k < l1.length →
      (nthVal s2 (l2.getD k 0)).Data = (nthVal s1 (l1.getD k 0)).Data + c) :
    (softmaxOutData s1 l1).sum = 1 ∧ softmaxOutData s2 l2 = softmaxOutData s1 l1 := by
  have hc1 := softmaxOutData_closed s1 l1 hv1
  have hc2 := softmaxOutData_closed s2 l2 hv2
  have hS1 : 0 < (l1.map (fun l => Real.exp (nthVal s1 l).Data)).sum := by
    apply List.sum_pos
    · intro x hx
      obtain ⟨l, _, rfl⟩ := List.mem_map.mp hx
      exact Real.exp_pos _
    · simpa using hne
  have hexp2 : l2.map (fun l => Real.exp (nthVal s2 l).Data)
      = l1.map (fun l => Real.exp (nthVal s1 l).Data * Real.exp c) := by
    apply List.ext_getElem
    · simp [hlen]
    · intro k hk1 hk2
      have hk : k < l1.length := by simpa using hk2
      have hkl2 : k < l2.length := by rw [hlen]; exact hk
      rw [List.getElem_map, List.getElem_map]
      rw [← List.getD_eq_getElem l2 0 hkl2, ← List.getD_eq_getElem l1 0 hk]
      rw [hshift k hk, Real.exp_add]
  have hsum2 : (l2.map (fun l => Real.exp (nthVal s2 l).Data)).sum
      = (l1.map (fun l => Real.exp (nthVal s1 l).Data)).sum * Real.exp c := by
    rw [hexp2, List.sum_map_mul_right]
  constructor
  · rw [hc1, List.sum_map_mul_right, mul_inv_cancel₀ (ne_of_gt hS1)]
  · rw [hc1, hc2]
    apply List.ext_getElem?
    intro k
    rw [List.getElem?_map, List.getElem?_map]
    by_cases hk : k < l1.length
    · have hkl2 : k < l2.length := by rw [hlen]; exact hk
      rw [List.getElem?_eq_getElem hkl2, List.getElem?_eq_getElem hk]
      simp only [Option.map_some', Option.some.injEq]
      have hgd2 : l2.getD k 0 = l2[k] := List.getD_eq_getElem _ _ hkl2
      have hgd1 : l1.getD k 0 = l1[k] := List.getD_eq_getElem _ _ hk
      have hsh := hshift k hk
      rw [hgd1, hgd2] at hsh
      rw [hsum2, hsh, Real.exp_add, mul_inv]
      have he : Real.exp c ≠ 0 := Real.exp_ne_zero c
      field_simp
      ring
    · rw [List.getElem?_eq_none (by omega), List.getElem?_eq_none (by omega)]
      rfl

theorem Softmax_spec_witness :
    (([0] : List Nat) ≠ [] ∧ (∀ l ∈ ([0] : List Nat), l < 1)) ∧
      (softmaxOutData [NewValue 0] [0]).sum = 1 := by
  have h := Softmax_spec [NewValue 0] [NewValue 0] [0] [0] 0 (by simp)
    (by simp) (by simp) rfl (by intro k hk; simp)
  exact ⟨⟨by simp, by simp⟩, h.1⟩

/-- The residual-connection loop `for i := range x { x[i] = x[i].Add(xResidual[i]) }`. -/
def addResidual (s : Store) (x res : List Nat) : Store × List Nat :=
  x.enum.foldl
    (fun (acc : Store × List Nat) ixi =>
      let a := Store.add acc.1 ixi.2 (res.getD ixi.1 0)
      (a.1, acc.2 ++ [a.2]))
    (s, [])

/-- The elementwise ReLU loop `for i := range x { x[i] = x[i].Relu() }`. -/
def reluAll (s : Store) (x : List Nat) : Store × List Nat :=
  x.foldl
    (fun (acc : Store × List Nat) xi =>
      let r := Store.relu acc.1 xi
      (r.1, acc.2 ++ [r.2]))
    (s, [])

/-- One attention score:
`dot := NewValue(0); dot = dot.Add(qH[j].Mul(kH[j])); dot.Mul(NewValue(1/√headDim))`. -/
def attnScore (s : Store) (qH kH : List Nat) (headDim : Nat) : Store × Nat :=
  let dot := (List.range headDim).foldl
    (fun (acc : Store × Nat) j =>
      let mu := Store.mul acc.1 (qH.getD j 0) (kH.getD j 0)
      Store.add mu.1 acc.2 mu.2)
    (s.push (NewValue 0))
  let sc := Store.push dot.1 (NewValue (1 / Real.sqrt headDim))
  Store.mul sc.1 dot.2 sc.2

/-- The `for t := 0; t < len(keys[li]); t++` score loop of one head: score
the current query slice against every cached key slice. -/
def attnLogitsLoop (s : Store) (qH : List Nat) (keysLi : List (List Nat))
    (hs headDim : Nat) : Store × List Nat :=
  (List.range keysLi.length).foldl
    (fun (acc : Store × List Nat) t =>
      let kH := ((keysLi.getD t []).drop hs).take headDim
      let r := attnScore acc.1 qH kH headDim
      (r.1, acc.2 ++ [r.2]))
    (s, [])

/-- The weighted-sum loop of one head:
`headOut[j] = Σ_t attnWeights[t].Mul(vH[j])` over the cached values. -/
def headOutLoop (s : Store) (attnWeights : List Nat) (valuesLi : List (List Nat))
    (hs headDim : Nat) : Store × List Nat :=
  (List.range headDim).foldl
    (fun (acc : Store × List Nat) j =>
      let sum := (List.range valuesLi.length).foldl
        (fun (acc2 : Store × Nat) t =>
          let vH := ((valuesLi.getD t []).drop hs).take headDim
          let mu := Store.mul acc2.1 (attnWeights.getD t 0) (vH.getD j 0)
          Store.add mu.1 acc2.2 mu.2)
        (acc.1.push (NewValue 0))
      (sum.1, acc.2 ++ [sum.2]))
    (s, [])

/-- One transformer block of `Model.Forward` (the body of the
`for li := 0; li < NLayer; li++` loop): pre-norm attention with the
per-step key/value append into the layer cache, multi-head scaled
dot-product attention over the cache, output projection and residual,
then the pre-norm ReLU MLP with residual.  The accumulator is
`(store, x, keys, values)`. -/
def transformerLayer (m : Model) (headDim : Nat)
    (acc : Store × List Nat × List (List (List Nat)) × List (List (List Nat)))
    (li : Nat) :
    Store × List Nat × List (List (List Nat)) × List (List (List Nat)) :=
  let xResidual := acc.2.1
  let rn := RMSNorm acc.1 acc.2.1
  let q := Linear rn.1 rn.2 (m.State ("layer" ++ toString li ++ ".attn_wq"))
  let kk := Linear q.1 rn.2 (m.State ("layer" ++ toString li ++ ".attn_wk"))
  let vv := Linear kk.1 rn.2 (m.State ("layer" ++ toString li ++ ".attn_wv"))
  let keys := acc.2.2.1.set li ((acc.2.2.1.getD li []) ++ [kk.2])
  let values := acc.2.2.2.set li ((acc.2.2.2.getD li []) ++ [vv.2])
  let att := (List.range m.Config.NHead).foldl
    (fun (acc2 : Store × List Nat) h =>
      let hs := h * headDim
      let qH := (q.2.drop hs).take headDim
      let al := attnLogitsLoop acc2.1 qH (keys.getD li []) hs headDim
      let aw := Softmax al.1 al.2
      let ho := headOutLoop aw.1 aw.2 (values.getD li []) hs headDim
      (ho.1, acc2.2 ++ ho.2))
    (vv.1, [])
  let wo := Linear att.1 att.2 (m.State ("layer" ++ toString li ++ ".attn_wo"))
  let x1 := addResidual wo.1 wo.2 xResidual
  let rn2 := RMSNorm x1.1 x1.2
  let f1 := Linear rn2.1 rn2.2 (m.State ("layer" ++ toString li ++ ".mlp_fc1"))
  let rl := reluAll f1.1 f1.2
  let f2 := Linear rl.1 rl.2 (m.State ("layer" ++ toString li ++ ".mlp_fc2"))
  let x2 := addResidual f2.1 f2.2 x1.2
  (x2.1, x2.2, keys, values)

/-- `Model.Forward`: one autoregressive step.  Returns
`(store, keys, values, logits)`; the Go function returns only the logits
and mutates the caches through the slice headers, modelled here by
returning the updated caches. -/
def Forward (s : Store) (m : Model) (tokenID posID : Nat)
    (keys values : List (List (List Nat))) :
    Store × List (List (List Nat)) × List (List (List Nat)) × List Nat :=
  let tokEmb := (m.State "wte").getD tokenID []
  let posEmb := (m.State "wpe").getD posID []
  let emb := (List.range m.Config.NEmpd).foldl
    (fun (acc : Store × List Nat) i =>
      let a := Store.add acc.1 (tokEmb.getD i 0) (posEmb.getD i 0)
      (a.1, acc.2 ++ [a.2]))
    (s, [])
  let x0 := RMSNorm emb.1 emb.2
  let headDim := m.Config.NEmpd / m.Config.NHead
  let r := (List.range m.Config.NLayer).foldl (transformerLayer m headDim)
    (x0.1, x0.2, keys, values)
  let logits := Linear r.1 r.2.1 (m.State "lm_head")
  (logits.1, r.2.2.1, r.2.2.2, logits.2)

lemma Linear_length (s : Store) (x : List Nat) (w : List (List Nat)) :
    (Linear s x w).2.length = w.length := by
  suffices h : ∀ (init : Store × List Nat),
      (w.foldl (fun acc row =>
        let r := dotRow acc.1 x row
        (r.1, acc.2 ++ [r.2])) init).2.length = init.2.length + w.length by
    simpa using h (s, [])
  induction w with
  | nil => intro init; simp
  | cons row rows ih =>
    intro init
    rw [List.foldl_cons]
    rw [ih]
    simp
    omega

lemma Forward_logits_length (s : Store) (m : Model) (tokenID posID : Nat)
    (keys values : List (List (List Nat))) :
    (Forward s m tokenID posID keys values).2.2.2.length
      = (m.State "lm_head").length := by
  simp only [Forward]
  exact Linear_length _ _ _

lemma transformerLayer_caches (m : Model) (headDim : Nat)
    (acc : Store × List Nat × List (List (List Nat)) × List (List (List Nat)))
    (li : Nat) :
    ∃ kk vv,
      (transformerLayer m headDim acc li).2.2.1
          = acc.2.2.1.set li ((acc.2.2.1.getD li []) ++ [kk]) ∧
      (transformerLayer m headDim acc li).2.2.2
          = acc.2.2.2.set li ((acc.2.2.2.getD li []) ++ [vv]) :=
  ⟨_, _, rfl, rfl⟩

lemma getD_set_append {α : Type} (L : List (List α)) (li : Nat) (a : α)
    (hli : li < L.length) :
    ((L.set li (L.getD li [] ++ [a])).getD li []).length
      = (L.getD li []).length + 1 := by
  rw [List.getD_eq_getElem _ _ (by simpa using hli), List.getElem_set, if_pos rfl]
  simp

lemma getD_set_other {α : Type} (L : List (List α)) (li lj : Nat) (x : List α)
    (hne : li ≠ lj) : (L.set li x).getD lj [] = L.getD lj [] := by
  by_cases hj : lj < L.length
  · rw [List.getD_eq_getElem _ _ (by simpa using hj), List.getElem_set, if_neg hne,
      List.getD_eq_getElem _ _ hj]
  · rw [List.getD_eq_default _ _ (by simpa using not_lt.mp hj),
      List.getD_eq_default _ _ (not_lt.mp hj)]

lemma forwardLayers_caches (m : Model) (headDim : Nat) (L : List Nat) :
    ∀ acc : Store × List Nat × List (List (List Nat)) × List (List (List Nat)),
      L.Nodup →
      ((L.foldl (transformerLayer m headDim) acc).2.2.1.length = acc.2.2.1.length ∧
       (L.foldl (transformerLayer m headDim) acc).2.2.2.length = acc.2.2.2.length) ∧
      (∀ li, li ∈ L → li < acc.2.2.1.length → li < acc.2.2.2.length →
        ((L.foldl (transformerLayer m headDim) acc).2.2.1.getD li []).length
            = (acc.2.2.1.getD li []).length + 1 ∧
        ((L.foldl (transformerLayer m headDim) acc).2.2.2.getD li []).length
            = (acc.2.2.2.getD li []).length + 1) ∧
      (∀ li, li ∉ L →
        (L.foldl (transformerLayer m headDim) acc).2.2.1.getD li []
            = acc.2.2.1.getD li [] ∧
        (L.foldl (transformerLayer m headDim) acc).2.2.2.getD li []
            = acc.2.2.2.getD li []) := by
  induction L with
  | nil =>
    intro acc _
    exact ⟨⟨rfl, rfl⟩, fun li hli => absurd hli (by simp), fun li _ => ⟨rfl, rfl⟩⟩
  | cons l0 L' ih =>
    intro acc hnd
    rw [List.nodup_cons] at hnd
    obtain ⟨kk, vv, hkeq, hveq⟩ := transformerLayer_caches m headDim acc l0
    have hih := ih (transformerLayer m headDim acc l0) hnd.2
    rw [List.foldl_cons]
    refine ⟨⟨?_, ?_⟩, ?_, ?_⟩
    · rw [hih.1.1, hkeq]; simp
    · rw [hih.1.2, hveq]; simp
    · intro li hli hbk hbv
      rcases List.mem_cons.mp hli with rfl | hli'
      · -- li = l0: updated by the head layer, untouched by the rest
        have hnotin := hnd.1
        obtain ⟨hk0, hv0⟩ := hih.2.2 li hnotin
        constructor
        · rw [hk0, hkeq, getD_set_append _ _ _ hbk]
        · rw [hv0, hveq, getD_set_append _ _ _ hbv]
      · -- li processed later
        have hne : l0 ≠ li := by
          intro hc
          exact hnd.1 (hc ▸ hli')
        have hbk' : li < (transformerLayer m headDim acc l0).2.2.1.length := by
          rw [hkeq]; simpa using hbk
        have hbv' : li < (transformerLayer m headDim acc l0).2.2.2.length := by
          rw [hveq]; simpa using hbv
        obtain ⟨ha, hb⟩ := hih.2.1 li hli' hbk' hbv'
        constructor
        · rw [ha, hkeq, getD_set_other _ _ _ _ hne]
        · rw [hb, hveq, getD_set_other _ _ _ _ hne]
    · intro li hli
      have hli0 : l0 ≠ li := fun hc => hli (by simp [hc])
      have hliL : li ∉ L' := fun hc => hli (by simp [hc])
      obtain ⟨ha, hb⟩ := hih.2.2 li hliL
      constructor
      · rw [ha, hkeq, getD_set_other _ _ _ _ hli0]
      · rw [hb, hveq, getD_set_other _ _ _ _ hli0]

lemma forwardFold_caches (m : Model) (hd : Nat) (X : Store) (Y : List Nat)
    (keys values : List (List (List Nat)))
    (hk : keys.length = m.Config.NLayer) (hv : values.length = m.Config.NLayer) :
    ((List.range m.Config.NLayer).foldl (transformerLayer m hd)
        (X, Y, keys, values)).2.2.1.length = m.Config.NLayer ∧
    ((List.range m.Config.NLayer).foldl (transformerLayer m hd)
        (X, Y, keys, values)).2.2.2.length = m.Config.NLayer ∧
    ∀ li, li < m.Config.NLayer →
      (((List.range m.Config.NLayer).foldl (transformerLayer m hd)
          (X, Y, keys, values)).2.2.1.getD li []).length
        = (keys.getD li []).length + 1 ∧
      (((List.range m.Config.NLayer).foldl (transformerLayer m hd)
          (X, Y, keys, values)).2.2.2.getD li []).length
        = (values.getD li []).length + 1 := by
  have h := forwardLayers_caches m hd (List.range m.Config.NLayer)
    (X, Y, keys, values) (List.nodup_range _)
  refine ⟨by rw [h.1.1]; exact hk, by rw [h.1.2]; exact hv, ?_⟩
  intro li hli
  exact h.2.1 li (List.mem_range.mpr hli)
    (show li < keys.length by omega) (show li < values.length by omega)

lemma Forward_caches (s : Store) (m : Model) (tokenID posID : Nat)
    (keys values : List (List (List Nat)))
    (hk : keys.length = m.Config.NLayer) (hv : values.length = m.Config.NLayer) :
    (Forward s m tokenID posID keys values).2.1.length = m.Config.NLayer ∧
    (Forward s m tokenID posID keys values).2.2.1.length = m.Config.NLayer ∧
    ∀ li, li < m.Config.NLayer →
      ((Forward s m tokenID posID keys values).2.1.getD li []).length
          = (keys.getD li []).length + 1 ∧
      ((Forward s m tokenID posID keys values).2.2.1.getD li []).length
          = (values.getD li []).length + 1 :=
  forwardFold_caches m _ _ _ keys values hk hv

/-- Harness for the sequential-cache claim: call `Forward` once per token,
threading the caches exactly as `GenerateSample`'s and `trainOneExample`'s
position loops do, returning `(store, keys, values)`. -/
def forwardSeq (s : Store) (m : Model) (tokens : List Nat) (pos : Nat)
    (keys values : List (List (List Nat))) :
    Store × List (List (List Nat)) × List (List (List Nat)) :=
  match tokens with
  | [] => (s, keys, values)
  | tk :: rest =>
    let r := Forward s m tk pos keys values
    forwardSeq r.1 m rest (pos + 1) r.2.1 r.2.2.1

lemma getD_replicate_nil {α : Type} (n li : Nat) :
    ((List.replicate n ([] : List α)).getD li []) = [] := by
  by_cases h : li < n
  · rw [List.getD_eq_getElem _ _ (by simpa using h)]
    exact List.getElem_replicate _ _
  · rw [List.getD_eq_default _ _ (by simpa using not_lt.mp h)]

lemma forwardSeq_caches (m : Model) (tokens : List Nat) :
    ∀ (s : Store) (pos : Nat) (keys values : List (List (List Nat))),
      keys.length = m.Config.NLayer → values.length = m.Config.NLayer →
      (forwardSeq s m tokens pos keys values).2.1.length = m.Config.NLayer ∧
      (forwardSeq s m tokens pos keys values).2.2.length = m.Config.NLayer ∧
      ∀ li, li < m.Config.NLayer →
        ((forwardSeq s m tokens pos keys values).2.1.getD li []).length
            = (keys.getD li []).length + tokens.length ∧
        ((forwardSeq s m tokens pos keys values).2.2.getD li []).length
            = (values.getD li []).length + tokens.length := by
  induction tokens with
  | nil =>
    intro s pos keys values hk hv
    exact ⟨hk, hv, fun li _ => ⟨by simp [forwardSeq], by simp [forwardSeq]⟩⟩
  | cons tk rest ih =>
    intro s pos keys values hk hv
    obtain ⟨h1, h2, h3⟩ := Forward_caches s m tk pos keys values hk hv
    obtain ⟨g1, g2, g3⟩ := ih (Forward s m tk pos keys values).1 (pos + 1)
      (Forward s m tk pos keys values).2.1 (Forward s m tk pos keys values).2.2.1 h1 h2
    have hunf : forwardSeq s m (tk :: rest) pos keys values
        = forwardSeq (Forward s m tk pos keys values).1 m rest (pos + 1)
            (Forward s m tk pos keys values).2.1
            (Forward s m tk pos keys values).2.2.1 := rfl
    rw [hunf]
    refine ⟨g1, g2, ?_⟩
    intro li hli
    obtain ⟨a1, a2⟩ := h3 li hli
    obtain ⟨b1, b2⟩ := g3 li hli
    constructor
    · rw [b1, a1]
      simp only [List.length_cons]
      omega
    · rw [b2, a2]
      simp only [List.length_cons]
      omega

/-- Claim C8: each call to `Forward` appends exactly one key vector and one
value vector to every layer's cache, so when the caches start empty
(`make([][][]*Value, NLayer)`) and `Forward` runs sequentially for
positions 0, 1, ..., t, every layer's key and value cache has length
exactly t+1 after the call at position t; attention at position t scores
the query against exactly the cached entries, whose indices are therefore
at most t. -/
theorem Forward_cache_spec (m : Model) :
    (∀ (s : Store) (tokenID posID : Nat) (keys values : List (List (List Nat))),
      keys.length = m.Config.NLayer → values.length = m.Config.NLayer →
      ∀ li, li < m.Config.NLayer →
        ((Forward s m tokenID posID keys values).2.1.getD li []).length
            = (keys.getD li []).length + 1 ∧
        ((Forward s m tokenID posID keys values).2.2.1.getD li []).length
            = (values.getD li []).length + 1) ∧
    (∀ (s : Store) (tokens : List Nat),
      ∀ li, li < m.Config.NLayer →
        ((forwardSeq s m tokens 0 (List.replicate m.Config.NLayer [])
            (List.replicate m.Config.NLayer [])).2.1.getD li []).length
          = tokens.length ∧
        ((forwardSeq s m tokens 0 (List.replicate m.Config.NLayer [])
            (List.replicate m.Config.NLayer [])).2.2.getD li []).length
          = tokens.length) := by
  constructor
  · intro s tid pid keys values hk hv li hli
    exact (Forward_caches s m tid pid keys values hk hv).2.2 li hli
  · intro s tokens li hli
    obtain ⟨-, -, h3⟩ := forwardSeq_caches m tokens s 0
      (List.replicate m.Config.NLayer []) (List.replicate m.Config.NLayer [])
      (by simp) (by simp)
    obtain ⟨a, b⟩ := h3 li hli
    constructor
    · rw [a, getD_replicate_nil]
      simp
    · rw [b, getD_replicate_nil]
      simp

theorem Forward_cache_spec_witness :
    (([[]] : List (List (List Nat))).length
        = (Model.mk ⟨0, 0, 1, 0, 1⟩ 1 [] 0 [] (fun _ => []) [] [] 0).Config.NLayer ∧
      (0 : Nat) < 1) ∧
    ((Forward [] (Model.mk ⟨0, 0, 1, 0, 1⟩ 1 [] 0 [] (fun _ => []) [] [] 0)
        0 0 [[]] [[]]).2.1.getD 0 []).length
      = (([[]] : List (List (List Nat))).getD 0 []).length + 1 :=
  ⟨⟨rfl, by norm_num⟩,
    (((Forward_cache_spec (Model.mk ⟨0, 0, 1, 0, 1⟩ 1 [] 0 [] (fun _ => []) [] [] 0)).1
      [] 0 0 [[]] [[]] rfl rfl 0 (by norm_num)).1)⟩

lemma length_renormalizeOrUniform (p : List ℝ) (bos : Nat) (su : Bool) :
    (renormalizeOrUniform p bos su).length = p.length := by
  rw [renormalizeOrUniform]
  split
  · simp
  · split <;> simp

lemma length_toProbVector (logits : List ℝ) (opts : GenerateOptions) (bos : Nat)
    (su : Bool) : (toProbVector logits opts bos su).2.length = logits.length := by
  show (renormalizeOrUniform _ _ _).length = _
  rw [length_renormalizeOrUniform, length_suppressControl, length_topKFilter,
    length_stableExpProbs, rawDivTemp, List.length_map]

lemma sampleFromProbVector_chosen (probs : List ℝ) (f : Nat) (u : ℝ) :
    (sampleFromProbVector probs f u).1 = f ∨
      (sampleFromProbVector probs f u).1 < probs.length := by
  rcases sampleScan_spec u f probs 0 0 with ⟨_, heq⟩ | ⟨i, hi, _, _, heq⟩
  · left
    rw [sampleFromProbVector, heq]
  · right
    rw [sampleFromProbVector, heq]
    simpa using hi

/-- The generation loop of `GenerateSample` with fuel
`BlockSize - pos`; `rng pos` is the `rand.Float64()` draw of the step at
position `pos`, and `toProbVector` receives the `Data` fields of the logit
nodes (all the source reads from them). -/
def genLoop (m : Model) (opts : GenerateOptions) (rng : Nat → ℝ) :
    Nat → Nat → Store → Nat → List String →
    List (List (List Nat)) → List (List (List Nat)) → List String
  | 0, _, _, _, sample, _, _ => sample
  | fuel + 1, pos, s, tokenID, sample, keys, values =>
    let r := Forward s m tokenID pos keys values
    let suppressEnd := decide ((sample.length : Int) < opts.MinLen)
    let pv := toProbVector (r.2.2.2.map (fun l => (nthVal r.1 l).Data)) opts
      m.BOS suppressEnd
    let smp := sampleFromProbVector pv.2 m.BOS (rng pos)
    if smp.1 = m.BOS then sample
    else genLoop m opts rng fuel (pos + 1) r.1 smp.1
      (sample ++ [m.Chars.getD smp.1 ""]) r.2.1 r.2.2.1

/-- `GenerateSample`: validate options, seed with the control token, run up
to `BlockSize` forward/sample steps, join the sampled characters. -/
def GenerateSample (s : Store) (m : Model) (opts : GenerateOptions)
    (rng : Nat → ℝ) : String :=
  let o := samplingConfig opts m.VocabSize
  String.join (genLoop m o rng m.Config.BlockSize 0 s m.BOS []
    (List.replicate m.Config.NLayer []) (List.replicate m.Config.NLayer []))

lemma genLoop_spec (m : Model) (opts : GenerateOptions) (rng : Nat → ℝ)
    (hlm : (m.State "lm_head").length = m.VocabSize)
    (hbos : m.BOS = m.Chars.length)
    (hvocab : m.VocabSize = m.Chars.length + 1) :
    ∀ (fuel pos : Nat) (s : Store) (tokenID : Nat) (sample : List String)
      (keys values : List (List (List Nat))),
      (∀ ch ∈ sample, ch ∈ m.Chars) →
      (genLoop m opts rng fuel pos s tokenID sample keys values).length
          ≤ sample.length + fuel ∧
      ∀ ch ∈ genLoop m opts rng fuel pos s tokenID sample keys values,
        ch ∈ m.Chars := by
  intro fuel
  induction fuel with
  | zero =>
    intro pos s tokenID sample keys values hs
    exact ⟨by simp [genLoop], by simpa [genLoop] using hs⟩
  | succ fuel ih =>
    intro pos s tokenID sample keys values hs
    rw [genLoop]
    set r := Forward s m tokenID pos keys values with hr
    set pv := toProbVector (r.2.2.2.map (fun l => (nthVal r.1 l).Data)) opts
      m.BOS (decide ((sample.length : Int) < opts.MinLen)) with hpv
    set smp := sampleFromProbVector pv.2 m.BOS (rng pos) with hsmp
    by_cases hb : smp.1 = m.BOS
    · rw [if_pos hb]
      exact ⟨by omega, hs⟩
    · rw [if_neg hb]
      have hplen : pv.2.length = m.Chars.length + 1 := by
        rw [hpv, length_toProbVector, List.length_map, hr, Forward_logits_length,
          hlm, hvocab]
      have hlt : smp.1 < m.Chars.length := by
        rcases sampleFromProbVector_chosen pv.2 m.BOS (rng pos) with hc | hc
        · rw [← hsmp] at hc
          exact absurd hc hb
        · rw [← hsmp, hplen] at hc
          have : smp.1 ≠ m.Chars.length := by rw [← hbos]; exact hb
          omega
      have hmem : m.Chars.getD smp.1 "" ∈ m.Chars := by
        rw [List.getD_eq_getElem _ _ hlt]
        exact List.getElem_mem hlt
      have hih := ih (pos + 1) r.1 smp.1 (sample ++ [m.Chars.getD smp.1 ""])
        r.2.1 r.2.2.1
        (by
          intro ch hch
          rcases List.mem_append.mp hch with h | h
          · exact hs ch h
          · rw [List.mem_singleton.mp h]
            exact hmem)
      refine ⟨?_, hih.2⟩
      have := hih.1
      simp only [List.length_append, List.length_singleton] at this
      omega

/-- Claim C4: for every model whose output head has one row per vocabulary
entry (`VocabSize = len(Chars) + 1` rows, control token id `len(Chars)`),
`GenerateSample` performs at most `BlockSize` forward/sample steps and
returns the join of at most `BlockSize` sampled characters, each of which
belongs to the vocabulary `Chars`; the control token is never appended
(sampling it stops the loop instead). -/
theorem GenerateSample_spec (s : Store) (m : Model) (opts : GenerateOptions)
    (rng : Nat → ℝ)
    (hlm : (m.State "lm_head").length = m.VocabSize)
    (hbos : m.BOS = m.Chars.length)
    (hvocab : m.VocabSize = m.Chars.length + 1) :
    ∃ sample : List String,
      GenerateSample s m opts rng = String.join sample ∧
      sample.length ≤ m.Config.BlockSize ∧
      ∀ ch ∈ sample, ch ∈ m.Chars := by
  obtain ⟨h1, h2⟩ := genLoop_spec m (samplingConfig opts m.VocabSize) rng hlm hbos
    hvocab m.Config.BlockSize 0 s m.BOS []
    (List.replicate m.Config.NLayer []) (List.replicate m.Config.NLayer [])
    (by intro ch hch; exact absurd hch (by simp))
  exact ⟨_, rfl, by simpa using h1, h2⟩

theorem GenerateSample_spec_witness :
    (((fun k => if k = "lm_head" then ([[], []] : List (List Nat)) else []) "lm_head").length = 2 ∧
      (1 : Nat) = 1 ∧ (2 : Nat) = 1 + 1) ∧
    ∃ sample : List String,
      GenerateSample []
          (Model.mk ⟨0, 0, 0, 1, 1⟩ 2 ["a"] 1 []
            (fun k => if k = "lm_head" then ([[], []] : List (List Nat)) else []) [] [] 0)
          ⟨1, 0, 0⟩ (fun _ => 0)
        = String.join sample ∧
      sample.length ≤ 1 ∧ ∀ ch ∈ sample, ch ∈ ["a"] := by
  constructor
  · exact ⟨by simp, rfl, rfl⟩
  · exact GenerateSample_spec []
      (Model.mk ⟨0, 0, 0, 1, 1⟩ 2 ["a"] 1 []
        (fun k => if k = "lm_head" then ([[], []] : List (List Nat)) else []) [] [] 0)
      ⟨1, 0, 0⟩ (fun _ => 0) (by simp) rfl rfl

/-- `TraceStep` from the API types. -/
structure TraceStep where
  Position : Nat
  Context : String
  TopK : List TraceCandidate
  RandomU : ℝ
  ChosenChar : String
  ChosenProb : ℝ
  ChosenRank : Nat
  CumBefore : ℝ
  CumAfter : ℝ
  Reason : String

/-- `GenerateTraceResponse` from the API types. -/
structure GenerateTraceResponse where
  Text : String
  Steps : List TraceStep
  StopReason : String

/-- The chosen token's rank among the displayed candidates:
`chosenRank := len(probs)` unless a candidate matches, then `rank + 1`. -/
def chosenRankOf (topK : List TraceCandidate) (newTokenID probsLen : Nat) : Nat :=
  match topK.findIdx? (fun cand => decide (cand.TokenID = newTokenID)) with
  | some rank => rank + 1
  | none => probsLen

/-- The `fmt.Sprintf` explanation string of the trace; the `%.4f`
floating-point formatting is abstracted by the `fmtF` parameter (its value
is irrelevant to the behavior under verification). -/
def reasonString (fmtF : ℝ → String) (chosenLabel : String)
    (rnd cumBefore cumAfter : ℝ) (topK : List TraceCandidate)
    (newTokenID : Nat) : String :=
  let base := "Chosen '" ++ chosenLabel ++ "' because draw " ++ fmtF rnd
    ++ " fell inside cumulative interval [" ++ fmtF cumBefore ++ ", "
    ++ fmtF cumAfter ++ ") in vocabulary index order."
  match topK with
  | [] => base
  | top :: _ =>
    if top.TokenID ≠ newTokenID then
      base ++ " Highest-probability option was '" ++ top.Char ++ "' at "
        ++ fmtF top.Prob
        ++ ", but stochastic sampling can still pick lower-ranked valid options."
    else base

/-- The generation loop of `GenerateSampleWithTrace`: like `genLoop` but
recording a `TraceStep` per position before the break test, and returning
`(sample, steps, stopReason)` with the stop reason strings of the source. -/
def genTraceLoop (m : Model) (opts : GenerateOptions) (fmtF : ℝ → String)
    (rng : Nat → ℝ) :
    Nat → Nat → Store → Nat → List String → List (List (List Nat)) →
    List (List (List Nat)) → List TraceStep →
    List String × List TraceStep × String
  | 0, _, _, _, sample, _, _, steps => (sample, steps, "Reached block size limit")
  | fuel + 1, pos, s, tokenID, sample, keys, values, steps =>
    let r := Forward s m tokenID pos keys values
    let suppressEnd := decide ((sample.length : Int) < opts.MinLen)
    let pv := toProbVector (r.2.2.2.map (fun l => (nthVal r.1 l).Data)) opts
      m.BOS suppressEnd
    let topK := topKCandidates pv.1 pv.2 m.Chars m.BOS 5
    let smp := sampleFromProbVector pv.2 m.BOS (rng pos)
    let step : TraceStep :=
      { Position := pos,
        Context := String.join sample,
        TopK := topK,
        RandomU := smp.2.1,
        ChosenChar := tokenLabel smp.1 m.BOS m.Chars,
        ChosenProb := smp.2.2.2.2,
        ChosenRank := chosenRankOf topK smp.1 pv.2.length,
        CumBefore := smp.2.2.1,
        CumAfter := smp.2.2.2.1,
        Reason := reasonString fmtF (tokenLabel smp.1 m.BOS m.Chars) smp.2.1
          smp.2.2.1 smp.2.2.2.1 topK smp.1 }
    if smp.1 = m.BOS then (sample, steps ++ [step], "Model selected <END> token")
    else genTraceLoop m opts fmtF rng fuel (pos + 1) r.1 smp.1
      (sample ++ [m.Chars.getD smp.1 ""]) r.2.1 r.2.2.1 (steps ++ [step])

/-- `GenerateSampleWithTrace`: the traced generation entry point. -/
def GenerateSampleWithTrace (s : Store) (m : Model) (opts : GenerateOptions)
    (fmtF : ℝ → String) (rng : Nat → ℝ) : GenerateTraceResponse :=
  let o := samplingConfig opts m.VocabSize
  let r := genTraceLoop m o fmtF rng m.Config.BlockSize 0 s m.BOS []
    (List.replicate m.Config.NLayer []) (List.replicate m.Config.NLayer []) []
  { Text := String.join r.1, Steps := r.2.1, StopReason := r.2.2 }

lemma tokenLabel_ne_end (m : Model) (hend : "<END>" ∉ m.Chars) (id : Nat)
    (hid : id ≠ m.BOS) : tokenLabel id m.BOS m.Chars ≠ "<END>" := by
  rw [tokenLabel, if_neg hid]
  by_cases h : id < m.Chars.length
  · rw [List.getD_eq_getElem _ _ h]
    intro hc
    exact hend (hc ▸ List.getElem_mem h)
  · rw [List.getD_eq_default _ _ (not_lt.mp h)]
    decide

lemma genTraceLoop_spec (m : Model) (opts : GenerateOptions) (fmtF : ℝ → String)
    (rng : Nat → ℝ) (hend : "<END>" ∉ m.Chars) :
    ∀ (fuel pos : Nat) (s : Store) (tokenID : Nat) (sample : List String)
      (keys values : List (List (List Nat))) (steps : List TraceStep),
      (∀ st ∈ steps, st.ChosenChar ≠ "<END>") →
      ((genTraceLoop m opts fmtF rng fuel pos s tokenID sample keys values steps).2.2
          = "Model selected <END> token" ∨
        (genTraceLoop m opts fmtF rng fuel pos s tokenID sample keys values steps).2.2
          = "Reached block size limit") ∧
      ((genTraceLoop m opts fmtF rng fuel pos s tokenID sample keys values steps).2.2
          = "Model selected <END> token" →
        ∃ st, (genTraceLoop m opts fmtF rng fuel pos s tokenID sample keys values
            steps).2.1.getLast? = some st ∧ st.ChosenChar = "<END>") ∧
      ((genTraceLoop m opts fmtF rng fuel pos s tokenID sample keys values steps).2.2
          = "Reached block size limit" →
        (genTraceLoop m opts fmtF rng fuel pos s tokenID sample keys values
            steps).2.1.length = steps.length + fuel ∧
        ∀ st ∈ (genTraceLoop m opts fmtF rng fuel pos s tokenID sample keys values
            steps).2.1, st.ChosenChar ≠ "<END>") := by
  intro fuel
  induction fuel with
  | zero =>
    intro pos s tokenID sample keys values steps hsteps
    refine ⟨Or.inr rfl, ?_, ?_⟩
    · intro h
      have h2 : ("Reached block size limit" : String) = "Model selected <END> token" := h
      exact absurd h2 (by decide)
    · intro _
      exact ⟨by simp [genTraceLoop], by simpa [genTraceLoop] using hsteps⟩
  | succ fuel ih =>
    intro pos s tokenID sample keys values steps hsteps
    rw [genTraceLoop]
    set r := Forward s m tokenID pos keys values with hr
    set pv := toProbVector (r.2.2.2.map (fun l => (nthVal r.1 l).Data)) opts
      m.BOS (decide ((sample.length : Int) < opts.MinLen)) with hpv
    set topK := topKCandidates pv.1 pv.2 m.Chars m.BOS 5 with htk
    set smp := sampleFromProbVector pv.2 m.BOS (rng pos) with hsmp
    by_cases hb : smp.1 = m.BOS
    · rw [if_pos hb]
      refine ⟨Or.inl rfl, ?_, ?_⟩
      · intro _
        exact ⟨_, List.getLast?_concat _,
          show tokenLabel smp.1 m.BOS m.Chars = "<END>" by rw [tokenLabel, if_pos hb]⟩
      · intro h
        have h2 : ("Model selected <END> token" : String)
            = "Reached block size limit" := h
        exact absurd h2 (by decide)
    · rw [if_neg hb]
      have hstep : tokenLabel smp.1 m.BOS m.Chars ≠ "<END>" :=
        tokenLabel_ne_end m hend smp.1 hb
      have hih := ih (pos + 1) r.1 smp.1 (sample ++ [m.Chars.getD smp.1 ""])
        r.2.1 r.2.2.1
        (steps ++ [(⟨pos, String.join sample, topK, smp.2.1,
          tokenLabel smp.1 m.BOS m.Chars, smp.2.2.2.2,
          chosenRankOf topK smp.1 pv.2.length, smp.2.2.1, smp.2.2.2.1,
          reasonString fmtF (tokenLabel smp.1 m.BOS m.Chars) smp.2.1
            smp.2.2.1 smp.2.2.2.1 topK smp.1⟩ : TraceStep)])
        (by
          intro st hst
          rcases List.mem_append.mp hst with h | h
          · exact hsteps st h
          · rw [List.mem_singleton.mp h]
            exact hstep)
      refine ⟨hih.1, hih.2.1, ?_⟩
      intro h
      obtain ⟨hlen, hall⟩ := hih.2.2 h
      refine ⟨?_, hall⟩
      rw [hlen]
      simp only [List.length_append, List.length_singleton]
      omega

/-- Claim C9, counterexample: the stop reason strings of the code are
"Model selected <END> token" and "Reached block size limit", not the
claim's "control token selected" / "length limit reached".  With
`BlockSize = 0` the loop exhausts its steps without sampling the control
token, and the reported reason differs from the claimed string. -/
theorem genTrace_stopReason_cex :
    (GenerateSampleWithTrace []
        (Model.mk ⟨0, 0, 0, 0, 1⟩ 1 [] 0 [] (fun _ => []) [] [] 0)
        ⟨1, 0, 0⟩ (fun _ => "") (fun _ => 0)).StopReason
      = "Reached block size limit" ∧
    ("Reached block size limit" : String) ≠ "length limit reached" ∧
    ("Reached block size limit" : String) ≠ "control token selected" :=
  ⟨rfl, by decide, by decide⟩

/-- Claim C9 (amended): the generation loop's reported stop reason is the
string "Model selected <END> token" exactly when the last recorded step
sampled the control token (displayed `<END>`, and then not appended), and
otherwise the string "Reached block size limit", reported exactly when
`blockSize` steps were exhausted with every recorded step sampling an
ordinary vocabulary token.  (The strings "control token selected" and
"length limit reached" in the claim are the spec's paraphrase; the code's
literal strings are the two above.) -/
theorem genTrace_stopReason_spec (s : Store) (m : Model) (opts : GenerateOptions)
    (fmtF : ℝ → String) (rng : Nat → ℝ) (hend : "<END>" ∉ m.Chars) :
    ((GenerateSampleWithTrace s m opts fmtF rng).StopReason
        = "Model selected <END> token" ∨
      (GenerateSampleWithTrace s m opts fmtF rng).StopReason
        = "Reached block size limit") ∧
    ((GenerateSampleWithTrace s m opts fmtF rng).StopReason
        = "Model selected <END> token" ↔
      ∃ st, (GenerateSampleWithTrace s m opts fmtF rng).Steps.getLast? = some st ∧
        st.ChosenChar = "<END>") ∧
    ((GenerateSampleWithTrace s m opts fmtF rng).StopReason
        = "Reached block size limit" →
      (GenerateSampleWithTrace s m opts fmtF rng).Steps.length
          = m.Config.BlockSize ∧
      ∀ st ∈ (GenerateSampleWithTrace s m opts fmtF rng).Steps,
        st.ChosenChar ≠ "<END>") := by
  obtain ⟨hA, hB, hC⟩ := genTraceLoop_spec m (samplingConfig opts m.VocabSize)
    fmtF rng hend m.Config.BlockSize 0 s m.BOS []
    (List.replicate m.Config.NLayer []) (List.replicate m.Config.NLayer []) []
    (by intro st hst; exact absurd hst (by simp))
  refine ⟨hA, ⟨hB, ?_⟩, ?_⟩
  · rintro ⟨st, hlast, hchar⟩
    rcases hA with h1 | h1
    · exact h1
    · exfalso
      obtain ⟨-, hall⟩ := hC h1
      refine hall st ?_ hchar
      obtain ⟨hne, heq⟩ := List.mem_getLast?_eq_getLast (Option.mem_def.mpr hlast)
      rw [heq]
      exact List.getLast_mem hne
  · intro h1
    obtain ⟨hlen, hall⟩ := hC h1
    refine ⟨?_, hall⟩
    show (genTraceLoop m (samplingConfig opts m.VocabSize) fmtF rng
        m.Config.BlockSize 0 s m.BOS [] (List.replicate m.Config.NLayer [])
        (List.replicate m.Config.NLayer []) []).2.1.length = m.Config.BlockSize
    rw [hlen]
    simp

theorem genTrace_stopReason_spec_witness :
    ("<END>" ∉ ([] : List String)) ∧
    ((GenerateSampleWithTrace []
        (Model.mk ⟨0, 0, 0, 0, 1⟩ 1 [] 0 [] (fun _ => []) [] [] 0)
        ⟨1, 0, 0⟩ (fun _ => "") (fun _ => 0)).StopReason
          = "Model selected <END> token" ∨
      (GenerateSampleWithTrace []
        (Model.mk ⟨0, 0, 0, 0, 1⟩ 1 [] 0 [] (fun _ => []) [] [] 0)
        ⟨1, 0, 0⟩ (fun _ => "") (fun _ => 0)).StopReason
          = "Reached block size limit") :=
  ⟨by simp,
    (genTrace_stopReason_spec []
      (Model.mk ⟨0, 0, 0, 0, 1⟩ 1 [] 0 [] (fun _ => []) [] [] 0)
      ⟨1, 0, 0⟩ (fun _ => "") (fun _ => 0) (by simp)).1⟩

/-- The `bestIdx/bestProb` argmax loop of `trainOneExample`
(`probs[0].Data` start, strict improvement). -/
def bestOf (s : Store) (probs : List Nat) : Nat × ℝ :=
  probs.enum.foldl
    (fun acc ip =>
      if (nthVal s ip.2).Data > acc.2 then (ip.1, (nthVal s ip.2).Data) else acc)
    (0, (nthVal s (probs.getD 0 0)).Data)

/-- The teacher-forcing position loop body of `trainOneExample`: `Forward`
on the current token, `Softmax`, the loss node
`probs[tokens[pos+1]].Log().Mul(NewValue(-1))`, and the last-position
diagnostics.  The accumulator is
`(store, keys, values, losses, (context, target, predicted, targetProb, predictedProb))`. -/
def trainPosStep (m : Model) (tokens : List Nat) (n : Nat)
    (acc : Store × List (List (List Nat)) × List (List (List Nat)) × List Nat ×
      (String × String × String × ℝ × ℝ))
    (pos : Nat) :
    Store × List (List (List Nat)) × List (List (List Nat)) × List Nat ×
      (String × String × String × ℝ × ℝ) :=
  let r := Forward acc.1 m (tokens.getD pos 0) pos acc.2.1 acc.2.2.1
  let sm := Softmax r.1 r.2.2.2
  let lg := Store.log sm.1 (sm.2.getD (tokens.getD (pos + 1) 0) 0)
  let neg1 := Store.push lg.1 (NewValue (-1))
  let loss := Store.mul neg1.1 lg.2 neg1.2
  let diag :=
    if pos = n - 1 then
      let best := bestOf loss.1 sm.2
      (tokenLabel (tokens.getD pos 0) m.BOS m.Chars,
        tokenLabel (tokens.getD (pos + 1) 0) m.BOS m.Chars,
        tokenLabel best.1 m.BOS m.Chars,
        (nthVal loss.1 (sm.2.getD (tokens.getD (pos + 1) 0) 0)).Data,
        best.2)
    else acc.2.2.2.2
  (loss.1, r.2.1, r.2.2.1, acc.2.2.2.1 ++ [loss.2], diag)

/-- `trainOneExample`: pick a document (the `rand.Intn` draw is the `pick`
argument), encode it, truncate to at most `BlockSize` usable positions,
teacher-force through the positions collecting per-position losses, build
the averaged loss `totalLoss.Mul(NewValue(1/n))` and call `Backward` on
it.  Fails when there are no usable positions. -/
def trainOneExample (s : Store) (m : Model) (docs : List (List Char))
    (pick : Nat) : Except String (Store × TrainResponse) :=
  let doc := docs.getD pick []
  let tokens := encodeDoc doc m.Chars m.BOS
  let n0 := tokens.length - 1
  let n := if n0 > m.Config.BlockSize then m.Config.BlockSize else n0
  if n = 0 then Except.error "training sequence is empty"
  else
    let r := (List.range n).foldl (trainPosStep m tokens n)
      (s, List.replicate m.Config.NLayer [], List.replicate m.Config.NLayer [], [],
        ("<END>", "<END>", "<END>", (0 : ℝ), (0 : ℝ)))
    let tot := r.2.2.2.1.foldl
      (fun (acc : Store × Nat) l => Store.add acc.1 acc.2 l)
      (r.1.push (NewValue 0))
    let c := Store.push tot.1 (NewValue (1 / (n : ℝ)))
    let avg := Store.mul c.1 tot.2 c.2
    let s' := Backward avg.1 avg.2
    Except.ok (s',
      { Step := m.Steps, Loss := (nthVal s' avg.2).Data,
        ContextChar := r.2.2.2.2.1, TargetChar := r.2.2.2.2.2.1,
        PredictedChar := r.2.2.2.2.2.2.1, TargetProb := r.2.2.2.2.2.2.2.1,
        PredictedProb := r.2.2.2.2.2.2.2.2 })

/-- The gradient-zeroing loop of `TrainBatchedSteps`
(`for _, p := range model.Params { p.Grad = 0 }`). -/
def zeroGrads (s : Store) (params : List Nat) : Store :=
  params.foldl (fun st p => modifyAt st p (fun v => { v with Grad := 0 })) s

/-- The gradient-scaling loop of `TrainBatchedSteps`
(`p.Grad *= scale`). -/
def scaleGrads (s : Store) (params : List Nat) (scale : ℝ) : Store :=
  params.foldl (fun st p => modifyAt st p (fun v => { v with Grad := v.Grad * scale })) s

/-- The inner `for b := 0; b < batchSize; b++` loop of
`TrainBatchedSteps`, threading `batchLoss` and `lastResp`; `ctr` indexes
the document-pick stream. -/
def runBatch (m : Model) (docs : List (List Char)) (picks : Nat → Nat) :
    Nat → Store → Nat → ℝ → TrainResponse →
    Except String (Store × ℝ × TrainResponse × Nat)
  | 0, s, ctr, batchLoss, lastResp => Except.ok (s, batchLoss, lastResp, ctr)
  | b + 1, s, ctr, batchLoss, lastResp =>
    match trainOneExample s m docs (picks ctr) with
    | Except.error e => Except.error e
    | Except.ok r =>
      runBatch m docs picks b r.1 (ctr + 1) (batchLoss + r.2.Loss) r.2

/-- The outer `for step := 0; step < stepsPerCall; step++` loop of
`TrainBatchedSteps`: zero gradients, run a batch, scale by `1/batchSize`,
`Update`, and accumulate `avgLossAcrossSteps`. -/
def runSteps (docs : List (List Char)) (picks : Nat → Nat) (batchSize : Nat) :
    Nat → Store → Model → Nat → ℝ → TrainResponse →
    Except String (Store × Model × ℝ × TrainResponse)
  | 0, s, m, _, avgAcc, lastResp => Except.ok (s, m, avgAcc, lastResp)
  | k + 1, s, m, ctr, avgAcc, lastResp =>
    let s0 := zeroGrads s m.Params
    match runBatch m docs picks batchSize s0 ctr 0 lastResp with
    | Except.error e => Except.error e
    | Except.ok r =>
      let s1 := scaleGrads r.1 m.Params (1 / (batchSize : ℝ))
      let u := Update s1 m
      runSteps docs picks batchSize k u.1 u.2 r.2.2.2
        (avgAcc + r.2.1 / (batchSize : ℝ)) r.2.2.1

/-- `TrainBatchedSteps`: clamp the counts to at least 1, run the step
loop from the zero-valued `lastResp`, then overwrite `Step` with the final
step counter and `Loss` with the across-steps average. -/
def TrainBatchedSteps (s : Store) (m : Model) (docs : List (List Char))
    (stepsPerCall batchSize : Nat) (picks : Nat → Nat) :
    Except String (Store × Model × TrainResponse) :=
  let steps := if stepsPerCall < 1 then 1 else stepsPerCall
  let batch := if batchSize < 1 then 1 else batchSize
  match runSteps docs picks batch steps s m 0 0 default with
  | Except.error e => Except.error e
  | Except.ok r =>
    Except.ok (r.1, r.2.1,
      { r.2.2.2 with Step := r.2.1.Steps, Loss := r.2.2.1 / (steps : ℝ) })

/-- Modelled from the spec (§4.4): run `trainOneExample` `b` times from
pick-counter `ctr`, collecting the responses in order. -/
def specBatch (m : Model) (docs : List (List Char)) (picks : Nat → Nat) :
    Nat → Store → Nat → Except String (Store × List TrainResponse × Nat)
  | 0, s, ctr => Except.ok (s, [], ctr)
  | b + 1, s, ctr =>
    match trainOneExample s m docs (picks ctr) with
    | Except.error e => Except.error e
    | Except.ok r =>
      match specBatch m docs picks b r.1 (ctr + 1) with
      | Except.error e => Except.error e
      | Except.ok q => Except.ok (q.1, r.2 :: q.2.1, q.2.2)

/-- Modelled from the spec (§4.4 `trainBatchedSteps`): for each of the
iterations — zero every parameter gradient; run `trainOneExample`
`batchSize` times, letting gradients accumulate; scale every accumulated
gradient by `1/batchSize`; call `update()` — collecting the per-iteration
response lists. -/
def specRun (docs : List (List Char)) (picks : Nat → Nat) (batchSize : Nat) :
    Nat → Store → Model → Nat →
    Except String (Store × Model × List (List TrainResponse) × Nat)
  | 0, s, m, ctr => Except.ok (s, m, [], ctr)
  | k + 1, s, m, ctr =>
    let s0 := zeroGrads s m.Params
    match specBatch m docs picks batchSize s0 ctr with
    | Except.error e => Except.error e
    | Except.ok q =>
      let s1 := scaleGrads q.1 m.Params (1 / (batchSize : ℝ))
      let u := Update s1 m
      match specRun docs picks batchSize k u.1 u.2 q.2.2 with
      | Except.error e => Except.error e
      | Except.ok w => Except.ok (w.1, w.2.1, q.2.1 :: w.2.2.1, w.2.2.2)

lemma encodeDoc_two_le (doc : List Char) (chars : List String) (bos : Nat) :
    2 ≤ (encodeDoc doc chars bos).length := by
  rw [encodeDoc, encodeDoc_foldl]
  simp

lemma trainOneExample_ok (s : Store) (m : Model) (docs : List (List Char))
    (pick : Nat) (hbs : 1 ≤ m.Config.BlockSize) :
    ∃ r, trainOneExample s m docs pick = Except.ok r := by
  have hlen := encodeDoc_two_le (docs.getD pick []) m.Chars m.BOS
  have hn : ¬ (if (encodeDoc (docs.getD pick []) m.Chars m.BOS).length - 1
      > m.Config.BlockSize then m.Config.BlockSize
      else (encodeDoc (docs.getD pick []) m.Chars m.BOS).length - 1) = 0 := by
    split <;> omega
  simp only [trainOneExample, if_neg hn]
  exact ⟨_, rfl⟩

lemma getLastD_cons (x : TrainResponse) (d : TrainResponse) :
    ∀ xs : List TrainResponse, ((x :: xs).getLast?.getD d) = xs.getLast?.getD x
  | [] => rfl
  | y :: ys => by
    rw [List.getLast?_cons_cons]
    obtain ⟨a, ha⟩ : ∃ a, (y :: ys).getLast? = some a :=
      ⟨_, List.getLast?_eq_getLast_of_ne_nil (by simp)⟩
    rw [ha]
    rfl

lemma batch_correspond (m : Model) (docs : List (List Char)) (picks : Nat → Nat)
    (hbs : 1 ≤ m.Config.BlockSize) :
    ∀ (b : Nat) (s : Store) (ctr : Nat),
      ∃ s' resps,
        specBatch m docs picks b s ctr = Except.ok (s', resps, ctr + b) ∧
        resps.length = b ∧
        ∀ (bl : ℝ) (lr : TrainResponse),
          runBatch m docs picks b s ctr bl lr
            = Except.ok (s', bl + (resps.map TrainResponse.Loss).sum,
                resps.getLast?.getD lr, ctr + b) := by
  intro b
  induction b with
  | zero =>
    intro s ctr
    exact ⟨s, [], by simp [specBatch], rfl, fun bl lr => by simp [runBatch]⟩
  | succ b ih =>
    intro s ctr
    obtain ⟨r, hr⟩ := trainOneExample_ok s m docs (picks ctr) hbs
    obtain ⟨s', resps, hspec, hlen, hrun⟩ := ih r.1 (ctr + 1)
    have hctr : ctr + 1 + b = ctr + (b + 1) := by omega
    refine ⟨s', r.2 :: resps, ?_, by simp [hlen], ?_⟩
    · simp only [specBatch, hr, hspec, hctr]
    · intro bl lr
      have h := hrun (bl + r.2.Loss) r.2
      simp only [runBatch, hr]
      rw [h, hctr, getLastD_cons]
      simp only [List.map_cons, List.sum_cons]
      congr 2
      ring

lemma steps_correspond (docs : List (List Char)) (picks : Nat → Nat) (B : Nat) :
    ∀ (k : Nat) (s : Store) (m : Model) (ctr : Nat), 1 ≤ m.Config.BlockSize →
      ∃ s' m' iters,
        specRun docs picks B k s m ctr = Except.ok (s', m', iters, ctr + k * B) ∧
        iters.length = k ∧
        (∀ batch ∈ iters, batch.length = B) ∧
        m'.Steps = m.Steps + k ∧
        m'.Config = m.Config ∧
        ∀ (avgAcc : ℝ) (lr : TrainResponse),
          runSteps docs picks B k s m ctr avgAcc lr
            = Except.ok (s', m',
                avgAcc + (iters.map
                  (fun bt => (bt.map TrainResponse.Loss).sum / (B : ℝ))).sum,
                iters.foldl (fun cur bt => bt.getLast?.getD cur) lr) := by
  intro k
  induction k with
  | zero =>
    intro s m ctr hbs
    exact ⟨s, m, [], by simp [specRun], rfl, by simp, by simp, rfl,
      fun avgAcc lr => by simp [runSteps]⟩
  | succ k ih =>
    intro s m ctr hbs
    obtain ⟨s1, resps, hspecB, hlenB, hrunB⟩ :=
      batch_correspond m docs picks hbs B (zeroGrads s m.Params) ctr
    have hconfU : (Update (scaleGrads s1 m.Params (1 / (B : ℝ))) m).2.Config
        = m.Config := rfl
    have hstepsU : (Update (scaleGrads s1 m.Params (1 / (B : ℝ))) m).2.Steps
        = m.Steps + 1 := rfl
    obtain ⟨s', m', iters, hspec, hlen, hall, hsteps, hconf, hrun⟩ :=
      ih (Update (scaleGrads s1 m.Params (1 / (B : ℝ))) m).1
        (Update (scaleGrads s1 m.Params (1 / (B : ℝ))) m).2 (ctr + B)
        (by rw [hconfU]; exact hbs)
    have hctr : ctr + B + k * B = ctr + (k + 1) * B := by ring
    refine ⟨s', m', resps :: iters, ?_, by simp [hlen], ?_, ?_, ?_, ?_⟩
    · simp only [specRun, hspecB, hspec, hctr]
    · intro batch hbatch
      rcases List.mem_cons.mp hbatch with rfl | h
      · exact hlenB
      · exact hall batch h
    · rw [hsteps, hstepsU]
      omega
    · rw [hconf, hconfU]
    · intro avgAcc lr
      have hB0 := hrunB 0 lr
      have h := hrun (avgAcc + (0 + (resps.map TrainResponse.Loss).sum) / (B : ℝ))
        (resps.getLast?.getD lr)
      simp only [runSteps, hB0, h, hctr, List.foldl_cons, List.map_cons,
        List.sum_cons, Except.ok.injEq, Prod.mk.injEq]
      exact ⟨trivial, trivial, by ring, trivial⟩

lemma foldl_lastResp :
    ∀ (iters : List (List TrainResponse)) (lr : TrainResponse), iters ≠ [] →
      (∀ batch ∈ iters, batch ≠ []) →
      ∃ lastBatch lastR, iters.getLast? = some lastBatch ∧
        lastBatch.getLast? = some lastR ∧
        iters.foldl (fun cur bt => bt.getLast?.getD cur) lr = lastR := by
  intro iters
  induction iters with
  | nil => intro lr h; exact absurd rfl h
  | cons bt rest ih =>
    intro lr _ hall
    match rest with
    | [] =>
      obtain ⟨a, ha⟩ : ∃ a, bt.getLast? = some a :=
        ⟨_, List.getLast?_eq_getLast_of_ne_nil (hall bt (by simp))⟩
      refine ⟨bt, a, rfl, ha, ?_⟩
      simp [ha]
    | c :: cs =>
      obtain ⟨lastBatch, lastR, h1, h2, h3⟩ :=
        ih (bt.getLast?.getD lr) (by simp) (fun b hb => hall b (by simp [hb]))
      refine ⟨lastBatch, lastR, ?_, h2, h3⟩
      rw [List.getLast?_cons_cons]
      exact h1

/-- Claim C2 (amended): for every model with `BlockSize ≥ 1`, non-empty
document list and `stepsPerCall, batchSize ≥ 1`, `TrainBatchedSteps`
refines the spec's iteration structure (`specRun`): it performs exactly
`stepsPerCall` iterations, each zeroing the parameter gradients, running
`trainOneExample` exactly `batchSize` times with additive gradient
accumulation, scaling the gradients by `1/batchSize` and calling `Update`
once; the returned response carries the diagnostics of the last example
of the last iteration, its `Step` is the final step counter
(`m.Steps + stepsPerCall`), and its `Loss` is the per-iteration
batch-average loss averaged across all iterations.  (The `BlockSize ≥ 1`
hypothesis is the amendment: with `BlockSize = 0` the call errors out.) -/
theorem TrainBatchedSteps_spec (s : Store) (m : Model) (docs : List (List Char))
    (stepsPerCall batchSize : Nat) (picks : Nat → Nat)
    (hd : docs ≠ []) (hs : 1 ≤ stepsPerCall) (hb : 1 ≤ batchSize)
    (hbs : 1 ≤ m.Config.BlockSize) :
    ∃ s' m' iters lastBatch lastR,
      specRun docs picks batchSize stepsPerCall s m 0
        = Except.ok (s', m', iters, stepsPerCall * batchSize) ∧
      iters.length = stepsPerCall ∧
      (∀ batch ∈ iters, batch.length = batchSize) ∧
      m'.Steps = m.Steps + stepsPerCall ∧
      iters.getLast? = some lastBatch ∧ lastBatch.getLast? = some lastR ∧
      TrainBatchedSteps s m docs stepsPerCall batchSize picks
        = Except.ok (s', m', { lastR with Step := m'.Steps, Loss := (iters.map (fun bt => (bt.map TrainResponse.Loss).sum / (batchSize : ℝ))).sum / (stepsPerCall : ℝ) }) := by
  obtain ⟨s', m', iters, hspec, hlen, hall, hsteps, hconf, hrun⟩ :=
    steps_correspond docs picks batchSize stepsPerCall s m 0 hbs
  have hne : iters ≠ [] := by
    intro h
    rw [h] at hlen
    simp at hlen
    omega
  have hbne : ∀ batch ∈ iters, batch ≠ [] := by
    intro batch hbatch h
    have hl := hall batch hbatch
    rw [h] at hl
    simp at hl
    omega
  obtain ⟨lastBatch, lastR, hlb, hlr, hfold⟩ := foldl_lastResp iters default hne hbne
  have hif1 : (if stepsPerCall < 1 then 1 else stepsPerCall) = stepsPerCall :=
    if_neg (by omega)
  have hif2 : (if batchSize < 1 then 1 else batchSize) = batchSize :=
    if_neg (by omega)
  have h := hrun 0 default
  refine ⟨s', m', iters, lastBatch, lastR, by simpa using hspec, hlen, hall,
    hsteps, hlb, hlr, ?_⟩
  simp only [TrainBatchedSteps, hif1, hif2, h, hfold, zero_add]

/-- A `BlockSize = 0` model for exercising the empty-training-sequence
error path. -/
def cexModel : Model :=
  Model.mk ⟨0, 0, 0, 0, 1⟩ 1 [] 0 [] (fun _ => []) [] [] 0

/-- Claim C2 counterexample: with a model whose `BlockSize` is 0, a
non-empty document list and `stepsPerCall = batchSize = 1`,
`TrainBatchedSteps` returns the error `"training sequence is empty"`
instead of performing an iteration and returning a response, refuting the
unconditional claim. -/
theorem TrainBatchedSteps_cex :
    cexModel.Config.BlockSize = 0 ∧
    ([[('a' : Char)]] : List (List Char)) ≠ [] ∧
    TrainBatchedSteps [] cexModel [[('a' : Char)]] 1 1 (fun _ => 0)
      = Except.error "training sequence is empty" ∧
    ∀ out, TrainBatchedSteps [] cexModel [[('a' : Char)]] 1 1 (fun _ => 0)
      ≠ Except.ok out := by
  refine ⟨rfl, by simp, rfl, ?_⟩
  intro out h
  rw [show TrainBatchedSteps [] cexModel [[('a' : Char)]] 1 1 (fun _ => 0)
      = Except.error "training sequence is empty" from rfl] at h
  exact Except.noConfusion h

/-- Concrete instantiation of the batched-training theorem: one step, one
example, a `BlockSize = 1` model with an empty vocabulary and one
one-character document. -/
theorem TrainBatchedSteps_spec_witness :
    (([[('a' : Char)]] : List (List Char)) ≠ [] ∧ 1 ≤ 1 ∧
      1 ≤ (Model.mk ⟨0, 0, 0, 1, 1⟩ 1 [] 0 [] (fun _ => []) [] [] 0).Config.BlockSize) ∧
    ∃ s' m' iters lastBatch lastR,
      specRun [[('a' : Char)]] (fun _ => 0) 1 1 []
          (Model.mk ⟨0, 0, 0, 1, 1⟩ 1 [] 0 [] (fun _ => []) [] [] 0) 0
        = Except.ok (s', m', iters, 1 * 1) ∧
      iters.length = 1 ∧
      (∀ batch ∈ iters, batch.length = 1) ∧
      m'.Steps = (Model.mk ⟨0, 0, 0, 1, 1⟩ 1 [] 0 [] (fun _ => []) [] [] 0).Steps + 1 ∧
      iters.getLast? = some lastBatch ∧ lastBatch.getLast? = some lastR ∧
      TrainBatchedSteps [] (Model.mk ⟨0, 0, 0, 1, 1⟩ 1 [] 0 [] (fun _ => []) [] [] 0)
          [[('a' : Char)]] 1 1 (fun _ => 0)
        = Except.ok (s', m', { lastR with Step := m'.Steps, Loss := (iters.map (fun bt => (bt.map TrainResponse.Loss).sum / ((1 : Nat) : ℝ))).sum / ((1 : Nat) : ℝ) }) :=
  ⟨⟨by simp, le_refl 1, le_refl 1⟩,
    TrainBatchedSteps_spec [] (Model.mk ⟨0, 0, 0, 1, 1⟩ 1 [] 0 [] (fun _ => []) [] [] 0)
      [[('a' : Char)]] 1 1 (fun _ => 0) (by simp) (le_refl 1) (le_refl 1) (le_refl 1)⟩

/-- The `(child, localGrad)` pairs of node `p`, exactly the pairs the
`Backward` sweep iterates over. -/
def edgesOf (s : Store) (p : Nat) : List (Nat × ℝ) :=
  (nthVal s p).Children.zip (nthVal s p).LocalGrads

/-- Well-formed autodiff store: each node's `LocalGrads` matches its
`Children` in length (true of every constructor) and every child was
allocated strictly earlier than its parent — the spec's "every node is
created strictly after its parents" DAG invariant. -/
def WFStore (s : Store) : Prop :=
  ∀ p : Nat, (nthVal s p).LocalGrads.length = (nthVal s p).Children.length ∧
    ∀ e ∈ edgesOf s p, e.1 < p

lemma edgesOf_fst (s : Store) (hwf : WFStore s) (p : Nat) :
    (edgesOf s p).map Prod.fst = (nthVal s p).Children := by
  exact List.map_fst_zip _ _ (le_of_eq (hwf p).1.symm)

lemma child_mem_iff_edge (s : Store) (hwf : WFStore s) (p c : Nat) :
    c ∈ (nthVal s p).Children ↔ ∃ e ∈ edgesOf s p, e.1 = c := by
  rw [← edgesOf_fst s hwf p, List.mem_map]

lemma child_lt (s : Store) (hwf : WFStore s) {p c : Nat}
    (hc : c ∈ (nthVal s p).Children) : c < p := by
  obtain ⟨e, he, rfl⟩ := (child_mem_iff_edge s hwf p c).mp hc
  exact (hwf p).2 e he

lemma edgesOf_zero (s : Store) (hwf : WFStore s) : edgesOf s 0 = [] :=
  List.eq_nil_iff_forall_not_mem.mpr
    (fun e he => Nat.not_lt_zero e.1 ((hwf 0).2 e he))

/-- Fuel-indexed forward derivative of node `j` with respect to node `t`
(every node treated as a function of node `t`'s `Data`). -/
def nodeDerivF (s : Store) (t : Nat) : Nat → Nat → ℝ
  | 0, j => if j = t then 1 else 0
  | fuel + 1, j =>
    if j = t then 1
    else ((edgesOf s j).map (fun e => e.2 * nodeDerivF s t fuel e.1)).sum

/-- Partial derivative of node `j`'s value with respect to node `t`'s
value over the DAG structure recorded in the store. -/
def nodeDeriv (s : Store) (t j : Nat) : ℝ := nodeDerivF s t j j

lemma nodeDerivF_congr (s : Store) (hwf : WFStore s) (t : Nat) :
    ∀ fuel fuel' j, j ≤ fuel → j ≤ fuel' →
      nodeDerivF s t fuel j = nodeDerivF s t fuel' j := by
  intro fuel
  induction fuel with
  | zero =>
    intro fuel' j hf hf'
    have hj : j = 0 := by omega
    subst hj
    cases fuel' with
    | zero => rfl
    | succ f' => simp [nodeDerivF, edgesOf_zero s hwf]
  | succ f ih =>
    intro fuel' j hf hf'
    cases fuel' with
    | zero =>
      have hj : j = 0 := by omega
      subst hj
      simp [nodeDerivF, edgesOf_zero s hwf]
    | succ f' =>
      simp only [nodeDerivF]
      by_cases hjt : j = t
      · simp [hjt]
      · rw [if_neg hjt, if_neg hjt]
        congr 1
        refine List.map_congr_left (fun e he => ?_)
        have h1 : e.1 < j := (hwf j).2 e he
        rw [ih f' e.1 (by omega) (by omega)]

lemma nodeDeriv_eq (s : Store) (hwf : WFStore s) (t j : Nat) :
    nodeDeriv s t j
      = if j = t then 1
        else ((edgesOf s j).map (fun e => e.2 * nodeDeriv s t e.1)).sum := by
  cases j with
  | zero =>
    show (if 0 = t then (1 : ℝ) else 0) = _
    simp [edgesOf_zero s hwf]
  | succ f =>
    show nodeDerivF s t (f + 1) (f + 1) = _
    simp only [nodeDerivF]
    by_cases hjt : f + 1 = t
    · simp [hjt]
    · rw [if_neg hjt, if_neg hjt]
      congr 1
      refine List.map_congr_left (fun e he => ?_)
      have h1 : e.1 < f + 1 := (hwf (f + 1)).2 e he
      rw [nodeDeriv, nodeDerivF_congr s hwf t f e.1 e.1 (by omega) (le_refl _)]

/-- Fuel-indexed set of nodes reachable from `j` through child edges. -/
def reachF (s : Store) : Nat → Nat → Finset Nat
  | 0, j => {j}
  | fuel + 1, j =>
    insert j ((edgesOf s j).foldr (fun e acc => reachF s fuel e.1 ∪ acc) ∅)

/-- The set of nodes reachable from `j` through child edges (the set the
depth-first traversal of `Backward` visits starting at `j`). -/
def reachSet (s : Store) (j : Nat) : Finset Nat := reachF s j j

lemma mem_foldr_union {α : Type} (g : α → Finset Nat) (x : Nat) :
    ∀ l : List α,
      (x ∈ l.foldr (fun e acc => g e ∪ acc) ∅) ↔ ∃ e ∈ l, x ∈ g e := by
  intro l
  induction l with
  | nil => simp
  | cons e l ih => simp [ih]

lemma foldr_union_congr {α : Type} (g h : α → Finset Nat) :
    ∀ l : List α, (∀ e ∈ l, g e = h e) →
      l.foldr (fun e acc => g e ∪ acc) ∅ = l.foldr (fun e acc => h e ∪ acc) ∅ := by
  intro l
  induction l with
  | nil => intro _; rfl
  | cons e l ih =>
    intro hgh
    simp only [List.foldr_cons]
    rw [hgh e (by simp), ih (fun x hx => hgh x (by simp [hx]))]

lemma mem_reachF_succ (s : Store) (f j x : Nat) :
    x ∈ reachF s (f + 1) j ↔ x = j ∨ ∃ e ∈ edgesOf s j, x ∈ reachF s f e.1 := by
  simp [reachF, mem_foldr_union]

lemma reachF_congr (s : Store) (hwf : WFStore s) :
    ∀ fuel fuel' j, j ≤ fuel → j ≤ fuel' →
      reachF s fuel j = reachF s fuel' j := by
  intro fuel
  induction fuel with
  | zero =>
    intro fuel' j hf hf'
    have hj : j = 0 := by omega
    subst hj
    cases fuel' with
    | zero => rfl
    | succ f' => simp [reachF, edgesOf_zero s hwf]
  | succ f ih =>
    intro fuel' j hf hf'
    cases fuel' with
    | zero =>
      have hj : j = 0 := by omega
      subst hj
      simp [reachF, edgesOf_zero s hwf]
    | succ f' =>
      simp only [reachF]
      congr 1
      refine foldr_union_congr _ _ _ (fun e he => ?_)
      have h1 : e.1 < j := (hwf j).2 e he
      exact ih f' e.1 (by omega) (by omega)

lemma self_mem_reachSet (s : Store) (j : Nat) : j ∈ reachSet s j := by
  rw [reachSet]
  cases j with
  | zero => simp [reachF]
  | succ f => simp [reachF]

lemma reachF_le (s : Store) (hwf : WFStore s) :
    ∀ fuel j x, x ∈ reachF s fuel j → x ≤ j := by
  intro fuel
  induction fuel with
  | zero =>
    intro j x hx
    simp only [reachF, Finset.mem_singleton] at hx
    omega
  | succ f ih =>
    intro j x hx
    rcases (mem_reachF_succ s f j x).mp hx with rfl | ⟨e, he, hx⟩
    · exact le_refl _
    · have h1 : e.1 < j := (hwf j).2 e he
      have := ih e.1 x hx
      omega

lemma reachSet_le (s : Store) (hwf : WFStore s) {j x : Nat}
    (hx : x ∈ reachSet s j) : x ≤ j :=
  reachF_le s hwf j j x hx

lemma reachSet_closure (s : Store) (hwf : WFStore s) {j : Nat} {e : Nat × ℝ}
    (he : e ∈ edgesOf s j) : reachSet s e.1 ⊆ reachSet s j := by
  have h1 : e.1 < j := (hwf j).2 e he
  obtain ⟨k, rfl⟩ : ∃ k, j = k + 1 := ⟨j - 1, by omega⟩
  intro x hx
  rw [reachSet, reachF_congr s hwf e.1 k e.1 (le_refl _) (by omega)] at hx
  exact (mem_reachF_succ s k (k + 1) x).mpr (Or.inr ⟨e, he, hx⟩)

lemma nodeDeriv_not_reach (s : Store) (hwf : WFStore s) (t : Nat) :
    ∀ j, t ∉ reachSet s j → nodeDeriv s t j = 0 := by
  intro j
  induction j using Nat.strong_induction_on with
  | _ j ih =>
    intro ht
    rw [nodeDeriv_eq s hwf]
    have hjt : j ≠ t := by
      intro h
      exact ht (h ▸ self_mem_reachSet s j)
    rw [if_neg hjt]
    refine List.sum_eq_zero (fun x hx => ?_)
    obtain ⟨e, he, rfl⟩ := List.mem_map.mp hx
    have h1 : e.1 < j := (hwf j).2 e he
    have ht1 : t ∉ reachSet s e.1 := fun h => ht (reachSet_closure s hwf he h)
    rw [ih e.1 h1 ht1, mul_zero]

/-- The total local-gradient weight of the edges from `p` into `t` (zero
when `t` is not a child of `p`; duplicated children accumulate). -/
def edgeWeight (s : Store) (p t : Nat) : ℝ :=
  ((edgesOf s p).map (fun e => if e.1 = t then e.2 else 0)).sum

lemma edgeWeight_eq_zero (s : Store) {p t : Nat}
    (h : ∀ e ∈ edgesOf s p, e.1 ≠ t) : edgeWeight s p t = 0 := by
  refine List.sum_eq_zero (fun x hx => ?_)
  obtain ⟨e, he, rfl⟩ := List.mem_map.mp hx
  rw [if_neg (h e he)]

lemma edgeWeight_lt (s : Store) (hwf : WFStore s) {p t : Nat}
    (h : edgeWeight s p t ≠ 0) : t < p := by
  by_contra hlt
  refine h (edgeWeight_eq_zero s (fun e he h1 => hlt ?_))
  have := (hwf p).2 e he
  omega

lemma list_sum_map_add {α : Type} (l : List α) (f g : α → ℝ) :
    (l.map (fun e => f e + g e)).sum = (l.map f).sum + (l.map g).sum := by
  induction l with
  | nil => simp
  | cons e l ih =>
    simp only [List.map_cons, List.sum_cons, ih]
    ring

lemma list_sum_map_mul_c {α : Type} (l : List α) (c : ℝ) (f : α → ℝ) :
    (l.map (fun e => c * f e)).sum = c * (l.map f).sum := by
  induction l with
  | nil => simp
  | cons e l ih =>
    simp only [List.map_cons, List.sum_cons, ih]
    ring

lemma list_finset_sum_comm {α β : Type} (S : Finset β) (F : α → β → ℝ) :
    ∀ l : List α,
      (l.map (fun e => ∑ q ∈ S, F e q)).sum
        = ∑ q ∈ S, (l.map (fun e => F e q)).sum := by
  intro l
  induction l with
  | nil => simp
  | cons e l ih => simp [ih, Finset.sum_add_distrib]

/-- Chain-rule decomposition of the forward derivative by the last edge of
each path: the derivative of node `j` with respect to `t` is the Kronecker
delta plus, over every reachable node `q`, the weight of the direct edges
`q → t` times the derivative of `j` with respect to `q`. -/
lemma nodeDeriv_star (s : Store) (hwf : WFStore s) (t : Nat) :
    ∀ j, nodeDeriv s t j
      = (if j = t then 1 else 0)
        + ∑ q ∈ reachSet s j, edgeWeight s q t * nodeDeriv s q j := by
  intro j
  induction j using Nat.strong_induction_on with
  | _ j ih =>
    by_cases hjt : j = t
    · subst hjt
      have hz : ∑ q ∈ reachSet s j, edgeWeight s q j * nodeDeriv s q j = 0 := by
        refine Finset.sum_eq_zero (fun q hq => ?_)
        have hle : q ≤ j := reachSet_le s hwf hq
        have hw : edgeWeight s q j = 0 := by
          refine edgeWeight_eq_zero s (fun e he h1 => ?_)
          have h2 := (hwf q).2 e he
          omega
        rw [hw, zero_mul]
      rw [nodeDeriv_eq s hwf, if_pos rfl, if_pos rfl, hz, add_zero]
    · have hLHS : nodeDeriv s t j
          = ((edgesOf s j).map (fun e => e.2 * nodeDeriv s t e.1)).sum := by
        rw [nodeDeriv_eq s hwf, if_neg hjt]
      have hstep : ∀ e ∈ edgesOf s j,
          e.2 * nodeDeriv s t e.1
            = (if e.1 = t then e.2 else 0)
              + ∑ q ∈ reachSet s j,
                  e.2 * (edgeWeight s q t * nodeDeriv s q e.1) := by
        intro e he
        have h1 : e.1 < j := (hwf j).2 e he
        rw [ih e.1 h1, mul_add]
        congr 1
        · by_cases h : e.1 = t <;> simp [h]
        · rw [Finset.mul_sum]
          refine Finset.sum_subset (reachSet_closure s hwf he) (fun q hq hq1 => ?_)
          rw [nodeDeriv_not_reach s hwf q e.1 hq1, mul_zero, mul_zero]
      have hself : ∀ e ∈ edgesOf s j, nodeDeriv s j e.1 = 0 := by
        intro e he
        refine nodeDeriv_not_reach s hwf j e.1 (fun h => ?_)
        have h2 := reachSet_le s hwf h
        have h3 := (hwf j).2 e he
        omega
      have hterm : ∀ q ∈ reachSet s j,
          edgeWeight s q t * nodeDeriv s q j
            = edgeWeight s q t
                * ((edgesOf s j).map (fun e => e.2 * nodeDeriv s q e.1)).sum
              + (if q = j then edgeWeight s j t else 0) := by
        intro q _
        by_cases hqj : q = j
        · subst hqj
          have hz2 : ((edgesOf s q).map (fun e => e.2 * nodeDeriv s q e.1)).sum
              = 0 := by
            refine List.sum_eq_zero (fun x hx => ?_)
            obtain ⟨e, he, rfl⟩ := List.mem_map.mp hx
            rw [hself e he, mul_zero]
          rw [nodeDeriv_eq s hwf q q, if_pos rfl, if_pos rfl, hz2, mul_zero,
            mul_one, zero_add]
        · rw [nodeDeriv_eq s hwf q j, if_neg (fun h => hqj h.symm), if_neg hqj,
            add_zero]
      have hswap : ∀ q ∈ reachSet s j,
          ((edgesOf s j).map
            (fun e => e.2 * (edgeWeight s q t * nodeDeriv s q e.1))).sum
            = edgeWeight s q t
                * ((edgesOf s j).map (fun e => e.2 * nodeDeriv s q e.1)).sum := by
        intro q _
        rw [show (edgesOf s j).map
              (fun e => e.2 * (edgeWeight s q t * nodeDeriv s q e.1))
              = (edgesOf s j).map
                (fun e => edgeWeight s q t * (e.2 * nodeDeriv s q e.1))
            from List.map_congr_left (fun e _ => by ring), list_sum_map_mul_c]
      have hRHS : ∑ q ∈ reachSet s j, edgeWeight s q t * nodeDeriv s q j
          = (∑ q ∈ reachSet s j,
              edgeWeight s q t
                * ((edgesOf s j).map (fun e => e.2 * nodeDeriv s q e.1)).sum)
            + edgeWeight s j t := by
        rw [Finset.sum_congr rfl hterm, Finset.sum_add_distrib, Finset.sum_ite_eq',
          if_pos (self_mem_reachSet s j)]
      rw [hLHS, if_neg hjt, zero_add, hRHS]
      rw [show (edgesOf s j).map (fun e => e.2 * nodeDeriv s t e.1)
            = (edgesOf s j).map (fun e =>
                (if e.1 = t then e.2 else 0)
                + ∑ q ∈ reachSet s j,
                    e.2 * (edgeWeight s q t * nodeDeriv s q e.1))
          from List.map_congr_left hstep]
      rw [list_sum_map_add, list_finset_sum_comm, Finset.sum_congr rfl hswap]
      exact add_comm _ _

/-- Two stores with identical shape and data, differing at most in the
`Grad` fields — the only thing the backward sweep mutates. -/
def gradOnly (st s : Store) : Prop :=
  st.length = s.length ∧ ∀ i,
    (nthVal st i).Data = (nthVal s i).Data ∧
    (nthVal st i).Children = (nthVal s i).Children ∧
    (nthVal st i).LocalGrads = (nthVal s i).LocalGrads

lemma gradOnly_refl (s : Store) : gradOnly s s :=
  ⟨rfl, fun _ => ⟨rfl, rfl, rfl⟩⟩

lemma gradOnly_modifyAt (st s : Store) (h : gradOnly st s) (i : Nat)
    (w : Value → ℝ) :
    gradOnly (modifyAt st i (fun v => { v with Grad := w v })) s := by
  refine ⟨by rw [length_modifyAt]; exact h.1, fun k => ?_⟩
  by_cases hk : i = k
  · subst hk
    by_cases hi : i < st.length
    · rw [nthVal_modifyAt_self st i _ hi]
      exact h.2 i
    · rw [modifyAt, List.set_eq_of_length_le (by omega)]
      exact h.2 i
  · rw [nthVal_modifyAt_ne st i k _ hk]
    exact h.2 k

lemma edgesOf_gradOnly (st s : Store) (h : gradOnly st s) (p : Nat) :
    edgesOf st p = edgesOf s p := by
  rw [edgesOf, edgesOf, (h.2 p).2.1, (h.2 p).2.2]

lemma backStep_inner (s : Store) (i : Nat) :
    ∀ (E : List (Nat × ℝ)) (st : Store), gradOnly st s → (∀ e ∈ E, e.1 ≠ i) →
      (∀ e ∈ E, e.1 < s.length) →
      gradOnly (E.foldl (fun st2 p => modifyAt st2 p.1
        (fun v => { v with Grad := v.Grad + p.2 * (nthVal st2 i).Grad })) st) s ∧
      ∀ t, (nthVal (E.foldl (fun st2 p => modifyAt st2 p.1
          (fun v => { v with Grad := v.Grad + p.2 * (nthVal st2 i).Grad })) st) t).Grad
        = (nthVal st t).Grad
          + (E.map (fun e => if e.1 = t then e.2 else 0)).sum * (nthVal st i).Grad := by
  intro E
  induction E with
  | nil =>
    intro st hgo _ _
    exact ⟨hgo, fun t => by simp⟩
  | cons e E ih =>
    intro st hgo hne hlt
    have hgo1 : gradOnly (modifyAt st e.1
        (fun v => { v with Grad := v.Grad + e.2 * (nthVal st i).Grad })) s :=
      gradOnly_modifyAt st s hgo e.1 _
    obtain ⟨hgo2, heq⟩ := ih _ hgo1 (fun x hx => hne x (by simp [hx]))
      (fun x hx => hlt x (by simp [hx]))
    refine ⟨hgo2, fun t => ?_⟩
    rw [List.foldl_cons, heq t]
    have hgi : (nthVal (modifyAt st e.1
        (fun v => { v with Grad := v.Grad + e.2 * (nthVal st i).Grad })) i).Grad
        = (nthVal st i).Grad := by
      rw [nthVal_modifyAt_ne st e.1 i _ (hne e (by simp))]
    rw [hgi]
    by_cases ht : e.1 = t
    · subst ht
      have hlen : e.1 < st.length := by rw [hgo.1]; exact hlt e (by simp)
      rw [nthVal_modifyAt_self st e.1 _ hlen]
      simp only [List.map_cons, List.sum_cons, eq_self_iff_true, if_true]
      ring
    · rw [nthVal_modifyAt_ne st e.1 t _ ht]
      simp only [List.map_cons, List.sum_cons, if_neg ht]
      ring

lemma backStep_spec (s : Store) (hwf : WFStore s) (p : Nat) (st : Store)
    (hgo : gradOnly st s) :
    gradOnly (backStep st p) s ∧
    ∀ t, (nthVal (backStep st p) t).Grad
      = (nthVal st t).Grad + edgeWeight s p t * (nthVal st p).Grad := by
  have hE : (nthVal st p).Children.zip (nthVal st p).LocalGrads = edgesOf s p := by
    rw [(hgo.2 p).2.1, (hgo.2 p).2.2]; rfl
  by_cases hp : p < s.length
  · have hne : ∀ e ∈ edgesOf s p, e.1 ≠ p :=
      fun e he h => absurd ((hwf p).2 e he) (by omega)
    have hlt : ∀ e ∈ edgesOf s p, e.1 < s.length :=
      fun e he => lt_trans ((hwf p).2 e he) hp
    obtain ⟨hgo2, heq⟩ := backStep_inner s p (edgesOf s p) st hgo hne hlt
    rw [backStep, hE]
    exact ⟨hgo2, fun t => by rw [heq t]; rfl⟩
  · have hdef : edgesOf s p = [] := by
      refine List.eq_nil_iff_forall_not_mem.mpr (fun e he => ?_)
      have : (nthVal s p) = default := by
        rw [nthVal, List.getD_eq_default _ _ (by omega)]
      rw [edgesOf, this] at he
      simp [default] at he
    rw [backStep, hE, hdef]
    refine ⟨hgo, fun t => ?_⟩
    rw [show edgeWeight s p t = 0 by rw [edgeWeight, hdef]; rfl]
    simp

/-- Every node's children occur strictly later in the list — true of the
reversed topological order the backward sweep iterates over. -/
def ChildrenAfter (s : Store) : List Nat → Prop
  | [] => True
  | k :: rest => (∀ e ∈ edgesOf s k, e.1 ∈ rest) ∧ ChildrenAfter s rest

lemma ChildrenAfter_closed (s : Store) :
    ∀ L : List Nat, ChildrenAfter s L → ∀ q ∈ L, ∀ e ∈ edgesOf s q, e.1 ∈ L := by
  intro L
  induction L with
  | nil => intro _ q hq; exact absurd hq (List.not_mem_nil q)
  | cons k rest ih =>
    intro hca q hq e he
    rcases List.mem_cons.mp hq with rfl | hq1
    · exact List.mem_cons.mpr (Or.inr (hca.1 e he))
    · exact List.mem_cons.mpr (Or.inr (ih hca.2 q hq1 e he))

/-- Master invariant of the reverse sweep: folding `backStep` over a
duplicate-free, children-after list leaves every node's gradient equal to
its incoming gradient plus the local-gradient-weighted final gradients of
all processed nodes. -/
lemma sweep (s : Store) (hwf : WFStore s) :
    ∀ (L : List Nat) (st : Store), gradOnly st s → L.Nodup →
      ChildrenAfter s L →
      gradOnly (L.foldl backStep st) s ∧
      ∀ t, (nthVal (L.foldl backStep st) t).Grad
        = (nthVal st t).Grad
          + (L.map (fun p =>
              edgeWeight s p t * (nthVal (L.foldl backStep st) p).Grad)).sum := by
  intro L
  induction L with
  | nil =>
    intro st hgo _ _
    exact ⟨hgo, fun t => by simp⟩
  | cons p L ih =>
    intro st hgo hnd hca
    obtain ⟨hgo1, hstep⟩ := backStep_spec s hwf p st hgo
    obtain ⟨hgo2, heq⟩ := ih (backStep st p) hgo1 (List.nodup_cons.mp hnd).2 hca.2
    have hwp : edgeWeight s p p = 0 :=
      edgeWeight_eq_zero s (fun e he h => absurd ((hwf p).2 e he) (by omega))
    have hpL : p ∉ L := (List.nodup_cons.mp hnd).1
    have hfinal_p : (nthVal (L.foldl backStep (backStep st p)) p).Grad
        = (nthVal st p).Grad := by
      rw [heq p, hstep p, hwp, zero_mul, add_zero]
      have hz : (L.map (fun q =>
          edgeWeight s q p
            * (nthVal (L.foldl backStep (backStep st p)) q).Grad)).sum = 0 := by
        refine List.sum_eq_zero (fun x hx => ?_)
        obtain ⟨q, hq, rfl⟩ := List.mem_map.mp hx
        have hqp : edgeWeight s q p = 0 := by
          refine edgeWeight_eq_zero s (fun e he h => ?_)
          have hmem : e.1 ∈ L := ChildrenAfter_closed s L hca.2 q hq e he
          rw [h] at hmem
          exact hpL hmem
        rw [hqp, zero_mul]
      rw [hz, add_zero]
    refine ⟨hgo2, fun t => ?_⟩
    rw [List.foldl_cons, heq t, hstep t]
    simp only [List.map_cons, List.sum_cons, List.foldl_cons]
    rw [hfinal_p]
    ring

/-- Master invariant of the depth-first traversal: `buildTopo` extends the
topological order by a duplicate-free block `Δ` of newly visited nodes, all
reachable from the start node; the start node ends up in the order; the
visited list tracks the order exactly; and the children-before-parents
property of the order is preserved. -/
lemma buildTopo_master (s : Store) (hwf : WFStore s) :
    ∀ i : Nat, ∀ visited topo : List Nat,
      topo.Nodup → (∀ x ∈ topo, x ∈ visited) →
      (∀ x ∈ visited, x ∈ topo ∨ i ≤ x) →
      ChildrenAfter s topo.reverse →
      ∃ Δ, (buildTopo s i visited topo).2 = topo ++ Δ ∧
        (∀ x, x ∈ (buildTopo s i visited topo).1 ↔ x ∈ visited ∨ x ∈ Δ) ∧
        (∀ x ∈ Δ, x ∉ visited) ∧ Δ.Nodup ∧
        (∀ x ∈ Δ, x ∈ reachSet s i) ∧
        (i ∈ visited → buildTopo s i visited topo = (visited, topo)) ∧
        (i ∉ visited → i ∈ Δ) ∧
        ChildrenAfter s (buildTopo s i visited topo).2.reverse := by
  intro i
  induction i using Nat.strong_induction_on with
  | _ i ih =>
    have hlist : ∀ cs visited topo,
        topo.Nodup → (∀ x ∈ topo, x ∈ visited) →
        (∀ x ∈ visited, x ∈ topo ∨ i ≤ x) →
        ChildrenAfter s topo.reverse →
        ∃ Δ, (buildTopoList s i cs visited topo).2 = topo ++ Δ ∧
          (∀ x, x ∈ (buildTopoList s i cs visited topo).1 ↔ x ∈ visited ∨ x ∈ Δ) ∧
          (∀ x ∈ Δ, x ∉ visited) ∧ Δ.Nodup ∧
          (∀ x ∈ Δ, ∃ c ∈ cs, c < i ∧ x ∈ reachSet s c) ∧
          (∀ c ∈ cs, c < i → c ∈ (buildTopoList s i cs visited topo).2) ∧
          ChildrenAfter s (buildTopoList s i cs visited topo).2.reverse := by
      intro cs
      induction cs with
      | nil =>
        intro visited topo h1 h2 h3 h4
        refine ⟨[], by simp [buildTopoList], fun x => by simp [buildTopoList],
          by simp, List.nodup_nil, by simp, ?_, ?_⟩
        · intro c hc
          exact absurd hc (List.not_mem_nil c)
        · rw [show (buildTopoList s i [] visited topo).2 = topo by
            simp [buildTopoList]]
          exact h4
      | cons c cs ihc =>
        intro visited topo h1 h2 h3 h4
        by_cases hc : c < i
        · have hunf : buildTopoList s i (c :: cs) visited topo
              = buildTopoList s i cs (buildTopo s c visited topo).1
                  (buildTopo s c visited topo).2 := by
            simp [buildTopoList, dif_pos hc]
          obtain ⟨Δ1, hT1, hV1, hdisj1, hnd1, hreach1, hunch1, hnew1, hca1⟩ :=
            ih c hc visited topo h1 h2
              (fun x hx => (h3 x hx).imp id (fun h => by omega)) h4
          have h1b : (buildTopo s c visited topo).2.Nodup := by
            rw [hT1]
            refine List.Nodup.append h1 hnd1 (List.disjoint_left.mpr ?_)
            exact fun a ha haD => hdisj1 a haD (h2 a ha)
          have h2b : ∀ x ∈ (buildTopo s c visited topo).2,
              x ∈ (buildTopo s c visited topo).1 := by
            intro x hx
            rw [hT1] at hx
            rcases List.mem_append.mp hx with hx | hx
            · exact (hV1 x).mpr (Or.inl (h2 x hx))
            · exact (hV1 x).mpr (Or.inr hx)
          have h3b : ∀ x ∈ (buildTopo s c visited topo).1,
              x ∈ (buildTopo s c visited topo).2 ∨ i ≤ x := by
            intro x hx
            rcases (hV1 x).mp hx with hx | hx
            · rcases h3 x hx with hx1 | hx1
              · exact Or.inl (by rw [hT1]; exact List.mem_append.mpr (Or.inl hx1))
              · exact Or.inr hx1
            · exact Or.inl (by rw [hT1]; exact List.mem_append.mpr (Or.inr hx))
          obtain ⟨Δ2, hT2, hV2, hdisj2, hnd2, hreach2, hchil2, hca2⟩ :=
            ihc (buildTopo s c visited topo).1 (buildTopo s c visited topo).2
              h1b h2b h3b hca1
          refine ⟨Δ1 ++ Δ2, ?_, ?_, ?_, ?_, ?_, ?_, ?_⟩
          · rw [hunf, hT2, hT1, List.append_assoc]
          · intro x
            rw [hunf]
            rw [hV2 x, hV1 x, List.mem_append]
            tauto
          · intro x hx
            rcases List.mem_append.mp hx with hx | hx
            · exact hdisj1 x hx
            · exact fun hv => hdisj2 x hx ((hV1 x).mpr (Or.inl hv))
          · refine List.Nodup.append hnd1 hnd2 (List.disjoint_left.mpr ?_)
            exact fun a ha haD => hdisj2 a haD ((hV1 a).mpr (Or.inr ha))
          · intro x hx
            rcases List.mem_append.mp hx with hx | hx
            · exact ⟨c, by simp, hc, hreach1 x hx⟩
            · obtain ⟨d, hd, hdi, hxr⟩ := hreach2 x hx
              exact ⟨d, by simp [hd], hdi, hxr⟩
          · intro d hd hdi
            rcases List.mem_cons.mp hd with heq | hd1
            · rw [heq]
              have hdT1 : c ∈ (buildTopo s c visited topo).2 := by
                by_cases hdv : c ∈ visited
                · rw [hunch1 hdv]
                  rcases h3 c hdv with h | h
                  · exact h
                  · exact absurd hc (by omega)
                · rw [hT1]
                  exact List.mem_append.mpr (Or.inr (hnew1 hdv))
              rw [hunf, hT2]
              exact List.mem_append.mpr (Or.inl hdT1)
            · rw [hunf]
              exact hchil2 d hd1 hdi
          · rw [hunf]
            exact hca2
        · have hunf : buildTopoList s i (c :: cs) visited topo
              = buildTopoList s i cs visited topo := by
            simp [buildTopoList, dif_neg hc]
          obtain ⟨Δ, hT, hV, hdisj, hnd, hreach, hchil, hca⟩ :=
            ihc visited topo h1 h2 h3 h4
          refine ⟨Δ, by rw [hunf]; exact hT, fun x => by rw [hunf]; exact hV x,
            hdisj, hnd, ?_, ?_, by rw [hunf]; exact hca⟩
          · intro x hx
            obtain ⟨d, hd, hdi, hxr⟩ := hreach x hx
            exact ⟨d, by simp [hd], hdi, hxr⟩
          · intro d hd hdi
            rcases List.mem_cons.mp hd with rfl | hd1
            · exact absurd hdi hc
            · rw [hunf]
              exact hchil d hd1 hdi
    intro visited topo h1 h2 h3 h4
    by_cases hiv : i ∈ visited
    · have hunf : buildTopo s i visited topo = (visited, topo) := by
        simp [buildTopo, if_pos hiv]
      refine ⟨[], by simp [hunf], fun x => by simp [hunf], by simp,
        List.nodup_nil, by simp, fun _ => hunf, fun h => absurd hiv h, ?_⟩
      rw [show (buildTopo s i visited topo).2 = topo by rw [hunf]]
      exact h4
    · have hunf1 : (buildTopo s i visited topo).2
          = (buildTopoList s i (nthVal s i).Children (i :: visited) topo).2 ++ [i] := by
        simp [buildTopo, if_neg hiv]
      have hunf2 : (buildTopo s i visited topo).1
          = (buildTopoList s i (nthVal s i).Children (i :: visited) topo).1 := by
        simp [buildTopo, if_neg hiv]
      obtain ⟨Δ1, hT1, hV1, hdisj1, hnd1, hreach1, hchil1, hca1⟩ :=
        hlist (nthVal s i).Children (i :: visited) topo h1
          (fun x hx => List.mem_cons.mpr (Or.inr (h2 x hx)))
          (fun x hx => by
            rcases List.mem_cons.mp hx with rfl | hx1
            · exact Or.inr (le_refl _)
            · exact h3 x hx1)
          h4
      refine ⟨Δ1 ++ [i], ?_, ?_, ?_, ?_, ?_, fun h => absurd h hiv, ?_, ?_⟩
      · rw [hunf1, hT1, List.append_assoc]
      · intro x
        rw [hunf2, hV1 x]
        simp only [List.mem_cons, List.mem_append, List.mem_singleton]
        tauto
      · intro x hx
        rcases List.mem_append.mp hx with hx | hx
        · exact fun hv => hdisj1 x hx (List.mem_cons.mpr (Or.inr hv))
        · rw [List.mem_singleton.mp hx]
          exact hiv
      · refine List.Nodup.append hnd1 (List.nodup_singleton i)
          (List.disjoint_left.mpr ?_)
        intro a ha hai
        rw [List.mem_singleton.mp hai] at ha
        exact hdisj1 i ha (List.mem_cons.mpr (Or.inl rfl))
      · intro x hx
        rcases List.mem_append.mp hx with hx | hx
        · obtain ⟨d, hd, hdi, hxr⟩ := hreach1 x hx
          obtain ⟨e, he, hed⟩ := (child_mem_iff_edge s hwf i d).mp hd
          refine reachSet_closure s hwf he ?_
          rw [hed]
          exact hxr
        · rw [List.mem_singleton.mp hx]
          exact self_mem_reachSet s i
      · intro _
        exact List.mem_append.mpr (Or.inr (List.mem_singleton.mpr rfl))
      · rw [hunf1, List.reverse_append]
        simp only [List.reverse_singleton, List.singleton_append]
        refine ⟨?_, hca1⟩
        intro e he
        have hec : e.1 ∈ (nthVal s i).Children := (List.of_mem_zip he).1
        have heL : e.1 ∈ (buildTopoList s i (nthVal s i).Children (i :: visited) topo).2 :=
          hchil1 e.1 hec ((hwf i).2 e he)
        exact List.mem_reverse.mpr heL

lemma reach_subset_of_closed (s : Store) (T : List Nat)
    (hclosed : ∀ q ∈ T, ∀ e ∈ edgesOf s q, e.1 ∈ T) :
    ∀ f j, j ∈ T → ∀ x ∈ reachF s f j, x ∈ T := by
  intro f
  induction f with
  | zero =>
    intro j hj x hx
    simp only [reachF, Finset.mem_singleton] at hx
    rw [hx]
    exact hj
  | succ f ihf =>
    intro j hj x hx
    rcases (mem_reachF_succ s f j x).mp hx with rfl | ⟨e, he, hx1⟩
    · exact hj
    · exact ihf e.1 (hclosed j hj e he) x hx1

/-- The traversal of `Backward` produces a duplicate-free
children-before-parents order containing exactly the nodes reachable from
the root. -/
lemma topo_facts (s : Store) (hwf : WFStore s) (root : Nat) :
    ((buildTopo s root [] []).2).Nodup ∧
    ChildrenAfter s ((buildTopo s root [] []).2).reverse ∧
    ∀ x, x ∈ (buildTopo s root [] []).2 ↔ x ∈ reachSet s root := by
  obtain ⟨D, hT, hV, hdisj, hnd, hreach, hunch, hnew, hca⟩ :=
    buildTopo_master s hwf root [] [] List.nodup_nil (by simp) (by simp) trivial
  have hroot : root ∈ (buildTopo s root [] []).2 := by
    rw [hT]
    exact List.mem_append.mpr (Or.inr (hnew (List.not_mem_nil root)))
  refine ⟨by rw [hT]; simpa using hnd, hca, fun x => ⟨?_, ?_⟩⟩
  · intro hx
    rw [hT] at hx
    simp only [List.nil_append] at hx
    exact hreach x hx
  · intro hx
    have hclosed : ∀ q ∈ (buildTopo s root [] []).2, ∀ e ∈ edgesOf s q,
        e.1 ∈ (buildTopo s root [] []).2 := by
      intro q hq e he
      have h1 := ChildrenAfter_closed s _ hca q (List.mem_reverse.mpr hq) e he
      exact List.mem_reverse.mp h1
    exact reach_subset_of_closed s _ hclosed root root hroot x hx

/-- After `Backward`, every node's gradient satisfies the adjoint linear
system: the root seed plus the weighted final gradients of all nodes in
the order. -/
lemma Backward_equations (s : Store) (hwf : WFStore s) (root : Nat)
    (hroot : root < s.length) (hzero : ∀ i, (nthVal s i).Grad = 0) :
    ∀ t, (nthVal (Backward s root) t).Grad
      = (if t = root then 1 else 0)
        + (((buildTopo s root [] []).2).map
            (fun p => edgeWeight s p t * (nthVal (Backward s root) p).Grad)).sum := by
  obtain ⟨hnd, hca, hmem⟩ := topo_facts s hwf root
  have hgo : gradOnly (modifyAt s root (fun v => { v with Grad := 1 })) s :=
    gradOnly_modifyAt s s (gradOnly_refl s) root _
  have hswp := sweep s hwf ((buildTopo s root [] []).2).reverse _ hgo
    (List.nodup_reverse.mpr hnd) hca
  intro t
  have hB : Backward s root
      = ((buildTopo s root [] []).2).reverse.foldl backStep
          (modifyAt s root (fun v => { v with Grad := 1 })) := rfl
  rw [hB, hswp.2 t]
  congr 1
  · by_cases ht : t = root
    · rw [if_pos ht, ht, nthVal_modifyAt_self s root _ hroot]
    · rw [nthVal_modifyAt_ne s root t _ (fun h => ht h.symm), hzero t, if_neg ht]
  · rw [List.map_reverse, List.sum_reverse]

/-- The gradients computed by `Backward` are the forward partial
derivatives of the root node with respect to each node. -/
lemma Backward_nodeDeriv (s : Store) (hwf : WFStore s) (root : Nat)
    (hroot : root < s.length) (hzero : ∀ i, (nthVal s i).Grad = 0) :
    ∀ t, (nthVal (Backward s root) t).Grad = nodeDeriv s t root := by
  obtain ⟨hnd, _, hmem⟩ := topo_facts s hwf root
  have heqs := Backward_equations s hwf root hroot hzero
  have htFin : ((buildTopo s root [] []).2).toFinset = reachSet s root :=
    Finset.ext (fun x => by rw [List.mem_toFinset]; exact hmem x)
  have main : ∀ d t, s.length ≤ t + d →
      (nthVal (Backward s root) t).Grad = nodeDeriv s t root := by
    intro d
    induction d with
    | zero =>
      intro t hd
      have hnr : t ∉ reachSet s root := by
        intro h
        have h1 := reachSet_le s hwf h
        omega
      rw [nodeDeriv_not_reach s hwf t root hnr, heqs t]
      have hne : t ≠ root := by
        intro h
        subst h
        omega
      rw [if_neg hne, zero_add]
      refine List.sum_eq_zero (fun x hx => ?_)
      obtain ⟨p, hp, rfl⟩ := List.mem_map.mp hx
      have hpr : p ∈ reachSet s root := (hmem p).mp hp
      have hple : p ≤ root := reachSet_le s hwf hpr
      have hw : edgeWeight s p t = 0 := by
        by_contra hne2
        have h2 := edgeWeight_lt s hwf hne2
        omega
      rw [hw, zero_mul]
    | succ d ihd =>
      intro t hd
      rw [heqs t]
      have hterm : ∀ p ∈ (buildTopo s root [] []).2,
          edgeWeight s p t * (nthVal (Backward s root) p).Grad
            = edgeWeight s p t * nodeDeriv s p root := by
        intro p hp
        by_cases hw : edgeWeight s p t = 0
        · rw [hw, zero_mul, zero_mul]
        · have htp : t < p := edgeWeight_lt s hwf hw
          rw [ihd p (by omega)]
      rw [show ((buildTopo s root [] []).2).map
            (fun p => edgeWeight s p t * (nthVal (Backward s root) p).Grad)
            = ((buildTopo s root [] []).2).map
              (fun p => edgeWeight s p t * nodeDeriv s p root)
          from List.map_congr_left hterm]
      rw [← List.sum_toFinset _ hnd, htFin, nodeDeriv_star s hwf t root]
      congr 1
      by_cases h : t = root
      · rw [if_pos h, if_pos h.symm]
      · rw [if_neg h, if_neg (fun hh => h hh.symm)]
  intro t
  exact main s.length t (by omega)

/-- A straight-line program over the two operations the claim quantifies
over: numeric leaves, `Add` and `Mul`; operands refer to strictly earlier
instructions by position. -/
inductive PolyStep where
  | leaf (x : ℝ)
  | add (i j : Nat)
  | mul (i j : Nat)

def validStep (k : Nat) : PolyStep → Bool
  | .leaf _ => true
  | .add i j => decide (i < k) && decide (j < k)
  | .mul i j => decide (i < k) && decide (j < k)

/-- Every instruction refers only to strictly earlier instructions. -/
def ValidProg (p : List PolyStep) : Prop :=
  ∀ k, k < p.length → validStep k (p.getD k (.leaf 0)) = true

/-- Running one instruction against the store: exactly the `NewValue`,
`Add` and `Mul` constructors of the source. -/
def buildStep (s : Store) : PolyStep → Store × Nat
  | .leaf x => s.push (NewValue x)
  | .add i j => Store.add s i j
  | .mul i j => Store.mul s i j

/-- Build the whole graph from an empty store; instruction `k` allocates
node `k`. -/
def runBuild (p : List PolyStep) : Store :=
  p.foldl (fun s st => (buildStep s st).1) []

/-- The numeric value at each leaf position (0 elsewhere). -/
def leafVals (p : List PolyStep) (k : Nat) : ℝ :=
  match p.getD k (.leaf 0) with
  | .leaf x => x
  | _ => 0

def isLeafAt (p : List PolyStep) (k : Nat) : Bool :=
  match p.getD k (.leaf 0) with
  | .leaf _ => true
  | _ => false

/-- Fuel-indexed evaluation of node `k` under the leaf assignment `L`. -/
def evalProgF (p : List PolyStep) (L : Nat → ℝ) : Nat → Nat → ℝ
  | 0, _ => 0
  | fuel + 1, k =>
    match p.getD k (.leaf 0) with
    | .leaf _ => L k
    | .add i j => evalProgF p L fuel i + evalProgF p L fuel j
    | .mul i j => evalProgF p L fuel i * evalProgF p L fuel j

/-- Value of node `k` as a function of the leaf assignment `L`. -/
def evalProg (p : List PolyStep) (L : Nat → ℝ) (k : Nat) : ℝ :=
  evalProgF p L (k + 1) k

/-- Fuel-indexed symbolic partial derivative of node `k` with respect to
position `t`, with the remaining leaves at their baked-in values. -/
def derivProgF (p : List PolyStep) (t : Nat) : Nat → Nat → ℝ
  | 0, _ => 0
  | fuel + 1, k =>
    if k = t then 1
    else
      match p.getD k (.leaf 0) with
      | .leaf _ => 0
      | .add i j => derivProgF p t fuel i + derivProgF p t fuel j
      | .mul i j =>
          derivProgF p t fuel i * evalProg p (leafVals p) j
            + evalProg p (leafVals p) i * derivProgF p t fuel j

/-- Symbolic partial derivative of node `k` with respect to position `t`. -/
def derivProg (p : List PolyStep) (t k : Nat) : ℝ := derivProgF p t (k + 1) k

lemma step_lt (p : List PolyStep) (hv : ValidProg p) {k i j : Nat}
    (hstep : p.getD k (.leaf 0) = .add i j ∨ p.getD k (.leaf 0) = .mul i j) :
    i < k ∧ j < k := by
  have hkp : k < p.length := by
    by_contra h
    rw [List.getD_eq_default _ _ (by omega)] at hstep
    rcases hstep with h1 | h1 <;> exact PolyStep.noConfusion h1
  have hb := hv k hkp
  rcases hstep with h1 | h1 <;>
    · rw [h1] at hb
      simp only [validStep, Bool.and_eq_true, decide_eq_true_eq] at hb
      exact hb

lemma evalProgF_congr (p : List PolyStep) (hv : ValidProg p) (L : Nat → ℝ) :
    ∀ fuel fuel' k, k < fuel → k < fuel' →
      evalProgF p L fuel k = evalProgF p L fuel' k := by
  intro fuel
  induction fuel with
  | zero =>
    intro fuel' k hk hk'
    omega
  | succ f ih =>
    intro fuel' k hk hk'
    cases fuel' with
    | zero => omega
    | succ f' =>
      cases hstep : p.getD k (.leaf 0) with
      | leaf x => simp only [evalProgF, hstep]
      | add i j =>
        obtain ⟨hi, hj⟩ := step_lt p hv (Or.inl hstep)
        simp only [evalProgF, hstep]
        rw [ih f' i (by omega) (by omega), ih f' j (by omega) (by omega)]
      | mul i j =>
        obtain ⟨hi, hj⟩ := step_lt p hv (Or.inr hstep)
        simp only [evalProgF, hstep]
        rw [ih f' i (by omega) (by omega), ih f' j (by omega) (by omega)]

lemma derivProgF_congr (p : List PolyStep) (hv : ValidProg p) (t : Nat) :
    ∀ fuel fuel' k, k < fuel → k < fuel' →
      derivProgF p t fuel k = derivProgF p t fuel' k := by
  intro fuel
  induction fuel with
  | zero =>
    intro fuel' k hk hk'
    omega
  | succ f ih =>
    intro fuel' k hk hk'
    cases fuel' with
    | zero => omega
    | succ f' =>
      by_cases hkt : k = t
      · simp only [derivProgF, if_pos hkt]
      · cases hstep : p.getD k (.leaf 0) with
        | leaf x => simp only [derivProgF, if_neg hkt, hstep]
        | add i j =>
          obtain ⟨hi, hj⟩ := step_lt p hv (Or.inl hstep)
          simp only [derivProgF, if_neg hkt, hstep]
          rw [ih f' i (by omega) (by omega), ih f' j (by omega) (by omega)]
        | mul i j =>
          obtain ⟨hi, hj⟩ := step_lt p hv (Or.inr hstep)
          simp only [derivProgF, if_neg hkt, hstep]
          rw [ih f' i (by omega) (by omega), ih f' j (by omega) (by omega)]

lemma evalProg_leaf (p : List PolyStep) (L : Nat → ℝ) (k : Nat) (x : ℝ)
    (hstep : p.getD k (.leaf 0) = .leaf x) : evalProg p L k = L k := by
  simp only [evalProg, evalProgF, hstep]

lemma evalProg_add (p : List PolyStep) (hv : ValidProg p) (L : Nat → ℝ)
    {k i j : Nat} (hstep : p.getD k (.leaf 0) = .add i j) :
    evalProg p L k = evalProg p L i + evalProg p L j := by
  obtain ⟨hi, hj⟩ := step_lt p hv (Or.inl hstep)
  have h1 : evalProgF p L k i = evalProg p L i :=
    evalProgF_congr p hv L k (i + 1) i (by omega) (by omega)
  have h2 : evalProgF p L k j = evalProg p L j :=
    evalProgF_congr p hv L k (j + 1) j (by omega) (by omega)
  show evalProgF p L (k + 1) k = evalProg p L i + evalProg p L j
  simp only [evalProgF, hstep]
  rw [h1, h2]

lemma evalProg_mul (p : List PolyStep) (hv : ValidProg p) (L : Nat → ℝ)
    {k i j : Nat} (hstep : p.getD k (.leaf 0) = .mul i j) :
    evalProg p L k = evalProg p L i * evalProg p L j := by
  obtain ⟨hi, hj⟩ := step_lt p hv (Or.inr hstep)
  have h1 : evalProgF p L k i = evalProg p L i :=
    evalProgF_congr p hv L k (i + 1) i (by omega) (by omega)
  have h2 : evalProgF p L k j = evalProg p L j :=
    evalProgF_congr p hv L k (j + 1) j (by omega) (by omega)
  show evalProgF p L (k + 1) k = evalProg p L i * evalProg p L j
  simp only [evalProgF, hstep]
  rw [h1, h2]

lemma derivProg_self (p : List PolyStep) (t : Nat) : derivProg p t t = 1 := by
  simp [derivProg, derivProgF]

lemma derivProg_leaf (p : List PolyStep) (t k : Nat) (x : ℝ) (hkt : k ≠ t)
    (hstep : p.getD k (.leaf 0) = .leaf x) : derivProg p t k = 0 := by
  simp only [derivProg, derivProgF, if_neg hkt, hstep]

lemma derivProg_add (p : List PolyStep) (hv : ValidProg p) (t : Nat)
    {k i j : Nat} (hkt : k ≠ t) (hstep : p.getD k (.leaf 0) = .add i j) :
    derivProg p t k = derivProg p t i + derivProg p t j := by
  obtain ⟨hi, hj⟩ := step_lt p hv (Or.inl hstep)
  have h1 : derivProgF p t k i = derivProg p t i :=
    derivProgF_congr p hv t k (i + 1) i (by omega) (by omega)
  have h2 : derivProgF p t k j = derivProg p t j :=
    derivProgF_congr p hv t k (j + 1) j (by omega) (by omega)
  show derivProgF p t (k + 1) k = derivProg p t i + derivProg p t j
  simp only [derivProgF, if_neg hkt, hstep]
  rw [h1, h2]

lemma derivProg_mul (p : List PolyStep) (hv : ValidProg p) (t : Nat)
    {k i j : Nat} (hkt : k ≠ t) (hstep : p.getD k (.leaf 0) = .mul i j) :
    derivProg p t k
      = derivProg p t i * evalProg p (leafVals p) j
        + evalProg p (leafVals p) i * derivProg p t j := by
  obtain ⟨hi, hj⟩ := step_lt p hv (Or.inr hstep)
  have h1 : derivProgF p t k i = derivProg p t i :=
    derivProgF_congr p hv t k (i + 1) i (by omega) (by omega)
  have h2 : derivProgF p t k j = derivProg p t j :=
    derivProgF_congr p hv t k (j + 1) j (by omega) (by omega)
  show derivProgF p t (k + 1) k
      = derivProg p t i * evalProg p (leafVals p) j
        + evalProg p (leafVals p) i * derivProg p t j
  simp only [derivProgF, if_neg hkt, hstep]
  rw [h1, h2]

/-- The node that instruction `k` allocates, with child data already
evaluated. -/
def nodeFor (p : List PolyStep) (k : Nat) : Value :=
  match p.getD k (.leaf 0) with
  | .leaf x => NewValue x
  | .add i j =>
      { Data := evalProg p (leafVals p) i + evalProg p (leafVals p) j,
        Grad := 0, Children := [i, j], LocalGrads := [1, 1] }
  | .mul i j =>
      { Data := evalProg p (leafVals p) i * evalProg p (leafVals p) j,
        Grad := 0, Children := [i, j],
        LocalGrads := [evalProg p (leafVals p) j, evalProg p (leafVals p) i] }

lemma nodeFor_data (p : List PolyStep) (hv : ValidProg p) (k : Nat) :
    (nodeFor p k).Data = evalProg p (leafVals p) k := by
  cases hstep : p.getD k (.leaf 0) with
  | leaf x =>
    rw [evalProg_leaf p _ k x hstep]
    simp only [nodeFor, hstep, NewValue]
    rw [show leafVals p k = x by simp only [leafVals, hstep]]
  | add i j =>
    rw [evalProg_add p hv _ hstep]
    simp only [nodeFor, hstep]
  | mul i j =>
    rw [evalProg_mul p hv _ hstep]
    simp only [nodeFor, hstep]

lemma runBuild_concat (A : List PolyStep) (a : PolyStep) :
    runBuild (A ++ [a]) = (buildStep (runBuild A) a).1 := by
  rw [runBuild, runBuild, List.foldl_append]
  rfl

lemma runBuild_take (p : List PolyStep) (hv : ValidProg p) :
    ∀ m, m ≤ p.length →
      (runBuild (p.take m)).length = m ∧
      ∀ k, k < m → nthVal (runBuild (p.take m)) k = nodeFor p k := by
  intro m
  induction m with
  | zero =>
    intro _
    refine ⟨by simp [runBuild], fun k hk => absurd hk (by omega)⟩
  | succ m ihm =>
    intro hm
    obtain ⟨hlen, hval⟩ := ihm (by omega)
    have hmp : m < p.length := by omega
    have htake : p.take (m + 1) = p.take m ++ [p[m]] := by
      rw [List.take_succ]
      congr
      rw [List.getElem?_eq_getElem hmp]
      rfl
    have hrb : runBuild (p.take (m + 1))
        = (buildStep (runBuild (p.take m)) p[m]).1 := by
      rw [htake, runBuild_concat]
    have hgetD : p.getD m (.leaf 0) = p[m] :=
      List.getD_eq_getElem p _ hmp
    have hext : StoreExt (runBuild (p.take m)) (runBuild (p.take (m + 1))) := by
      rw [hrb]
      cases p[m] with
      | leaf x => exact StoreExt_push _ _
      | add i j => exact StoreExt_add _ _ _
      | mul i j => exact StoreExt_mul _ _ _
    have hlen1 : (runBuild (p.take (m + 1))).length = m + 1 := by
      rw [hrb]
      cases p[m] with
      | leaf x => simp [buildStep, Store.push, hlen]
      | add i j => simp [buildStep, Store.add, Store.push, hlen]
      | mul i j => simp [buildStep, Store.mul, Store.push, hlen]
    refine ⟨hlen1, fun k hk => ?_⟩
    by_cases hkm : k < m
    · rw [nthVal_ext hext (by rw [hlen]; exact hkm)]
      exact hval k hkm
    · have hkm1 : k = m := by omega
      subst hkm1
      rw [hrb]
      cases hstep : p[k] with
      | leaf x =>
        simp only [buildStep]
        have hps := nthVal_push_self (runBuild (p.take k)) (NewValue x)
        rw [show (Store.push (runBuild (p.take k)) (NewValue x)).2 = k from hlen]
          at hps
        rw [hps]
        simp only [nodeFor, hgetD, hstep]
      | add i j =>
        obtain ⟨hi, hj⟩ := step_lt p hv (Or.inl (hgetD.trans hstep))
        simp only [buildStep]
        have hps := add_result (runBuild (p.take k)) i j
        rw [show (Store.add (runBuild (p.take k)) i j).2 = k from hlen] at hps
        rw [hps, hval i hi, hval j hj, nodeFor_data p hv i, nodeFor_data p hv j]
        simp only [nodeFor, hgetD, hstep]
      | mul i j =>
        obtain ⟨hi, hj⟩ := step_lt p hv (Or.inr (hgetD.trans hstep))
        simp only [buildStep]
        have hps := mul_result (runBuild (p.take k)) i j
        rw [show (Store.mul (runBuild (p.take k)) i j).2 = k from hlen] at hps
        rw [hps, hval i hi, hval j hj, nodeFor_data p hv i, nodeFor_data p hv j]
        simp only [nodeFor, hgetD, hstep]

lemma runBuild_spec (p : List PolyStep) (hv : ValidProg p) :
    (runBuild p).length = p.length ∧
    ∀ k, k < p.length → nthVal (runBuild p) k = nodeFor p k := by
  have h := runBuild_take p hv p.length (le_refl _)
  rwa [List.take_length] at h

lemma runBuild_wf (p : List PolyStep) (hv : ValidProg p) :
    WFStore (runBuild p) := by
  intro q
  by_cases hq : q < p.length
  · have hn : nthVal (runBuild p) q = nodeFor p q := (runBuild_spec p hv).2 q hq
    rw [edgesOf, hn]
    cases hstep : p.getD q (.leaf 0) with
    | leaf x =>
      simp only [nodeFor, hstep, NewValue]
      simp
    | add i j =>
      obtain ⟨hi, hj⟩ := step_lt p hv (Or.inl hstep)
      simp only [nodeFor, hstep, List.zip_cons_cons, List.zip_nil_right]
      refine ⟨rfl, ?_⟩
      intro e he
      rcases List.mem_cons.mp he with rfl | he1
      · exact hi
      · rcases List.mem_cons.mp he1 with rfl | he2
        · exact hj
        · exact absurd he2 (List.not_mem_nil e)
    | mul i j =>
      obtain ⟨hi, hj⟩ := step_lt p hv (Or.inr hstep)
      simp only [nodeFor, hstep, List.zip_cons_cons, List.zip_nil_right]
      refine ⟨rfl, ?_⟩
      intro e he
      rcases List.mem_cons.mp he with rfl | he1
      · exact hi
      · rcases List.mem_cons.mp he1 with rfl | he2
        · exact hj
        · exact absurd he2 (List.not_mem_nil e)
  · have hd : nthVal (runBuild p) q = default := by
      rw [nthVal, List.getD_eq_default]
      rw [(runBuild_spec p hv).1]
      omega
    rw [edgesOf, hd]
    simp [default]

lemma runBuild_grad_zero (p : List PolyStep) (hv : ValidProg p) :
    ∀ k, (nthVal (runBuild p) k).Grad = 0 := by
  intro k
  by_cases hk : k < p.length
  · rw [(runBuild_spec p hv).2 k hk]
    cases hstep : p.getD k (.leaf 0) with
    | leaf x => simp only [nodeFor, hstep, NewValue]
    | add i j => simp only [nodeFor, hstep]
    | mul i j => simp only [nodeFor, hstep]
  · rw [nthVal, List.getD_eq_default]
    · rfl
    · rw [(runBuild_spec p hv).1]
      omega

lemma nodeDeriv_runBuild (p : List PolyStep) (hv : ValidProg p) (t : Nat) :
    ∀ k, nodeDeriv (runBuild p) t k = derivProg p t k := by
  intro k
  induction k using Nat.strong_induction_on with
  | _ k ih =>
    rw [nodeDeriv_eq (runBuild p) (runBuild_wf p hv) t k]
    by_cases hkt : k = t
    · rw [if_pos hkt, hkt, derivProg_self]
    · rw [if_neg hkt]
      by_cases hq : k < p.length
      · have hedges : edgesOf (runBuild p) k
            = (nodeFor p k).Children.zip (nodeFor p k).LocalGrads := by
          rw [edgesOf, (runBuild_spec p hv).2 k hq]
        cases hstep : p.getD k (.leaf 0) with
        | leaf x =>
          rw [derivProg_leaf p t k x hkt hstep, hedges]
          simp only [nodeFor, hstep, NewValue]
          simp
        | add i j =>
          obtain ⟨hi, hj⟩ := step_lt p hv (Or.inl hstep)
          rw [derivProg_add p hv t hkt hstep, hedges]
          simp only [nodeFor, hstep, List.zip_cons_cons, List.zip_nil_right,
            List.map_cons, List.map_nil, List.sum_cons, List.sum_nil]
          rw [ih i hi, ih j hj]
          ring
        | mul i j =>
          obtain ⟨hi, hj⟩ := step_lt p hv (Or.inr hstep)
          rw [derivProg_mul p hv t hkt hstep, hedges]
          simp only [nodeFor, hstep, List.zip_cons_cons, List.zip_nil_right,
            List.map_cons, List.map_nil, List.sum_cons, List.sum_nil]
          rw [ih i hi, ih j hj]
          ring
      · have hstep : p.getD k (.leaf 0) = .leaf 0 :=
          List.getD_eq_default _ _ (by omega)
        rw [derivProg_leaf p t k 0 hkt hstep]
        have hd : nthVal (runBuild p) k = default := by
          rw [nthVal, List.getD_eq_default]
          rw [(runBuild_spec p hv).1]
          omega
        rw [edgesOf, hd]
        simp [default]

/-- The symbolic derivative is the true derivative: the value of any node
as a function of the leaf at position `t` is differentiable with
derivative `derivProg`. -/
lemma evalProg_hasDeriv (p : List PolyStep) (hv : ValidProg p) (t : Nat)
    (hlf : isLeafAt p t = true) :
    ∀ k, HasDerivAt (fun x => evalProg p (Function.update (leafVals p) t x) k)
      (derivProg p t k) (leafVals p t) := by
  intro k
  induction k using Nat.strong_induction_on with
  | _ k ih =>
    by_cases hkt : k = t
    · subst hkt
      have hstep : ∃ x, p.getD k (.leaf 0) = .leaf x := by
        revert hlf
        rw [isLeafAt]
        cases p.getD k (.leaf 0) with
        | leaf x => exact fun _ => ⟨x, rfl⟩
        | add i j => exact fun h => absurd h (by simp)
        | mul i j => exact fun h => absurd h (by simp)
      obtain ⟨x, hstep⟩ := hstep
      have hfun : (fun y => evalProg p (Function.update (leafVals p) k y) k)
          = fun y => y := by
        funext y
        rw [evalProg_leaf p _ k x hstep, Function.update_same]
      rw [derivProg_self p k, hfun]
      simpa using hasDerivAt_id (leafVals p k)
    · cases hstep : p.getD k (.leaf 0) with
      | leaf x =>
        have hfun : (fun y => evalProg p (Function.update (leafVals p) t y) k)
            = fun _ => leafVals p k := by
          funext y
          rw [evalProg_leaf p _ k x hstep, Function.update_noteq hkt,
            show leafVals p k = x by simp only [leafVals, hstep]]
        rw [derivProg_leaf p t k x hkt hstep, hfun]
        exact hasDerivAt_const _ _
      | add i j =>
        obtain ⟨hi, hj⟩ := step_lt p hv (Or.inl hstep)
        have hfun : (fun y => evalProg p (Function.update (leafVals p) t y) k)
            = fun y => evalProg p (Function.update (leafVals p) t y) i
                + evalProg p (Function.update (leafVals p) t y) j := by
          funext y
          rw [evalProg_add p hv _ hstep]
        rw [derivProg_add p hv t hkt hstep, hfun]
        exact (ih i hi).add (ih j hj)
      | mul i j =>
        obtain ⟨hi, hj⟩ := step_lt p hv (Or.inr hstep)
        have hfun : (fun y => evalProg p (Function.update (leafVals p) t y) k)
            = fun y => evalProg p (Function.update (leafVals p) t y) i
                * evalProg p (Function.update (leafVals p) t y) j := by
          funext y
          rw [evalProg_mul p hv _ hstep]
        rw [derivProg_mul p hv t hkt hstep, hfun]
        have hmul := (ih i hi).mul (ih j hj)
        rw [Function.update_eq_self t (leafVals p)] at hmul
        exact hmul

/-- Claim C1: for every computation graph built purely from the add and
mul operations over leaf nodes (any well-formed straight-line program
`p`), the graph is constructed with all gradients zero, the root's `Data`
is the evaluation of the program, and calling `Backward` on the root sets
every leaf's `Grad` field to the partial derivative of the root's value
with respect to that leaf's value: the function mapping the leaf's value
to the root's value has, at the stored leaf value, exactly that gradient
as its derivative. -/
theorem Backward_grad_spec (p : List PolyStep) (root t : Nat)
    (hv : ValidProg p) (hroot : root < p.length) (ht : t < p.length)
    (hlf : isLeafAt p t = true) :
    (nthVal (runBuild p) root).Data = evalProg p (leafVals p) root ∧
    (∀ k, (nthVal (runBuild p) k).Grad = 0) ∧
    HasDerivAt (fun x => evalProg p (Function.update (leafVals p) t x) root)
      ((nthVal (Backward (runBuild p) root) t).Grad) (leafVals p t) := by
  refine ⟨?_, runBuild_grad_zero p hv, ?_⟩
  · rw [(runBuild_spec p hv).2 root hroot, nodeFor_data p hv root]
  · rw [Backward_nodeDeriv (runBuild p) (runBuild_wf p hv) root
      (by rw [(runBuild_spec p hv).1]; exact hroot) (runBuild_grad_zero p hv) t,
      nodeDeriv_runBuild p hv t root]
    exact evalProg_hasDeriv p hv t hlf root

/-- The demonstration graph `(3 * 4) + (3 * 4)`: two leaves, a product
and a diamond-shaped sum that reuses the product node twice. -/
def demoProg : List PolyStep :=
  [PolyStep.leaf 3, PolyStep.leaf 4, PolyStep.mul 0 1, PolyStep.add 2 2]

lemma demoProg_valid : ValidProg demoProg := by
  show ∀ k, k < demoProg.length → validStep k (demoProg.getD k (.leaf 0)) = true
  decide

/-- Concrete instantiation of the backward-correctness theorem on the
diamond graph, differentiating the root with respect to leaf 0. -/
theorem Backward_grad_spec_witness :
    (ValidProg demoProg ∧ 3 < demoProg.length ∧ 0 < demoProg.length ∧
      isLeafAt demoProg 0 = true) ∧
    ((nthVal (runBuild demoProg) 3).Data
        = evalProg demoProg (leafVals demoProg) 3 ∧
      (∀ k, (nthVal (runBuild demoProg) k).Grad = 0) ∧
      HasDerivAt
        (fun x => evalProg demoProg (Function.update (leafVals demoProg) 0 x) 3)
        ((nthVal (Backward (runBuild demoProg) 3) 0).Grad)
        (leafVals demoProg 0)) :=
  ⟨⟨demoProg_valid, by decide, by decide, rfl⟩,
    Backward_grad_spec demoProg 3 0 demoProg_valid (by decide) (by decide) rfl⟩
